import Mathlib

/-!
# Instruction substitution pass (`Substitution.cpp`)

A shallow embedding of `polaris::Substitution` and of the part of the host IR
it touches: values, instructions, basic blocks, the emitter with its insert
point, consumer rewiring, the random source and the two statistics counters.
-/

namespace polaris

/-! ## Host IR -/

/-- An SSA value read by an instruction: a function argument (or any value
defined outside the function), an integer constant, or the result of the
instruction with the given identity. -/
inductive Value where
  | argument (n : Nat)
  | constant (c : Nat)
  | instruction (id : Nat)
  deriving DecidableEq, Repr

/-- The operator kinds of a `BinaryOperator`. -/
inductive BinaryOps where
  | Add | FAdd | Sub | FSub | Mul | FMul | UDiv | SDiv | FDiv
  | URem | SRem | FRem | Shl | LShr | AShr | And | Or | Xor
  deriving DecidableEq, Repr

/-- The one-operand primitives of the emitter. -/
inductive UnaryOps where
  | Neg | Not
  deriving DecidableEq, Repr

/-- A binary operation: its identity (the address of the object in the
source), operator kind, bit width of its integer type and two operands. -/
structure BinaryOperator where
  id : Nat
  opcode : BinaryOps
  ty : Nat
  op0 : Value
  op1 : Value
  deriving DecidableEq, Repr

/-- An instruction of a basic block: a binary operation, a negate / not
produced by the emitter, or any other instruction (load, call, compare, ...)
of which only the identity and the operands matter here. -/
inductive Instruction where
  | binary (BI : BinaryOperator)
  | unary (id : Nat) (opcode : UnaryOps) (ty : Nat) (op : Value)
  | other (id : Nat) (operands : List Value)
  deriving DecidableEq, Repr

abbrev BasicBlock := List Instruction

abbrev Function := List BasicBlock

/-- Operand `i` of a binary operation (`BI->getOperand(i)`). -/
def BinaryOperator.getOperand (BI : BinaryOperator) (i : Nat) : Value :=
  if i = 0 then BI.op0 else BI.op1

/-- Identity of an instruction. -/
def Instruction.id : Instruction → Nat
  | .binary BI => BI.id
  | .unary id _ _ _ => id
  | .other id _ => id

/-- The values an instruction reads, in operand order. -/
def Instruction.operands : Instruction → List Value
  | .binary BI => [BI.op0, BI.op1]
  | .unary _ _ _ op => [op]
  | .other _ ops => ops

/-- Redirect one operand slot: a slot reading `old` reads `new` afterwards. -/
def Value.replaceUsesOfWith (v : Value) (old : Nat) (new : Value) : Value :=
  if v = Value.instruction old then new else v

/-- Redirect every operand of one instruction that reads `old` to `new`. -/
def Instruction.replaceUsesOfWith (old : Nat) (new : Value) : Instruction → Instruction
  | .binary BI =>
      .binary { BI with op0 := BI.op0.replaceUsesOfWith old new,
                        op1 := BI.op1.replaceUsesOfWith old new }
  | .unary id opc ty op => .unary id opc ty (op.replaceUsesOfWith old new)
  | .other id ops => .other id (ops.map (fun v => v.replaceUsesOfWith old new))

/-- All instructions of a function in layout order. -/
def Function.insts (F : Function) : List Instruction := F.flatten

/-- The instruction object with the given identity (pointer dereference). -/
def findInst (F : Function) (id : Nat) : Option Instruction :=
  F.insts.find? (fun J => J.id == id)

/-- Insert `I` immediately before the instruction `p` of a block. -/
def insertBeforeBB (p : Nat) (I : Instruction) : BasicBlock → BasicBlock
  | [] => []
  | J :: rest => if J.id = p then I :: J :: rest else J :: insertBeforeBB p I rest

/-- Insert `I` immediately before the instruction `p`, in the block that owns `p`. -/
def insertBeforeF (p : Nat) (I : Instruction) : Function → Function
  | [] => []
  | BB :: rest =>
      if p ∈ BB.map Instruction.id then insertBeforeBB p I BB :: rest
      else BB :: insertBeforeF p I rest

/-- `dyn_cast<BinaryOperator>(I)`. -/
def dyn_cast_BinaryOperator : Instruction → Option BinaryOperator
  | .binary BI => some BI
  | _ => none

/-! ## Pass state -/

/-- One call of `replaceAllUsesWith`: the instruction whose consumers were
rewired, the value they were rewired to, and the function as it stood when the
call was made. -/
structure Rewiring where
  old : Nat
  new : Value
  before : Function
  deriving DecidableEq, Repr

/-- Everything the pass reads or writes: the function being processed, the
insert point of the global `builder`, the allocator of fresh instruction
identities, the random source (the stream of values it returns and the number
of values already drawn), the two `STATISTIC` counters, and the trace of calls
made to the host IR (instructions created by the emitter, consumer rewirings). -/
structure State where
  F : Function
  insertPt : Option Nat
  nextId : Nat
  rand : Nat → Nat
  randPos : Nat
  NumSubstitutions : Nat
  NumInstructionsInserted : Nat
  created : List Instruction
  replaced : List Rewiring

/-- Modelled from the spec: `NUMBER_XOR_SUBST` of `Substitution.h`, which is not
part of the sources at hand; the Xor catalog lists two rules. -/
def NUMBER_XOR_SUBST : Nat := 2

/-- Modelled from the spec: `NUMBER_AND_SUBST` of `Substitution.h`, which is not
part of the sources at hand; the And catalog lists two rules. -/
def NUMBER_AND_SUBST : Nat := 2

/-- Modelled from the spec: `getRandomNumber` of `Utils.h`; the random source
returns the next non-negative integer of its stream. -/
def getRandomNumber (st : State) : Nat × State :=
  (st.rand st.randPos, { st with randPos := st.randPos + 1 })

/-- `ConstantInt::get(Ty, V)`: the constant `V` truncated to the width of `Ty`. -/
def ConstantInt.get (ty : Nat) (V : Nat) : Value :=
  Value.constant (V % 2 ^ ty)

/-- `builder->SetInsertPoint(BI)`. -/
def SetInsertPoint (p : Nat) (st : State) : State :=
  { st with insertPt := some p }

/-- Place `I` at the insert point `pt`; an emitter without insert point creates
the instruction without placing it in a block. -/
def emit (pt : Option Nat) (F : Function) (I : Instruction) : Function :=
  match pt with
  | some p => insertBeforeF p I F
  | none => F

/-- Modelled from the spec: the emitter (`IRBuilder`, not part of the sources
at hand). One constructor call creates one new instruction with a fresh
identity, places it immediately before the insert point and returns its value. -/
def State.Insert (I : Instruction) (st : State) : Value × State :=
  (Value.instruction I.id,
   { st with
     F := emit st.insertPt st.F I
     nextId := st.nextId + 1
     created := st.created ++ [I] })

/-- Emitter call for a two-operand primitive of width `ty`. -/
def CreateBinOp (opc : BinaryOps) (ty : Nat) (lhs rhs : Value) (st : State) : Value × State :=
  st.Insert (.binary ⟨st.nextId, opc, ty, lhs, rhs⟩)

def CreateAdd (ty : Nat) (lhs rhs : Value) (st : State) : Value × State :=
  CreateBinOp .Add ty lhs rhs st

def CreateSub (ty : Nat) (lhs rhs : Value) (st : State) : Value × State :=
  CreateBinOp .Sub ty lhs rhs st

def CreateAnd (ty : Nat) (lhs rhs : Value) (st : State) : Value × State :=
  CreateBinOp .And ty lhs rhs st

def CreateOr (ty : Nat) (lhs rhs : Value) (st : State) : Value × State :=
  CreateBinOp .Or ty lhs rhs st

def CreateXor (ty : Nat) (lhs rhs : Value) (st : State) : Value × State :=
  CreateBinOp .Xor ty lhs rhs st

/-- Emitter call for negate (`0 - V`). -/
def CreateNeg (ty : Nat) (V : Value) (st : State) : Value × State :=
  st.Insert (.unary st.nextId .Neg ty V)

/-- Emitter call for bitwise complement. -/
def CreateNot (ty : Nat) (V : Value) (st : State) : Value × State :=
  st.Insert (.unary st.nextId .Not ty V)

/-- `BI->replaceAllUsesWith(op)`: every instruction of the function that reads
`BI` reads `op` afterwards. -/
def replaceAllUsesWith (BI : BinaryOperator) (op : Value) (st : State) : State :=
  { st with
    F := st.F.map (fun BB => BB.map (Instruction.replaceUsesOfWith BI.id op))
    replaced := st.replaced ++ [⟨BI.id, op, st.F⟩] }

/-- `++NumInstructionsInserted`. -/
def incNumInstructionsInserted (st : State) : State :=
  { st with NumInstructionsInserted := st.NumInstructionsInserted + 1 }

/-- `++NumSubstitutions`. -/
def incNumSubstitutions (st : State) : State :=
  { st with NumSubstitutions := st.NumSubstitutions + 1 }

/-! ## The rules -/

def addNeg (BI : BinaryOperator) (st : State) : State :=
  let (op, st) := CreateNeg BI.ty (BI.getOperand 1) st
  let st := incNumInstructionsInserted st
  let (op, st) := CreateSub BI.ty (BI.getOperand 0) op st
  let st := incNumInstructionsInserted st
  let st := replaceAllUsesWith BI op st
  incNumSubstitutions st

def addDoubleNeg (BI : BinaryOperator) (st : State) : State :=
  let (op1, st) := CreateNeg BI.ty (BI.getOperand 0) st
  let st := incNumInstructionsInserted st
  let (op2, st) := CreateNeg BI.ty (BI.getOperand 1) st
  let st := incNumInstructionsInserted st
  let (op, st) := CreateAdd BI.ty op1 op2 st
  let st := incNumInstructionsInserted st
  let (op, st) := CreateNeg BI.ty op st
  let st := incNumInstructionsInserted st
  let st := replaceAllUsesWith BI op st
  incNumSubstitutions st

def addRand (BI : BinaryOperator) (st : State) : State :=
  let (d, st) := getRandomNumber st
  let r := ConstantInt.get BI.ty d
  let (op, st) := CreateAdd BI.ty (BI.getOperand 0) r st
  let st := incNumInstructionsInserted st
  let (op, st) := CreateAdd BI.ty op (BI.getOperand 1) st
  let st := incNumInstructionsInserted st
  let (op, st) := CreateSub BI.ty op r st
  let st := incNumInstructionsInserted st
  let st := replaceAllUsesWith BI op st
  incNumSubstitutions st

def addRand2 (BI : BinaryOperator) (st : State) : State :=
  let (d, st) := getRandomNumber st
  let r := ConstantInt.get BI.ty d
  let (op, st) := CreateSub BI.ty (BI.getOperand 0) r st
  let st := incNumInstructionsInserted st
  let (op, st) := CreateAdd BI.ty op (BI.getOperand 1) st
  let st := incNumInstructionsInserted st
  let (op, st) := CreateAdd BI.ty op r st
  let st := incNumInstructionsInserted st
  let st := replaceAllUsesWith BI op st
  incNumSubstitutions st

def subNeg (BI : BinaryOperator) (st : State) : State :=
  let (op, st) := CreateNeg BI.ty (BI.getOperand 1) st
  let st := incNumInstructionsInserted st
  let (op, st) := CreateAdd BI.ty (BI.getOperand 0) op st
  let st := incNumInstructionsInserted st
  let st := replaceAllUsesWith BI op st
  incNumSubstitutions st

def subRand (BI : BinaryOperator) (st : State) : State :=
  let (d, st) := getRandomNumber st
  let r := ConstantInt.get BI.ty d
  let (op, st) := CreateAdd BI.ty (BI.getOperand 0) r st
  let st := incNumInstructionsInserted st
  let (op, st) := CreateSub BI.ty op (BI.getOperand 1) st
  let st := incNumInstructionsInserted st
  let (op, st) := CreateSub BI.ty op r st
  let st := incNumInstructionsInserted st
  let st := replaceAllUsesWith BI op st
  incNumSubstitutions st

def subRand2 (BI : BinaryOperator) (st : State) : State :=
  let (d, st) := getRandomNumber st
  let r := ConstantInt.get BI.ty d
  let (op, st) := CreateSub BI.ty (BI.getOperand 0) r st
  let st := incNumInstructionsInserted st
  let (op, st) := CreateSub BI.ty op (BI.getOperand 1) st
  let st := incNumInstructionsInserted st
  let (op, st) := CreateAdd BI.ty op r st
  let st := incNumInstructionsInserted st
  let st := replaceAllUsesWith BI op st
  incNumSubstitutions st

def xorSubstitute (BI : BinaryOperator) (st : State) : State :=
  let (op1, st) := CreateNot BI.ty (BI.getOperand 0) st
  let st := incNumInstructionsInserted st
  let (op1, st) := CreateAnd BI.ty op1 (BI.getOperand 1) st
  let st := incNumInstructionsInserted st
  let (op2, st) := CreateNot BI.ty (BI.getOperand 1) st
  let st := incNumInstructionsInserted st
  let (op2, st) := CreateAnd BI.ty (BI.getOperand 0) op2 st
  let st := incNumInstructionsInserted st
  let (op, st) := CreateOr BI.ty op1 op2 st
  let st := incNumInstructionsInserted st
  let st := replaceAllUsesWith BI op st
  incNumSubstitutions st

def xorSubstituteRand (BI : BinaryOperator) (st : State) : State :=
  let (d, st) := getRandomNumber st
  let r := ConstantInt.get BI.ty d
  let (op1, st) := CreateNot BI.ty (BI.getOperand 0) st
  let st := incNumInstructionsInserted st
  let (op1, st) := CreateAnd BI.ty op1 r st
  let st := incNumInstructionsInserted st
  let (op2, st) := CreateNot BI.ty r st
  let st := incNumInstructionsInserted st
  let (op2, st) := CreateAnd BI.ty (BI.getOperand 0) op2 st
  let st := incNumInstructionsInserted st
  let (op, st) := CreateOr BI.ty op1 op2 st
  let st := incNumInstructionsInserted st
  let (op1, st) := CreateNot BI.ty (BI.getOperand 1) st
  let st := incNumInstructionsInserted st
  let (op1, st) := CreateAnd BI.ty op1 r st
  let st := incNumInstructionsInserted st
  let (op2, st) := CreateNot BI.ty r st
  let st := incNumInstructionsInserted st
  let (op2, st) := CreateAnd BI.ty (BI.getOperand 1) op2 st
  let st := incNumInstructionsInserted st
  let (op3, st) := CreateOr BI.ty op1 op2 st
  let st := incNumInstructionsInserted st
  let (op, st) := CreateXor BI.ty op op3 st
  let st := incNumInstructionsInserted st
  let st := replaceAllUsesWith BI op st
  incNumSubstitutions st

def andSubstitute (BI : BinaryOperator) (st : State) : State :=
  let (op, st) := CreateNot BI.ty (BI.getOperand 1) st
  let st := incNumInstructionsInserted st
  let (op, st) := CreateXor BI.ty (BI.getOperand 0) op st
  let st := incNumInstructionsInserted st
  let (op, st) := CreateAnd BI.ty op (BI.getOperand 0) st
  let st := incNumInstructionsInserted st
  let st := replaceAllUsesWith BI op st
  incNumSubstitutions st

def andSubstituteRand (BI : BinaryOperator) (st : State) : State :=
  let (d, st) := getRandomNumber st
  let r := ConstantInt.get BI.ty d
  let (op, st) := CreateNot BI.ty (BI.getOperand 0) st
  let st := incNumInstructionsInserted st
  let (op1, st) := CreateNot BI.ty (BI.getOperand 1) st
  let st := incNumInstructionsInserted st
  let (op, st) := CreateOr BI.ty op op1 st
  let st := incNumInstructionsInserted st
  let (op, st) := CreateNot BI.ty op st
  let st := incNumInstructionsInserted st
  let (op1, st) := CreateNot BI.ty r st
  let st := incNumInstructionsInserted st
  let (op1, st) := CreateOr BI.ty r op1 st
  let st := incNumInstructionsInserted st
  let (op, st) := CreateAnd BI.ty op op1 st
  let st := incNumInstructionsInserted st
  let st := replaceAllUsesWith BI op st
  incNumSubstitutions st

def orSubstitute (BI : BinaryOperator) (st : State) : State :=
  let (op, st) := CreateAnd BI.ty (BI.getOperand 0) (BI.getOperand 1) st
  let st := incNumInstructionsInserted st
  let (op1, st) := CreateXor BI.ty (BI.getOperand 0) (BI.getOperand 1) st
  let st := incNumInstructionsInserted st
  let (op, st) := CreateOr BI.ty op op1 st
  let st := incNumInstructionsInserted st
  let st := replaceAllUsesWith BI op st
  incNumSubstitutions st

def orSubstituteRand (BI : BinaryOperator) (st : State) : State :=
  let (d, st) := getRandomNumber st
  let r := ConstantInt.get BI.ty d
  let (op, st) := CreateNot BI.ty (BI.getOperand 0) st
  let st := incNumInstructionsInserted st
  let (op1, st) := CreateNot BI.ty (BI.getOperand 1) st
  let st := incNumInstructionsInserted st
  let (op, st) := CreateAnd BI.ty op op1 st
  let st := incNumInstructionsInserted st
  let (op, st) := CreateNot BI.ty op st
  let st := incNumInstructionsInserted st
  let (op1, st) := CreateNot BI.ty r st
  let st := incNumInstructionsInserted st
  let (op1, st) := CreateOr BI.ty r op1 st
  let st := incNumInstructionsInserted st
  let (op, st) := CreateAnd BI.ty op op1 st
  let st := incNumInstructionsInserted st
  let st := replaceAllUsesWith BI op st
  incNumSubstitutions st

/-! ## Dispatchers -/

def substituteAdd (BI : BinaryOperator) (st : State) : State :=
  let (d, st) := getRandomNumber st
  match d % 4 with
  | 0 => addNeg BI st
  | 1 => addDoubleNeg BI st
  | 2 => addRand BI st
  | 3 => addRand2 BI st
  | _ => st

def substituteSub (BI : BinaryOperator) (st : State) : State :=
  let (d, st) := getRandomNumber st
  match d % 3 with
  | 0 => subNeg BI st
  | 1 => subRand BI st
  | 2 => subRand2 BI st
  | _ => st

def substituteXor (BI : BinaryOperator) (st : State) : State :=
  let (d, st) := getRandomNumber st
  let _choice := d % NUMBER_XOR_SUBST
  let (d, st) := getRandomNumber st
  match d % 2 with
  | 0 => xorSubstitute BI st
  | 1 => xorSubstituteRand BI st
  | _ => st

def substituteAnd (BI : BinaryOperator) (st : State) : State :=
  let (d, st) := getRandomNumber st
  let choice := d % NUMBER_AND_SUBST
  match choice with
  | 0 => andSubstitute BI st
  | 1 => andSubstituteRand BI st
  | _ => st

def substituteOr (BI : BinaryOperator) (st : State) : State :=
  let (d, st) := getRandomNumber st
  match d % 2 with
  | 0 => orSubstitute BI st
  | 1 => orSubstituteRand BI st
  | _ => st

def substitute (BI : BinaryOperator) (st : State) : State :=
  match BI.opcode with
  | .Add => substituteAdd BI st
  | .Sub => substituteSub BI st
  | .And => substituteAnd BI st
  | .Or => substituteOr BI st
  | .Xor => substituteXor BI st
  | _ => st

/-! ## Driver -/

/-- Body of the loop over `origInst`: `I` is a pointer, so the instruction is
read as it stands when it is visited. -/
def visit (I : Nat) (st : State) : State :=
  match findInst st.F I with
  | some J =>
      match dyn_cast_BinaryOperator J with
      | some BI => substitute BI (SetInsertPoint BI.id st)
      | none => st
  | none => st

/-- Body of the loop over the blocks: snapshot the instructions of block `k`
into `origInst`, then visit the snapshot. -/
def visitBlock (k : Nat) (st : State) : State :=
  let origInst := (st.F.getD k []).map Instruction.id
  origInst.foldl (fun st I => visit I st) st

/-- `Substitution::run`. `srand` is the host's seeding function: the stream
the random source returns after being seeded with a value. The line written
to `errs()` and the `PreservedAnalyses` returned are left out. -/
def run (srand : Int → Nat → Nat) (SubstitutionSeed : Int) (st : State) : State :=
  let st := if SubstitutionSeed ≠ 0 then
      { st with rand := srand SubstitutionSeed, randPos := 0 } else st
  let st := incNumSubstitutions st
  let st := incNumInstructionsInserted st
  let st := { st with insertPt := none }
  (List.range st.F.length).foldl (fun st k => visitBlock k st) st

/-! ## Value semantics -/

/-- The part of the meaning of a function that the pass does not interpret:
the values of the arguments, the operators without a rule, and the
instructions that are not binary operations (given their identity and the
values of their operands). -/
structure Interp where
  arg : Nat → Nat
  binop : BinaryOps → Nat → Nat → Nat → Nat
  other : Nat → List Nat → Nat

/-- Wraparound subtraction at width `w`. -/
def subW (w x y : Nat) : Nat :=
  (x % 2 ^ w + (2 ^ w - y % 2 ^ w)) % 2 ^ w

/-- Wraparound addition at width `w`. -/
def addW (w x y : Nat) : Nat :=
  (x % 2 ^ w + y % 2 ^ w) % 2 ^ w

/-- Bitwise complement at width `w`. -/
def notW (w x : Nat) : Nat :=
  (x % 2 ^ w) ^^^ (2 ^ w - 1)

def evalBinary (I : Interp) (opc : BinaryOps) (w x y : Nat) : Nat :=
  match opc with
  | .Add => addW w x y
  | .Sub => subW w x y
  | .And => (x % 2 ^ w) &&& (y % 2 ^ w)
  | .Or => (x % 2 ^ w) ||| (y % 2 ^ w)
  | .Xor => (x % 2 ^ w) ^^^ (y % 2 ^ w)
  | o => I.binop o w x y

def evalUnary (opc : UnaryOps) (w x : Nat) : Nat :=
  match opc with
  | .Neg => subW w 0 x
  | .Not => notW w x

def evalValue (I : Interp) (regs : Nat → Nat) : Value → Nat
  | .argument n => I.arg n
  | .constant c => c
  | .instruction id => regs id

def evalInst (I : Interp) (regs : Nat → Nat) : Instruction → Nat
  | .binary BI => evalBinary I BI.opcode BI.ty (evalValue I regs BI.op0) (evalValue I regs BI.op1)
  | .unary _ opc ty op => evalUnary opc ty (evalValue I regs op)
  | .other id ops => I.other id (ops.map (evalValue I regs))

/-- Execute a straight-line list of instructions: each one stores its value
under its identity. -/
def exec (I : Interp) (regs : Nat → Nat) : List Instruction → Nat → Nat
  | [] => regs
  | J :: rest => exec I (Function.update regs J.id (evalInst I regs J)) rest

/-! ## Specification vocabulary -/

/-- A value that exists when the next fresh identity is `n`: it is not the
result of an instruction that has yet to be created. -/
def Value.definedBelow (n : Nat) : Value → Prop
  | .instruction id => id < n
  | _ => True

/-- The instructions created by the emitter between two states. -/
def emitted (before after : State) : List Instruction :=
  after.created.drop before.created.length

/-- The consumer rewirings performed between two states. -/
def rewirings (before after : State) : List Rewiring :=
  after.replaced.drop before.replaced.length

/-- The value the consumers were last rewired to between two states. -/
def finalValue (before after : State) : Option Value :=
  (rewirings before after).getLast?.map Rewiring.new

/-- The number the final value stands for once the emitted instructions have
been executed from the register file `regs`. -/
def builtValue (I : Interp) (regs : Nat → Nat) (before after : State) : Option Nat :=
  (finalValue before after).map (evalValue I (exec I regs (emitted before after)))

/-- The names of the rewrite rules. -/
inductive Rule where
  | addNeg | addDoubleNeg | addRand | addRand2
  | subNeg | subRand | subRand2
  | xorPlain | xorRand
  | andPlain | andRand
  | orPlain | orRand
  deriving DecidableEq, Repr

/-- The source function of each rule. -/
def Rule.apply : Rule → BinaryOperator → State → State
  | .addNeg => polaris.addNeg
  | .addDoubleNeg => polaris.addDoubleNeg
  | .addRand => polaris.addRand
  | .addRand2 => polaris.addRand2
  | .subNeg => polaris.subNeg
  | .subRand => polaris.subRand
  | .subRand2 => polaris.subRand2
  | .xorPlain => polaris.xorSubstitute
  | .xorRand => polaris.xorSubstituteRand
  | .andPlain => polaris.andSubstitute
  | .andRand => polaris.andSubstituteRand
  | .orPlain => polaris.orSubstitute
  | .orRand => polaris.orSubstituteRand

/-- The operator each rule re-expresses. -/
def Rule.opcode : Rule → BinaryOps
  | .addNeg | .addDoubleNeg | .addRand | .addRand2 => .Add
  | .subNeg | .subRand | .subRand2 => .Sub
  | .xorPlain | .xorRand => .Xor
  | .andPlain | .andRand => .And
  | .orPlain | .orRand => .Or

/-- The number of values a rule draws from the random source. -/
def Rule.draws : Rule → Nat
  | .addRand | .addRand2 | .subRand | .subRand2 | .xorRand | .andRand | .orRand => 1
  | _ => 0

/-- The instruction sequence of each rule for operands `a`, `b`, constant `r`
and width `w`, when the first fresh identity is `n`. -/
def Rule.insts (n w : Nat) (a b r : Value) : Rule → List Instruction
  | .addNeg =>
      [.unary n .Neg w b,
       .binary ⟨n + 1, .Sub, w, a, .instruction n⟩]
  | .addDoubleNeg =>
      [.unary n .Neg w a,
       .unary (n + 1) .Neg w b,
       .binary ⟨n + 2, .Add, w, .instruction n, .instruction (n + 1)⟩,
       .unary (n + 3) .Neg w (.instruction (n + 2))]
  | .addRand =>
      [.binary ⟨n, .Add, w, a, r⟩,
       .binary ⟨n + 1, .Add, w, .instruction n, b⟩,
       .binary ⟨n + 2, .Sub, w, .instruction (n + 1), r⟩]
  | .addRand2 =>
      [.binary ⟨n, .Sub, w, a, r⟩,
       .binary ⟨n + 1, .Add, w, .instruction n, b⟩,
       .binary ⟨n + 2, .Add, w, .instruction (n + 1), r⟩]
  | .subNeg =>
      [.unary n .Neg w b,
       .binary ⟨n + 1, .Add, w, a, .instruction n⟩]
  | .subRand =>
      [.binary ⟨n, .Add, w, a, r⟩,
       .binary ⟨n + 1, .Sub, w, .instruction n, b⟩,
       .binary ⟨n + 2, .Sub, w, .instruction (n + 1), r⟩]
  | .subRand2 =>
      [.binary ⟨n, .Sub, w, a, r⟩,
       .binary ⟨n + 1, .Sub, w, .instruction n, b⟩,
       .binary ⟨n + 2, .Add, w, .instruction (n + 1), r⟩]
  | .xorPlain =>
      [.unary n .Not w a,
       .binary ⟨n + 1, .And, w, .instruction n, b⟩,
       .unary (n + 2) .Not w b,
       .binary ⟨n + 3, .And, w, a, .instruction (n + 2)⟩,
       .binary ⟨n + 4, .Or, w, .instruction (n + 1), .instruction (n + 3)⟩]
  | .xorRand =>
      [.unary n .Not w a,
       .binary ⟨n + 1, .And, w, .instruction n, r⟩,
       .unary (n + 2) .Not w r,
       .binary ⟨n + 3, .And, w, a, .instruction (n + 2)⟩,
       .binary ⟨n + 4, .Or, w, .instruction (n + 1), .instruction (n + 3)⟩,
       .unary (n + 5) .Not w b,
       .binary ⟨n + 6, .And, w, .instruction (n + 5), r⟩,
       .unary (n + 7) .Not w r,
       .binary ⟨n + 8, .And, w, b, .instruction (n + 7)⟩,
       .binary ⟨n + 9, .Or, w, .instruction (n + 6), .instruction (n + 8)⟩,
       .binary ⟨n + 10, .Xor, w, .instruction (n + 4), .instruction (n + 9)⟩]
  | .andPlain =>
      [.unary n .Not w b,
       .binary ⟨n + 1, .Xor, w, a, .instruction n⟩,
       .binary ⟨n + 2, .And, w, .instruction (n + 1), a⟩]
  | .andRand =>
      [.unary n .Not w a,
       .unary (n + 1) .Not w b,
       .binary ⟨n + 2, .Or, w, .instruction n, .instruction (n + 1)⟩,
       .unary (n + 3) .Not w (.instruction (n + 2)),
       .unary (n + 4) .Not w r,
       .binary ⟨n + 5, .Or, w, r, .instruction (n + 4)⟩,
       .binary ⟨n + 6, .And, w, .instruction (n + 3), .instruction (n + 5)⟩]
  | .orPlain =>
      [.binary ⟨n, .And, w, a, b⟩,
       .binary ⟨n + 1, .Xor, w, a, b⟩,
       .binary ⟨n + 2, .Or, w, .instruction n, .instruction (n + 1)⟩]
  | .orRand =>
      [.unary n .Not w a,
       .unary (n + 1) .Not w b,
       .binary ⟨n + 2, .And, w, .instruction n, .instruction (n + 1)⟩,
       .unary (n + 3) .Not w (.instruction (n + 2)),
       .unary (n + 4) .Not w r,
       .binary ⟨n + 5, .Or, w, r, .instruction (n + 4)⟩,
       .binary ⟨n + 6, .And, w, .instruction (n + 3), .instruction (n + 5)⟩]

/-- The instruction sequence a rule emits for `BI` from the state `st`. -/
def Rule.emits (ρ : Rule) (BI : BinaryOperator) (st : State) : List Instruction :=
  ρ.insts st.nextId BI.ty BI.op0 BI.op1 (ConstantInt.get BI.ty (st.rand st.randPos))

/-- The state after instructions `es` were emitted for `BI`, `k` values were
drawn, and the consumers of `BI` were rewired to `v`. -/
def State.applied (BI : BinaryOperator) (es : List Instruction) (v : Value) (k : Nat)
    (st : State) : State where
  F := (es.foldl (emit st.insertPt) st.F).map
    (fun BB => BB.map (Instruction.replaceUsesOfWith BI.id v))
  insertPt := st.insertPt
  nextId := st.nextId + es.length
  rand := st.rand
  randPos := st.randPos + k
  NumSubstitutions := st.NumSubstitutions + 1
  NumInstructionsInserted := st.NumInstructionsInserted + es.length
  created := st.created ++ es
  replaced := st.replaced ++ [⟨BI.id, v, es.foldl (emit st.insertPt) st.F⟩]

/-! ## Catalog of the spec -/

/-- The catalog of the spec: the ordered list of rules of each operator kind. -/
def catalog : BinaryOps → List Rule
  | .Add => [.addNeg, .addDoubleNeg, .addRand, .addRand2]
  | .Sub => [.subNeg, .subRand, .subRand2]
  | .And => [.andPlain, .andRand]
  | .Or => [.orPlain, .orRand]
  | .Xor => [.xorPlain, .xorRand]
  | _ => []

/-- The dispatch contract of the spec: the catalog entry at index
`d % |catalog|`, where `d` is the value drawn. -/
def selectRule (opc : BinaryOps) (d : Nat) : Option Rule :=
  (catalog opc)[d % (catalog opc).length]?

/-! ## Well-formedness and the driver in steps -/

/-- Well-formedness of a straight-line instruction list when the next fresh
identity is `n`: identities are unique and already allocated, every operand
exists already, and no instruction reads its own result or the result of an
instruction placed after it. -/
structure WF (n : Nat) (L : List Instruction) : Prop where
  nodup : (L.map Instruction.id).Nodup
  fresh : ∀ J ∈ L, J.id < n
  closed : ∀ J ∈ L, ∀ v ∈ J.operands, v.definedBelow n
  noSelf : ∀ J ∈ L, Value.instruction J.id ∉ J.operands
  ssa : L.Pairwise (fun J K => Value.instruction K.id ∉ J.operands)

/-- Well-formedness of the function of a state, its blocks read in layout order. -/
def WellFormed (st : State) : Prop := WF st.nextId st.F.insts

/-- Identity discipline of an instruction list when the next fresh identity is
`n`: identities are unique and already allocated. -/
structure Alloc (n : Nat) (L : List Instruction) : Prop where
  nodup : (L.map Instruction.id).Nodup
  fresh : ∀ J ∈ L, J.id < n

/-- Identity discipline of the function of a state: every instruction is an
object of its own, and the allocator returns identities not in use. -/
def Allocated (st : State) : Prop := Alloc st.nextId st.F.insts

/-- Every instruction of the list reads only values of `allowed` or results of
instructions placed before it in the list. -/
def ReadsOnlyEarlier (allowed : List Value) : List Instruction → Prop
  | [] => True
  | e :: rest =>
      (∀ v ∈ e.operands, v ∈ allowed) ∧ ReadsOnlyEarlier (.instruction e.id :: allowed) rest

/-- The shape every rule gives the instructions it emits for `BI` when the
first fresh identity is `n`: consecutive fresh identities, at least one
instruction, and operands that are operands of `BI`, constants, or results of
instructions emitted earlier. -/
structure Emits (n : Nat) (BI : BinaryOperator) (es : List Instruction) : Prop where
  ids : es.map Instruction.id = List.range' n es.length
  pos : 0 < es.length
  operands : ∀ e ∈ es, ∀ v ∈ e.operands,
    v = BI.op0 ∨ v = BI.op1 ∨ (∃ c, v = Value.constant c) ∨
      ∃ j, v = Value.instruction j ∧ n ≤ j ∧ j < e.id

/-- The state in which a dispatcher applies a rule: the emitter is placed
before instruction `p` and `k` values have been drawn. -/
def State.positioned (st : State) (p : Nat) (k : Nat) : State :=
  { st with insertPt := some p, randPos := st.randPos + k }

/-- The driver's loop over the first `m` blocks. -/
def runBlocks (m : Nat) (st : State) : State :=
  (List.range m).foldl (fun st k => visitBlock k st) st

/-- The value a rule rewires the consumers to: the result of the last
instruction it emits. -/
def Rule.result (ρ : Rule) (BI : BinaryOperator) (st : State) : Value :=
  .instruction (st.nextId + (ρ.emits BI st).length - 1)

/-- The state of `Substitution::run` when it enters the loop over the blocks:
the random source reseeded if the seed is not zero, both counters incremented
once, and a new emitter without insert point. -/
def State.entered (srand : Int → Nat → Nat) (SubstitutionSeed : Int) (st : State) : State :=
  { (incNumInstructionsInserted (incNumSubstitutions
      (if SubstitutionSeed ≠ 0 then
        { st with rand := srand SubstitutionSeed, randPos := 0 } else st))) with
    insertPt := none }

/-! ## Concrete inputs -/

/-- An interpretation giving the first argument the value `a` and every other
argument the value `b`; an operator without rule multiplies, and an
instruction that is not a binary operation sums its operands. -/
def sampleInterp (a b : Nat) : Interp where
  arg := fun n => if n = 0 then a else b
  binop := fun _ w x y => (x * y) % 2 ^ w
  other := fun _ vs => vs.sum

/-- The register file holding `0` everywhere. -/
def zeroRegs : Nat → Nat := fun _ => 0

/-- The binary operation `%0 = opc w (arg 0), (arg 1)`. -/
def sampleOp (opc : BinaryOps) (w : Nat) : BinaryOperator :=
  ⟨0, opc, w, .argument 0, .argument 1⟩

/-- A state whose function is the single block `%0 = opc w (arg 0), (arg 1)`
followed by the consumer `%1 = other %0`, with the emitter placed before `%0`,
fresh random source returning the values of `draws` and then `0`. -/
def sampleState (opc : BinaryOps) (w : Nat) (draws : List Nat) : State where
  F := [[.binary (sampleOp opc w), .other 1 [.instruction 0]]]
  insertPt := some 0
  nextId := 2
  rand := fun i => draws.getD i 0
  randPos := 0
  NumSubstitutions := 0
  NumInstructionsInserted := 0
  created := []
  replaced := []

instance Value.decidableDefinedBelow (n : Nat) (v : Value) : Decidable (v.definedBelow n) := by
  cases v <;> simp only [Value.definedBelow] <;> infer_instance

/-- A two-block sample function in which rewritten operations feed later
rewritten operations:
`%0 = add i8 a0, a1`, `%1 = xor i8 %0, a0`, `%2 = mul i8 %1, %0`,
`%3 = other %2, %1` in the first block and `%4 = sub i8 %2, %0`,
`%5 = or i8 %4, %1`, `%6 = and i8 %5, %0` in the second, with the random source
returning `2, 9, 0, 1, 77, 1, 4, 0, 1, 200` and then `0`. -/
def sampleProgram : State where
  F := [[.binary ⟨0, .Add, 8, .argument 0, .argument 1⟩,
         .binary ⟨1, .Xor, 8, .instruction 0, .argument 0⟩,
         .binary ⟨2, .Mul, 8, .instruction 1, .instruction 0⟩,
         .other 3 [.instruction 2, .instruction 1]],
        [.binary ⟨4, .Sub, 8, .instruction 2, .instruction 0⟩,
         .binary ⟨5, .Or, 8, .instruction 4, .instruction 1⟩,
         .binary ⟨6, .And, 8, .instruction 5, .instruction 0⟩]]
  insertPt := none
  nextId := 7
  rand := fun i => [2, 9, 0, 1, 77, 1, 4, 0, 1, 200].getD i 0
  randPos := 0
  NumSubstitutions := 0
  NumInstructionsInserted := 0
  created := []
  replaced := []

/-- The seeding function that ignores the seed and returns zeros. -/
def zeroSrand : Int → Nat → Nat := fun _ _ => 0

/-! ## Catalog shape of the spec -/

/-- The primitive operations of the emitter. -/
inductive Primitive where
  | negate | add | subtract | not | and | or | xor
  deriving DecidableEq, Repr

/-- The primitive operation an instruction performs, if it is one the emitter
can produce. -/
def Instruction.primitive : Instruction → Option Primitive
  | .unary _ .Neg _ _ => some .negate
  | .unary _ .Not _ _ => some .not
  | .binary BI =>
      match BI.opcode with
      | .Add => some .add
      | .Sub => some .subtract
      | .And => some .and
      | .Or => some .or
      | .Xor => some .xor
      | _ => none
  | .other _ _ => none

/-- The "New instructions" column of the spec's rule tables: the primitive
operations of each rule in the order the table lists them. -/
def Rule.catalogOps : Rule → List Primitive
  | .addNeg => [.negate, .subtract]
  | .addDoubleNeg => [.negate, .negate, .add, .negate]
  | .addRand => [.add, .add, .subtract]
  | .addRand2 => [.subtract, .add, .add]
  | .subNeg => [.negate, .add]
  | .subRand => [.add, .subtract, .subtract]
  | .subRand2 => [.subtract, .subtract, .add]
  | .xorPlain => [.not, .and, .not, .and, .or]
  | .xorRand => [.not, .and, .not, .and, .or] ++ [.not, .and, .not, .and, .or] ++ [.xor]
  | .andPlain => [.not, .xor, .and]
  | .andRand => [.not, .not, .or, .not, .not, .or, .and]
  | .orPlain => [.and, .xor, .or]
  | .orRand => [.not, .not, .and, .not, .not, .or, .and]

/-- The number of instructions the claim lists for each rule. -/
def Rule.size : Rule → Nat
  | .addNeg => 2 | .addDoubleNeg => 4 | .addRand => 3 | .addRand2 => 3
  | .subNeg => 2 | .subRand => 3 | .subRand2 => 3
  | .xorPlain => 5 | .xorRand => 11
  | .andPlain => 3 | .andRand => 7
  | .orPlain => 3 | .orRand => 7

/-! ## The driver as a function of the original instructions -/

/-- The number of values a dispatcher draws to select a rule. -/
def selectDraws (opc : BinaryOps) : Nat :=
  if opc = .Xor then 2 else 1

/-- The rule the dispatcher of an operator kind selects in a state: the catalog
entry picked by the last value it draws; none for an operator without rule. -/
def dispatch (opc : BinaryOps) (s : State) : Option Rule :=
  selectRule opc (s.rand (if opc = .Xor then s.randPos + 1 else s.randPos))

/-- The rule the driver applies when it visits the instruction `id`. -/
def ruleAt (s : State) (id : Nat) : Option Rule :=
  match findInst s.F id with
  | some (.binary BI) => dispatch BI.opcode s
  | _ => none

/-- The rules a sequence of visits applies, with the instruction each is
applied to. -/
def rulesApplied : List Nat → State → List (Nat × Rule)
  | [], _ => []
  | id :: rest, s =>
      (match ruleAt s id with
        | some ρ => [(id, ρ)]
        | none => []) ++ rulesApplied rest (visit id s)

/-- The rules one run applies, in order. -/
def runRules (srand : Int → Nat → Nat) (seed : Int) (st : State) : List (Nat × Rule) :=
  rulesApplied (st.F.insts.map Instruction.id) (st.entered srand seed)

/-- The identity of an instruction if it is a candidate for substitution: a
binary operation whose operator `substitute` has a case for. -/
def candidateId : Instruction → Option Nat
  | .binary BI =>
      match BI.opcode with
      | .Add | .Sub | .And | .Or | .Xor => some BI.id
      | _ => none
  | _ => none

/-- The candidates of a function in layout order. -/
def candidates (F : Function) : List Nat :=
  F.insts.filterMap candidateId

/-- An instruction after the consumer rewirings `X`, applied in order. -/
def rewire (X : List Rewiring) (J : Instruction) : Instruction :=
  X.foldl (fun J rw => J.replaceUsesOfWith rw.old rw.new) J

/-- What holds of the state `s` in the course of a run started in `st0`:
identities are unique, the rewirings are appended to the log, and every block
is the original block with its instructions rewired through the log, up to
inserted instructions. -/
structure Progress (st0 s : State) : Prop where
  alloc : Allocated s
  mono : st0.nextId ≤ s.nextId
  log : s.replaced = st0.replaced ++ rewirings st0 s
  len : s.F.length = st0.F.length
  blocks : ∀ i, (s.F.getD i []).filter (fun J => decide (J.id < st0.nextId))
      = (st0.F.getD i []).map (rewire (rewirings st0 s))

/-- The draws one application of a rule takes from the random source: the
draws of its dispatcher and the draw for its constant. -/
def Rule.drawsTaken (ρ : Rule) : Nat := selectDraws ρ.opcode + ρ.draws

/-- The books of the pass between two states, for the rules `T` applied in
between: both logs were only appended to, each counter went up by the length
of its log, the created instructions took the fresh identities in order, and
the random source was read at consecutive positions. -/
structure Ledger (s s2 : State) (T : List (Nat × Rule)) : Prop where
  created : s2.created = s.created ++ emitted s s2
  replaced : s2.replaced = s.replaced ++ rewirings s s2
  subs : s2.NumSubstitutions = s.NumSubstitutions + (rewirings s s2).length
  inserted : s2.NumInstructionsInserted = s.NumInstructionsInserted + (emitted s s2).length
  nextId : s2.nextId = s.nextId + (emitted s s2).length
  ids : (emitted s s2).map Instruction.id = List.range' s.nextId (emitted s s2).length
  rand : s2.rand = s.rand
  randPos : s2.randPos = s.randPos + (T.map (fun p => p.2.drawsTaken)).sum
  olds : (rewirings s s2).map Rewiring.old = T.map Prod.fst
  sizes : (emitted s s2).length = (T.map (fun p => p.2.size)).sum

/-- Two states that agree on what the pass reads: the function, the insert
point, the allocator and the random source. The counters and the logs, which
the pass only writes, may differ. -/
def SameCore (s1 s2 : State) : Prop :=
  s1.F = s2.F ∧ s1.insertPt = s2.insertPt ∧ s1.nextId = s2.nextId ∧ s1.rand = s2.rand ∧
    s1.randPos = s2.randPos

/-- The two-block sample function in a host that has run the pass before: the
counters, the logs and the random source differ from those of `sampleProgram`. -/
def sampleProgramLater : State :=
  { sampleProgram with
    rand := fun i => i + 3
    randPos := 5
    NumSubstitutions := 9
    NumInstructionsInserted := 40
    created := [.unary 100 .Neg 8 (.argument 0)]
    replaced := [⟨100, .argument 0, []⟩] }

/-- A seeding function: the stream of seed `s` returns `s + 2 * i` at position `i`. -/
def sampleSrand : Int → Nat → Nat := fun s i => s.toNat + 2 * i

/-- A value after the consumer rewirings `X`, applied in order. -/
def redirect (X : List Rewiring) (v : Value) : Value :=
  X.foldl (fun v rw => v.replaceUsesOfWith rw.old rw.new) v

/-- Where the instructions inserted into a block stand, when the original
instructions are those with an identity below `n0` and `olds` are the rewritten
operations: every inserted instruction is immediately followed by another
inserted instruction or by a rewritten operation, and the block does not end
with an inserted instruction. -/
def Placed (n0 : Nat) (olds : List Nat) (BB : List Instruction) : Prop :=
  List.Chain' (fun a b => n0 ≤ a.id → n0 ≤ b.id ∨ b.id ∈ olds) BB ∧
    ∀ J, BB.getLast? = some J → J.id < n0

/-- A function in which an operation reads a value defined in a later block:
`%9 = other` in the first block, `%0 = add i8 %1, a0`, `%2 = other %0` in the
second and `%1 = add i8 a0, a1`, `%3 = other %1` in the third, with a random
source returning zeros. -/
def sampleForward : State where
  F := [[.other 9 []],
        [.binary ⟨0, .Add, 8, .instruction 1, .argument 0⟩, .other 2 [.instruction 0]],
        [.binary ⟨1, .Add, 8, .argument 0, .argument 1⟩, .other 3 [.instruction 1]]]
  insertPt := none
  nextId := 10
  rand := fun _ => 0
  randPos := 0
  NumSubstitutions := 0
  NumInstructionsInserted := 0
  created := []
  replaced := []

/-! ## Lemmas: the rules in closed form -/

theorem Rule.apply_eq (ρ : Rule) (BI : BinaryOperator) (st : State) :
    ρ.apply BI st = st.applied BI (ρ.emits BI st)
      (Value.instruction (st.nextId + (ρ.emits BI st).length - 1)) ρ.draws := by
  cases ρ <;>
    simp [Rule.apply, Rule.emits, Rule.insts, Rule.draws, State.applied, polaris.addNeg,
      polaris.addDoubleNeg, polaris.addRand, polaris.addRand2, polaris.subNeg, polaris.subRand,
      polaris.subRand2, xorSubstitute, xorSubstituteRand,
      andSubstitute, andSubstituteRand, orSubstitute, orSubstituteRand, CreateNeg, CreateNot,
      CreateAdd, CreateSub, CreateAnd, CreateOr, CreateXor, CreateBinOp, State.Insert,
      incNumInstructionsInserted, incNumSubstitutions, replaceAllUsesWith, getRandomNumber,
      BinaryOperator.getOperand, Instruction.id, Nat.add_assoc]

/-! ## Lemmas: wraparound arithmetic -/

theorem addW_lt (w x y : Nat) : addW w x y < 2 ^ w :=
  Nat.mod_lt _ (by positivity)

theorem subW_lt (w x y : Nat) : subW w x y < 2 ^ w :=
  Nat.mod_lt _ (by positivity)

theorem notW_lt (w x : Nat) : notW w x < 2 ^ w := by
  unfold notW
  apply Nat.xor_lt_two_pow (Nat.mod_lt _ (by positivity))
  have : 0 < 2 ^ w := by positivity
  omega

theorem cast_addW (w x y : Nat) :
    ((addW w x y : Nat) : ZMod (2 ^ w)) = (x : ZMod (2 ^ w)) + y := by
  unfold addW
  simp [ZMod.natCast_mod]

theorem cast_subW (w x y : Nat) :
    ((subW w x y : Nat) : ZMod (2 ^ w)) = (x : ZMod (2 ^ w)) - y := by
  unfold subW
  have h : y % 2 ^ w ≤ 2 ^ w := (Nat.mod_lt _ (by positivity)).le
  rw [ZMod.natCast_mod, Nat.cast_add, Nat.cast_sub h]
  simp [ZMod.natCast_mod, sub_eq_add_neg]

theorem eq_of_cast_eq (w u v : Nat) (hu : u < 2 ^ w) (hv : v < 2 ^ w)
    (h : (u : ZMod (2 ^ w)) = v) : u = v := by
  have := (ZMod.natCast_eq_natCast_iff' u v (2 ^ w)).1 h
  rwa [Nat.mod_eq_of_lt hu, Nat.mod_eq_of_lt hv] at this

/-- On `w`-bit values wraparound subtraction is the remainder of the integer
difference. -/
theorem subW_eq_toNat (w a b : Nat) (ha : a < 2 ^ w) (hb : b < 2 ^ w) :
    subW w a b = (((a : Int) - b) % 2 ^ w).toNat := by
  unfold subW
  rw [Nat.mod_eq_of_lt ha, Nat.mod_eq_of_lt hb]
  have h : ((a + (2 ^ w - b) : Nat) : Int) = (a : Int) - b + 2 ^ w := by
    push_cast [Nat.cast_sub hb.le]
    ring
  have h2 : ((a : Int) - b) % 2 ^ w = (((a + (2 ^ w - b)) % 2 ^ w : Nat) : Int) := by
    rw [Int.natCast_mod, h]
    push_cast
    rw [Int.add_emod_self]
  rw [h2, Int.toNat_natCast]

theorem addNeg_value (w a b : Nat) : subW w a (subW w 0 b) = addW w a b := by
  apply eq_of_cast_eq w _ _ (subW_lt _ _ _) (addW_lt _ _ _)
  simp only [cast_subW, cast_addW]
  push_cast
  ring

theorem addDoubleNeg_value (w a b : Nat) :
    subW w 0 (addW w (subW w 0 a) (subW w 0 b)) = addW w a b := by
  apply eq_of_cast_eq w _ _ (subW_lt _ _ _) (addW_lt _ _ _)
  simp only [cast_subW, cast_addW]
  push_cast
  ring

theorem addRand_value (w a b r : Nat) :
    subW w (addW w (addW w a r) b) r = addW w a b := by
  apply eq_of_cast_eq w _ _ (subW_lt _ _ _) (addW_lt _ _ _)
  simp only [cast_subW, cast_addW]
  ring

theorem addRand2_value (w a b r : Nat) :
    addW w (addW w (subW w a r) b) r = addW w a b := by
  apply eq_of_cast_eq w _ _ (addW_lt _ _ _) (addW_lt _ _ _)
  simp only [cast_subW, cast_addW]
  ring

theorem subNeg_value (w a b : Nat) : addW w a (subW w 0 b) = subW w a b := by
  apply eq_of_cast_eq w _ _ (addW_lt _ _ _) (subW_lt _ _ _)
  simp only [cast_subW, cast_addW]
  push_cast
  ring

theorem subRand_value (w a b r : Nat) :
    subW w (subW w (addW w a r) b) r = subW w a b := by
  apply eq_of_cast_eq w _ _ (subW_lt _ _ _) (subW_lt _ _ _)
  simp only [cast_subW, cast_addW]
  ring

theorem subRand2_value (w a b r : Nat) :
    addW w (subW w (subW w a r) b) r = subW w a b := by
  apply eq_of_cast_eq w _ _ (addW_lt _ _ _) (subW_lt _ _ _)
  simp only [cast_subW, cast_addW]
  ring

theorem xorPlain_value (w a b : Nat) :
    (notW w a % 2 ^ w &&& b % 2 ^ w) % 2 ^ w ||| (a % 2 ^ w &&& notW w b % 2 ^ w) % 2 ^ w
      = a % 2 ^ w ^^^ b % 2 ^ w := by
  apply Nat.eq_of_testBit_eq
  intro i
  simp only [notW, Nat.testBit_or, Nat.testBit_and, Nat.testBit_xor, Nat.testBit_mod_two_pow,
    Nat.testBit_two_pow_sub_one]
  by_cases h : i < w <;> simp [h]
  cases a.testBit i <;> cases b.testBit i <;> rfl

theorem xorRand_value (w a b r : Nat) :
    ((notW w a % 2 ^ w &&& r % 2 ^ w) % 2 ^ w ||| (a % 2 ^ w &&& notW w r % 2 ^ w) % 2 ^ w) % 2 ^ w
      ^^^ ((notW w b % 2 ^ w &&& r % 2 ^ w) % 2 ^ w
        ||| (b % 2 ^ w &&& notW w r % 2 ^ w) % 2 ^ w) % 2 ^ w
      = a % 2 ^ w ^^^ b % 2 ^ w := by
  apply Nat.eq_of_testBit_eq
  intro i
  simp only [notW, Nat.testBit_or, Nat.testBit_and, Nat.testBit_xor, Nat.testBit_mod_two_pow,
    Nat.testBit_two_pow_sub_one]
  by_cases h : i < w <;> simp [h]
  cases a.testBit i <;> cases b.testBit i <;> cases r.testBit i <;> rfl

theorem andPlain_value (w a b : Nat) :
    (a % 2 ^ w ^^^ notW w b % 2 ^ w) % 2 ^ w &&& a % 2 ^ w = a % 2 ^ w &&& b % 2 ^ w := by
  apply Nat.eq_of_testBit_eq
  intro i
  simp only [notW, Nat.testBit_or, Nat.testBit_and, Nat.testBit_xor, Nat.testBit_mod_two_pow,
    Nat.testBit_two_pow_sub_one]
  by_cases h : i < w <;> simp [h]
  cases a.testBit i <;> cases b.testBit i <;> rfl

theorem andRand_value (w a b r : Nat) :
    notW w ((notW w a % 2 ^ w ||| notW w b % 2 ^ w)) % 2 ^ w
      &&& (r % 2 ^ w ||| notW w r % 2 ^ w) % 2 ^ w
      = a % 2 ^ w &&& b % 2 ^ w := by
  apply Nat.eq_of_testBit_eq
  intro i
  simp only [notW, Nat.testBit_or, Nat.testBit_and, Nat.testBit_xor, Nat.testBit_mod_two_pow,
    Nat.testBit_two_pow_sub_one]
  by_cases h : i < w <;> simp [h]

theorem orPlain_value (w a b : Nat) :
    (a % 2 ^ w &&& b % 2 ^ w) % 2 ^ w ||| (a % 2 ^ w ^^^ b % 2 ^ w) % 2 ^ w
      = a % 2 ^ w ||| b % 2 ^ w := by
  apply Nat.eq_of_testBit_eq
  intro i
  simp only [notW, Nat.testBit_or, Nat.testBit_and, Nat.testBit_xor, Nat.testBit_mod_two_pow,
    Nat.testBit_two_pow_sub_one]
  by_cases h : i < w <;> simp [h]
  cases a.testBit i <;> cases b.testBit i <;> rfl

theorem orRand_value (w a b r : Nat) :
    notW w ((notW w a % 2 ^ w &&& notW w b % 2 ^ w)) % 2 ^ w
      &&& (r % 2 ^ w ||| notW w r % 2 ^ w) % 2 ^ w
      = a % 2 ^ w ||| b % 2 ^ w := by
  apply Nat.eq_of_testBit_eq
  intro i
  simp only [notW, Nat.testBit_or, Nat.testBit_and, Nat.testBit_xor, Nat.testBit_mod_two_pow,
    Nat.testBit_two_pow_sub_one]
  by_cases h : i < w <;> simp [h]

/-! ## Lemmas: executing the emitted instructions -/

@[simp] theorem evalValue_instruction (I : Interp) (regs : Nat → Nat) (id : Nat) :
    evalValue I regs (.instruction id) = regs id := rfl

@[simp] theorem evalValue_constant (I : Interp) (regs : Nat → Nat) (c : Nat) :
    evalValue I regs (.constant c) = c := rfl

@[simp] theorem evalValue_argument (I : Interp) (regs : Nat → Nat) (k : Nat) :
    evalValue I regs (.argument k) = I.arg k := rfl

theorem evalValue_update (I : Interp) (regs : Nat → Nat) (n j x : Nat) (v : Value)
    (hv : v.definedBelow n) (hj : n ≤ j) :
    evalValue I (Function.update regs j x) v = evalValue I regs v := by
  cases v with
  | argument k => rfl
  | constant c => rfl
  | instruction id =>
    have hlt : id < n := hv
    have hne : id ≠ j := by omega
    simp [Function.update_apply, hne]

/-- The last instruction of every rule computes the original operation. -/
theorem Rule.exec_insts (ρ : Rule) (I : Interp) (regs : Nat → Nat) (n w c : Nat) (a b : Value)
    (ha : a.definedBelow n) (hb : b.definedBelow n) :
    exec I regs (ρ.insts n w a b (.constant c)) (n + (ρ.insts n w a b (.constant c)).length - 1)
      = evalBinary I ρ.opcode w (evalValue I regs a) (evalValue I regs b) := by
  cases ρ <;>
    simp [Rule.insts, Rule.opcode, exec, evalInst, evalBinary, evalUnary, Instruction.id,
      Function.update_apply, evalValue_update I _ n _ _ a ha,
      evalValue_update I _ n _ _ b hb]
  · exact addNeg_value _ _ _
  · exact addDoubleNeg_value _ _ _
  · exact addRand_value _ _ _ _
  · exact addRand2_value _ _ _ _
  · exact subNeg_value _ _ _
  · exact subRand_value _ _ _ _
  · exact subRand2_value _ _ _ _
  · exact xorPlain_value _ _ _
  · exact xorRand_value _ _ _ _
  · exact andPlain_value _ _ _
  · exact andRand_value _ _ _ _
  · exact orPlain_value _ _ _
  · exact orRand_value _ _ _ _

theorem emitted_applied (BI : BinaryOperator) (es : List Instruction) (v : Value) (k : Nat)
    (st : State) : emitted st (st.applied BI es v k) = es := by
  simp [emitted, State.applied]

theorem rewirings_applied (BI : BinaryOperator) (es : List Instruction) (v : Value) (k : Nat)
    (st : State) :
    rewirings st (st.applied BI es v k) = [⟨BI.id, v, es.foldl (emit st.insertPt) st.F⟩] := by
  simp [rewirings, State.applied]

/-- The value built by a rule is the value of the operator it re-expresses. -/
theorem Rule.builtValue_apply (ρ : Rule) (I : Interp) (regs : Nat → Nat) (BI : BinaryOperator)
    (st : State) (h0 : BI.op0.definedBelow st.nextId) (h1 : BI.op1.definedBelow st.nextId) :
    builtValue I regs st (ρ.apply BI st)
      = some (evalBinary I ρ.opcode BI.ty (evalValue I regs BI.op0) (evalValue I regs BI.op1)) := by
  rw [Rule.apply_eq]
  simp only [builtValue, finalValue, rewirings_applied, emitted_applied, List.getLast?_singleton,
    Option.map_some', evalValue_instruction, Rule.emits, ConstantInt.get]
  rw [Rule.exec_insts ρ I regs st.nextId BI.ty _ BI.op0 BI.op1 h0 h1]

theorem emitted_apply (ρ : Rule) (BI : BinaryOperator) (st : State) :
    emitted st (ρ.apply BI st) = ρ.emits BI st := by
  rw [Rule.apply_eq, emitted_applied]

/-- The instructions a rule emits when the value drawn is the `w`-bit constant `r`. -/
theorem Rule.family_emitted (ρ : Rule) (w r : Nat) (hr : r < 2 ^ w) (st : State)
    (opc : BinaryOps) (id : Nat) (x y : Value) (hrand : st.rand st.randPos = r) :
    emitted st (ρ.apply ⟨id, opc, w, x, y⟩ st) = ρ.insts st.nextId w x y (.constant r) := by
  rw [emitted_apply]
  simp [Rule.emits, ConstantInt.get, hrand, Nat.mod_eq_of_lt hr]

/-- The value a rule builds when its operands evaluate to `a` and `b`. -/
theorem Rule.family_value (ρ : Rule) (w a b : Nat) (I : Interp) (regs : Nat → Nat) (st : State)
    (opc : BinaryOps) (id : Nat) (x y : Value)
    (hx : evalValue I regs x = a) (hy : evalValue I regs y = b)
    (hxd : x.definedBelow st.nextId) (hyd : y.definedBelow st.nextId) :
    builtValue I regs st (ρ.apply ⟨id, opc, w, x, y⟩ st) = some (evalBinary I ρ.opcode w a b) := by
  rw [Rule.builtValue_apply ρ I regs _ st hxd hyd, hx, hy]

/-! ## Lemmas: operands and rewiring -/

@[simp] theorem Instruction.id_replaceUsesOfWith (J : Instruction) (old : Nat) (new : Value) :
    (J.replaceUsesOfWith old new).id = J.id := by
  cases J <;> rfl

theorem Instruction.operands_replaceUsesOfWith (J : Instruction) (old : Nat) (new : Value) :
    (J.replaceUsesOfWith old new).operands
      = J.operands.map (fun v => v.replaceUsesOfWith old new) := by
  cases J <;> simp [Instruction.replaceUsesOfWith, Instruction.operands]

theorem Value.replaceUsesOfWith_of_ne (v : Value) (old : Nat) (new : Value)
    (h : v ≠ .instruction old) : v.replaceUsesOfWith old new = v := by
  simp [Value.replaceUsesOfWith, h]

theorem Value.replaceUsesOfWith_self (old : Nat) (new : Value) :
    (Value.instruction old).replaceUsesOfWith old new = new := by
  simp [Value.replaceUsesOfWith]

theorem Instruction.replaceUsesOfWith_of_not_mem (J : Instruction) (old : Nat) (new : Value)
    (h : Value.instruction old ∉ J.operands) : J.replaceUsesOfWith old new = J := by
  cases J with
  | binary BI =>
    simp only [Instruction.operands, List.mem_cons, List.mem_singleton, not_or,
      List.not_mem_nil, or_false] at h
    simp [Instruction.replaceUsesOfWith, Value.replaceUsesOfWith, Ne.symm h.1, Ne.symm h.2]
  | unary id opc ty op =>
    simp only [Instruction.operands, List.mem_singleton] at h
    simp [Instruction.replaceUsesOfWith, Value.replaceUsesOfWith, Ne.symm h]
  | other id ops =>
    simp only [Instruction.operands] at h
    simp only [Instruction.replaceUsesOfWith, Instruction.other.injEq, true_and]
    conv_rhs => rw [← List.map_id ops]
    apply List.map_congr_left
    intro v hv
    have : v ≠ .instruction old := fun e => h (e ▸ hv)
    simp [Value.replaceUsesOfWith, this]

/-- After rewiring to a different value, nothing reads the old one. -/
theorem Instruction.not_mem_operands_replaceUsesOfWith (J : Instruction) (old : Nat)
    (new : Value) (h : new ≠ .instruction old) :
    Value.instruction old ∉ (J.replaceUsesOfWith old new).operands := by
  rw [Instruction.operands_replaceUsesOfWith]
  intro hm
  obtain ⟨v, _, hv⟩ := List.mem_map.1 hm
  unfold Value.replaceUsesOfWith at hv
  split at hv
  · exact h hv
  · next hne => exact hne hv

/-! ## Lemmas: placing instructions at the insert point -/

theorem insertBeforeBB_append (p : Nat) (e J : Instruction) (pre post : List Instruction)
    (hpre : ∀ K ∈ pre, K.id ≠ p) (hJ : J.id = p) :
    insertBeforeBB p e (pre ++ J :: post) = pre ++ e :: J :: post := by
  induction pre with
  | nil => simp [insertBeforeBB, hJ]
  | cons K pre ih =>
    have hK : K.id ≠ p := hpre K (List.mem_cons_self _ _)
    have := ih (fun K' h => hpre K' (List.mem_cons_of_mem _ h))
    simp [insertBeforeBB, hK, this]

theorem insertBeforeF_append (p : Nat) (e J : Instruction) (Fpre Fpost : Function)
    (pre post : List Instruction) (hFpre : ∀ BB ∈ Fpre, ∀ K ∈ BB, K.id ≠ p)
    (hpre : ∀ K ∈ pre, K.id ≠ p) (hJ : J.id = p) :
    insertBeforeF p e (Fpre ++ (pre ++ J :: post) :: Fpost)
      = Fpre ++ (pre ++ e :: J :: post) :: Fpost := by
  induction Fpre with
  | nil =>
    have hmem : p ∈ (pre ++ J :: post).map Instruction.id := by
      simp only [List.map_append, List.map_cons, List.mem_append, List.mem_cons]
      exact Or.inr (Or.inl hJ.symm)
    show insertBeforeF p e ((pre ++ J :: post) :: Fpost) = _
    rw [insertBeforeF, if_pos hmem, insertBeforeBB_append p e J pre post hpre hJ]
    rfl
  | cons BB Fpre ih =>
    have hBB : p ∉ BB.map Instruction.id := by
      intro hm
      obtain ⟨K, hK, hKp⟩ := List.mem_map.1 hm
      exact hFpre BB (List.mem_cons_self _ _) K hK hKp
    have := ih (fun BB' h => hFpre BB' (List.mem_cons_of_mem _ h))
    show insertBeforeF p e (BB :: (Fpre ++ (pre ++ J :: post) :: Fpost)) = _
    rw [insertBeforeF, if_neg hBB, this]
    rfl

theorem foldl_emit_append (p : Nat) (J : Instruction) (es : List Instruction)
    (Fpre Fpost : Function) (pre post : List Instruction)
    (hFpre : ∀ BB ∈ Fpre, ∀ K ∈ BB, K.id ≠ p) (hpre : ∀ K ∈ pre, K.id ≠ p)
    (hes : ∀ K ∈ es, K.id ≠ p) (hJ : J.id = p) :
    es.foldl (emit (some p)) (Fpre ++ (pre ++ J :: post) :: Fpost)
      = Fpre ++ (pre ++ es ++ J :: post) :: Fpost := by
  induction es generalizing pre with
  | nil => simp
  | cons e es ih =>
    have he : e.id ≠ p := hes e (List.mem_cons_self _ _)
    have hpre2 : ∀ K ∈ pre ++ [e], K.id ≠ p := by
      intro K hK
      rcases List.mem_append.1 hK with h | h
      · exact hpre K h
      · rw [List.mem_singleton.1 h]; exact he
    have := ih (pre ++ [e]) hpre2 (fun K h => hes K (List.mem_cons_of_mem _ h))
    simp only [List.foldl_cons, emit, insertBeforeF_append p e J Fpre Fpost pre post hFpre hpre hJ]
    simpa [emit] using this

/-- The place of an instruction found through its identity. -/
theorem findInst_eq_some (F : Function) (id : Nat) (J : Instruction)
    (h : findInst F id = some J) :
    J.id = id ∧ ∃ Fpre pre post Fpost, F = Fpre ++ (pre ++ J :: post) :: Fpost ∧
      (∀ BB ∈ Fpre, ∀ K ∈ BB, K.id ≠ id) ∧ (∀ K ∈ pre, K.id ≠ id) := by
  unfold findInst Function.insts at h
  rw [List.find?_flatten_eq_some] at h
  obtain ⟨hJ, Fpre, pre, post, Fpost, hF, h1, h2⟩ := h
  refine ⟨by simpa using hJ, Fpre, pre, post, Fpost, hF, ?_, ?_⟩
  · intro BB hBB K hK
    simpa using h1 BB hBB K hK
  · intro K hK
    simpa using h2 K hK

/-! ## Lemmas: dispatch -/

/-- For Add, Sub, And and Or the dispatcher applies the catalog entry selected
by the one value it draws. -/
theorem substitute_dispatch (BI : BinaryOperator) (st : State)
    (h : BI.opcode = .Add ∨ BI.opcode = .Sub ∨ BI.opcode = .And ∨ BI.opcode = .Or) :
    ∃ ρ, selectRule BI.opcode (st.rand st.randPos) = some ρ ∧
      substitute BI st = ρ.apply BI (getRandomNumber st).2 := by
  rcases h with h | h | h | h
  · have h4 : st.rand st.randPos % 4 < 4 := Nat.mod_lt _ (by decide)
    simp only [substitute, h, substituteAdd, selectRule, catalog, getRandomNumber,
      List.length_cons, List.length_nil]
    interval_cases hd : st.rand st.randPos % 4 <;> simp [Rule.apply]
  · have h3 : st.rand st.randPos % 3 < 3 := Nat.mod_lt _ (by decide)
    simp only [substitute, h, substituteSub, selectRule, catalog, getRandomNumber,
      List.length_cons, List.length_nil]
    interval_cases hd : st.rand st.randPos % 3 <;> simp [Rule.apply]
  · have h2 : st.rand st.randPos % 2 < 2 := Nat.mod_lt _ (by decide)
    simp only [substitute, h, substituteAnd, selectRule, catalog, getRandomNumber,
      List.length_cons, List.length_nil, NUMBER_AND_SUBST]
    interval_cases hd : st.rand st.randPos % 2 <;> simp [Rule.apply]
  · have h2 : st.rand st.randPos % 2 < 2 := Nat.mod_lt _ (by decide)
    simp only [substitute, h, substituteOr, selectRule, catalog, getRandomNumber,
      List.length_cons, List.length_nil]
    interval_cases hd : st.rand st.randPos % 2 <;> simp [Rule.apply]

/-- For Xor the dispatcher draws twice and applies the catalog entry selected
by the second value. -/
theorem substitute_dispatch_xor (BI : BinaryOperator) (st : State) (h : BI.opcode = .Xor) :
    ∃ ρ, selectRule .Xor (st.rand (st.randPos + 1)) = some ρ ∧
      substitute BI st = ρ.apply BI (getRandomNumber (getRandomNumber st).2).2 := by
  have h2 : st.rand (st.randPos + 1) % 2 < 2 := Nat.mod_lt _ (by decide)
  simp only [substitute, h, substituteXor, selectRule, catalog, getRandomNumber,
    List.length_cons, List.length_nil]
  interval_cases hd : st.rand (st.randPos + 1) % 2 <;> simp [Rule.apply]

theorem selectRule_opcode (opc : BinaryOps) (d : Nat) (ρ : Rule)
    (h : selectRule opc d = some ρ) : ρ.opcode = opc := by
  have hm : ρ ∈ catalog opc := by
    unfold selectRule at h
    exact List.getElem?_mem h
  clear h
  cases ρ <;> cases opc <;> first | rfl | simp [catalog] at hm

/-- An operator without catalog entry leaves the state as it is. -/
theorem substitute_unsupported (BI : BinaryOperator) (st : State)
    (h : BI.opcode ≠ .Add ∧ BI.opcode ≠ .Sub ∧ BI.opcode ≠ .And ∧ BI.opcode ≠ .Or ∧
      BI.opcode ≠ .Xor) : substitute BI st = st := by
  obtain ⟨h1, h2, h3, h4, h5⟩ := h
  unfold substitute
  cases hop : BI.opcode <;> simp_all

/-! ## Lemmas: shape of the emitted instructions -/

theorem Rule.insts_ids (ρ : Rule) (n w : Nat) (a b r : Value) :
    (ρ.insts n w a b r).map Instruction.id = List.range' n (ρ.insts n w a b r).length := by
  cases ρ <;> simp [Rule.insts, Instruction.id, List.range']

theorem Rule.insts_length_pos (ρ : Rule) (n w : Nat) (a b r : Value) :
    0 < (ρ.insts n w a b r).length := by
  cases ρ <;> simp [Rule.insts]

theorem Rule.insts_operands (ρ : Rule) (n w : Nat) (a b r : Value) :
    ∀ e ∈ ρ.insts n w a b r, ∀ v ∈ e.operands,
      v = a ∨ v = b ∨ v = r ∨ ∃ j, v = .instruction j ∧ n ≤ j ∧ j < e.id := by
  cases ρ <;> simp [Rule.insts, Instruction.operands, Instruction.id]

theorem Rule.insts_readsOnlyEarlier (ρ : Rule) (n w : Nat) (a b r : Value) :
    ReadsOnlyEarlier [a, b, r] (ρ.insts n w a b r) := by
  cases ρ <;> simp [Rule.insts, ReadsOnlyEarlier, Instruction.operands, Instruction.id]

/-! ## Lemmas: execution -/

theorem exec_append (I : Interp) (regs : Nat → Nat) (l1 l2 : List Instruction) :
    exec I regs (l1 ++ l2) = exec I (exec I regs l1) l2 := by
  induction l1 generalizing regs with
  | nil => rfl
  | cons J l1 ih => exact ih _

/-- Execution changes only the registers of the instructions executed. -/
theorem exec_of_not_mem (I : Interp) (regs : Nat → Nat) (L : List Instruction) (j : Nat)
    (h : ∀ J ∈ L, J.id ≠ j) : exec I regs L j = regs j := by
  induction L generalizing regs with
  | nil => rfl
  | cons J L ih =>
    have hJ : j ≠ J.id := fun e => h J (List.mem_cons_self _ _) e.symm
    rw [exec, ih _ (fun K hK => h K (List.mem_cons_of_mem _ hK)), Function.update_noteq hJ]

theorem evalValue_congr (I : Interp) (r1 r2 : Nat → Nat) (n : Nat) (v : Value)
    (h : ∀ j < n, r1 j = r2 j) (hv : v.definedBelow n) :
    evalValue I r1 v = evalValue I r2 v := by
  cases v with
  | argument k => rfl
  | constant c => rfl
  | instruction id => exact h id hv

theorem evalInst_congr (I : Interp) (r1 r2 : Nat → Nat) (J : Instruction)
    (h : ∀ v ∈ J.operands, evalValue I r1 v = evalValue I r2 v) :
    evalInst I r1 J = evalInst I r2 J := by
  cases J with
  | binary BI =>
    simp only [Instruction.operands, List.mem_cons, List.mem_singleton, List.not_mem_nil,
      or_false, forall_eq_or_imp, forall_eq] at h
    simp [evalInst, h.1, h.2]
  | unary id opc ty op =>
    simp only [Instruction.operands, List.mem_singleton, forall_eq] at h
    simp [evalInst, h]
  | other id ops =>
    simp only [Instruction.operands] at h
    simp only [evalInst]
    congr 1
    exact List.map_congr_left h

/-- Reading the replacement in the new register file is reading the original
in the old one. -/
theorem evalValue_replaceUsesOfWith (I : Interp) (A B : Nat → Nat) (n id vid : Nat)
    (v : Value) (hAB : ∀ j < n, A j = B j) (hv : B vid = A id) (hd : v.definedBelow n) :
    evalValue I B (v.replaceUsesOfWith id (.instruction vid)) = evalValue I A v := by
  unfold Value.replaceUsesOfWith
  split
  · next h => rw [h]; simpa using hv
  · exact (evalValue_congr I A B n v hAB hd).symm

theorem evalInst_replaceUsesOfWith (I : Interp) (A B : Nat → Nat) (n id vid : Nat)
    (J : Instruction) (hAB : ∀ j < n, A j = B j) (hv : B vid = A id)
    (hJ : ∀ v ∈ J.operands, v.definedBelow n) :
    evalInst I B (J.replaceUsesOfWith id (.instruction vid)) = evalInst I A J := by
  have key := fun v hd => evalValue_replaceUsesOfWith I A B n id vid v hAB hv hd
  cases J with
  | binary BI =>
    simp only [Instruction.operands, List.mem_cons, List.mem_singleton, List.not_mem_nil,
      or_false, forall_eq_or_imp, forall_eq] at hJ
    simp [evalInst, Instruction.replaceUsesOfWith, key _ hJ.1, key _ hJ.2]
  | unary id opc ty op =>
    simp only [Instruction.operands, List.mem_singleton, forall_eq] at hJ
    simp [evalInst, Instruction.replaceUsesOfWith, key _ hJ]
  | other id ops =>
    simp only [Instruction.operands] at hJ
    simp only [evalInst, Instruction.replaceUsesOfWith, List.map_map]
    congr 1
    apply List.map_congr_left
    intro v hvm
    exact key v (hJ v hvm)

/-- Executing rewired instructions from a register file in which the
replacement holds the value of the original gives the registers of the
original execution. -/
theorem exec_rewired (I : Interp) (n id vid : Nat) (hvid : n ≤ vid)
    (Q : List Instruction) (A B : Nat → Nat)
    (hAB : ∀ j < n, A j = B j) (hv : B vid = A id)
    (hQ : ∀ J ∈ Q, J.id < n ∧ J.id ≠ id ∧ ∀ v ∈ J.operands, v.definedBelow n) :
    (∀ j < n, exec I A Q j
        = exec I B (Q.map (Instruction.replaceUsesOfWith id (.instruction vid))) j) ∧
    exec I B (Q.map (Instruction.replaceUsesOfWith id (.instruction vid))) vid = exec I A Q id := by
  induction Q generalizing A B with
  | nil => exact ⟨hAB, hv⟩
  | cons J Q ih =>
    obtain ⟨hJn, hJid, hJops⟩ := hQ J (List.mem_cons_self _ _)
    have hev := evalInst_replaceUsesOfWith I A B n id vid J hAB hv hJops
    simp only [List.map_cons, exec, Instruction.id_replaceUsesOfWith, hev]
    apply ih
    · intro j hj
      by_cases e : j = J.id
      · rw [e, Function.update_same, Function.update_same]
      · rw [Function.update_noteq e, Function.update_noteq e, hAB j hj]
    · have h1 : vid ≠ J.id := by omega
      rw [Function.update_noteq h1, Function.update_noteq (Ne.symm hJid), hv]
    · exact fun K hK => hQ K (List.mem_cons_of_mem _ hK)

/-! ## Lemmas: well-formedness is kept by a rewrite -/

theorem Rule.emits_Emits (ρ : Rule) (BI : BinaryOperator) (st : State) :
    Emits st.nextId BI (ρ.emits BI st) where
  ids := Rule.insts_ids ρ _ _ _ _ _
  pos := Rule.insts_length_pos ρ _ _ _ _ _
  operands := by
    intro e he v hv
    rcases Rule.insts_operands ρ _ _ _ _ _ e he v hv with h | h | h | h
    · exact Or.inl h
    · exact Or.inr (Or.inl h)
    · exact Or.inr (Or.inr (Or.inl ⟨_, h⟩))
    · exact Or.inr (Or.inr (Or.inr h))

theorem Emits.id_mem {n : Nat} {BI : BinaryOperator} {es : List Instruction}
    (h : Emits n BI es) {e : Instruction} (he : e ∈ es) : n ≤ e.id ∧ e.id < n + es.length := by
  have hm : e.id ∈ es.map Instruction.id := List.mem_map_of_mem _ he
  rw [h.ids, List.mem_range'_1] at hm
  exact hm

theorem Emits.sorted {n : Nat} {BI : BinaryOperator} {es : List Instruction}
    (h : Emits n BI es) : es.Pairwise (fun e k => e.id < k.id) := by
  have := List.pairwise_lt_range' n es.length
  rw [← h.ids, List.pairwise_map] at this
  exact this

theorem Value.definedBelow_mono {v : Value} {n m : Nat} (h : v.definedBelow n) (hnm : n ≤ m) :
    v.definedBelow m := by
  cases v with
  | argument k => trivial
  | constant c => trivial
  | instruction id => exact Nat.lt_of_lt_of_le h hnm

theorem Instruction.mem_operands_replaceUsesOfWith {J : Instruction} {old : Nat}
    {new v : Value} (h : v ∈ (J.replaceUsesOfWith old new).operands) :
    v = new ∨ v ∈ J.operands := by
  rw [Instruction.operands_replaceUsesOfWith] at h
  obtain ⟨u, hu, rfl⟩ := List.mem_map.1 h
  unfold Value.replaceUsesOfWith
  split
  · exact Or.inl rfl
  · exact Or.inr hu

theorem map_eq_self {α : Type} (f : α → α) (l : List α) (h : ∀ x ∈ l, f x = x) :
    l.map f = l := by
  induction l with
  | nil => rfl
  | cons x l ih =>
    rw [List.map_cons, h x (List.mem_cons_self _ _),
      ih (fun y hy => h y (List.mem_cons_of_mem _ hy))]

/-- What an emitted instruction reads exists already and is not the result of
the operation being rewritten or of an instruction placed after it. -/
theorem Emits.operand_facts {n : Nat} {BI : BinaryOperator} {es P Q : List Instruction}
    (he : Emits n BI es) (h : WF n (P ++ .binary BI :: Q)) {e : Instruction} (hem : e ∈ es)
    {v : Value} (hv : v ∈ e.operands) :
    v.definedBelow (n + es.length) ∧ v ≠ .instruction BI.id ∧ v ≠ .instruction e.id ∧
      (∀ K ∈ Q, v ≠ .instruction K.id) ∧ (∀ k ∈ es, e.id < k.id → v ≠ .instruction k.id) := by
  have hBImem : Instruction.binary BI ∈ P ++ .binary BI :: Q := by simp
  have hBIn : BI.id < n := h.fresh _ hBImem
  have hcl := h.closed _ hBImem
  have hns := h.noSelf _ hBImem
  have hssa := (List.pairwise_append.1 h.ssa).2.1
  rw [List.pairwise_cons] at hssa
  have hBQ := hssa.1
  have hid := he.id_mem hem
  have base : ∀ u ∈ (Instruction.binary BI).operands,
      u.definedBelow (n + es.length) ∧ u ≠ .instruction BI.id ∧ u ≠ .instruction e.id ∧
      (∀ K ∈ Q, u ≠ .instruction K.id) ∧ (∀ k ∈ es, e.id < k.id → u ≠ .instruction k.id) := by
    intro u hu
    have hud : u.definedBelow n := hcl u hu
    refine ⟨Value.definedBelow_mono hud (by omega), ?_, ?_, ?_, ?_⟩
    · intro e1; exact hns (e1 ▸ hu)
    · intro e1; rw [e1] at hud; have : e.id < n := hud; omega
    · intro K hK e1; exact hBQ K hK (e1 ▸ hu)
    · intro k hk _ e1; rw [e1] at hud; have : k.id < n := hud; have := (he.id_mem hk).1; omega
  rcases he.operands e hem v hv with h0 | h1 | ⟨c, hc⟩ | ⟨j, hj, hnj, hje⟩
  · exact h0 ▸ base BI.op0 (by simp [Instruction.operands])
  · exact h1 ▸ base BI.op1 (by simp [Instruction.operands])
  · subst hc
    exact ⟨trivial, by simp, by simp, fun _ _ => by simp, fun _ _ _ => by simp⟩
  · subst hj
    refine ⟨?_, ?_, ?_, ?_, ?_⟩
    · show j < n + es.length
      omega
    · intro e1; injection e1 with e1; omega
    · intro e1; injection e1 with e1; omega
    · intro K hK e1
      injection e1 with e1
      have : K.id < n := h.fresh K (by simp [hK])
      omega
    · intro k _ hlt e1
      injection e1 with e1
      omega

/-- One rewrite at list level: the rewiring leaves the instructions up to the
rewritten operation as they are, and the new list is well-formed again. -/
theorem WF.rewrite_step {n : Nat} {BI : BinaryOperator} {es P Q : List Instruction}
    (h : WF n (P ++ .binary BI :: Q)) (he : Emits n BI es) (m : Nat) (hnm : n ≤ m)
    (hmk : m < n + es.length) :
    (P ++ es ++ .binary BI :: Q).map (Instruction.replaceUsesOfWith BI.id (.instruction m))
        = P ++ es ++ .binary BI :: Q.map (Instruction.replaceUsesOfWith BI.id (.instruction m)) ∧
    WF (n + es.length)
      (P ++ es ++ .binary BI :: Q.map (Instruction.replaceUsesOfWith BI.id (.instruction m))) := by
  have hBImem : Instruction.binary BI ∈ P ++ .binary BI :: Q := by simp
  have hBIn : BI.id < n := h.fresh _ hBImem
  have hPmem : ∀ J ∈ P, J ∈ P ++ Instruction.binary BI :: Q := fun J hJ => by simp [hJ]
  have hQmem : ∀ J ∈ Q, J ∈ P ++ Instruction.binary BI :: Q := fun J hJ => by simp [hJ]
  obtain ⟨hssaP, hssaBQ, hssaPX⟩ := List.pairwise_append.1 h.ssa
  rw [List.pairwise_cons] at hssaBQ
  obtain ⟨hssaB, hssaQ⟩ := hssaBQ
  have hQ' : ∀ J ∈ Q.map (Instruction.replaceUsesOfWith BI.id (.instruction m)),
      ∃ K ∈ Q, J = K.replaceUsesOfWith BI.id (.instruction m) := by
    intro J hJ
    obtain ⟨K, hK, rfl⟩ := List.mem_map.1 hJ
    exact ⟨K, hK, rfl⟩
  refine ⟨?_, ?_, ?_, ?_, ?_, ?_⟩
  · -- the rewiring changes nothing before the original operation
    have hself : (Instruction.binary BI).replaceUsesOfWith BI.id (.instruction m)
        = .binary BI :=
      Instruction.replaceUsesOfWith_of_not_mem _ _ _ (h.noSelf _ hBImem)
    rw [List.map_append, List.map_append, List.map_cons]
    rw [map_eq_self _ P, map_eq_self _ es, hself]
    · intro e hem
      apply Instruction.replaceUsesOfWith_of_not_mem
      intro hv
      exact (he.operand_facts h hem hv).2.1 rfl
    · intro J hJ
      apply Instruction.replaceUsesOfWith_of_not_mem
      exact hssaPX J hJ _ (List.mem_cons_self _ _)
  · -- identities stay unique
    have hn := h.nodup
    simp only [List.map_append, List.map_cons, List.map_map] at hn ⊢
    have hfun : (Instruction.id ∘ Instruction.replaceUsesOfWith BI.id (.instruction m))
        = Instruction.id := by
      funext J
      simp
    rw [hfun, he.ids]
    have hperm : (List.map Instruction.id P ++ List.range' n es.length
          ++ BI.id :: List.map Instruction.id Q).Perm
        (List.range' n es.length ++ (List.map Instruction.id P
          ++ BI.id :: List.map Instruction.id Q)) := by
      rw [← List.append_assoc]
      exact List.Perm.append_right _ List.perm_append_comm
    refine hperm.nodup_iff.2 ?_
    apply List.Nodup.append (List.nodup_range' n es.length) hn
    rw [List.disjoint_left]
    intro a ha hb
    rw [List.mem_range'_1] at ha
    have : a ∈ (P ++ Instruction.binary BI :: Q).map Instruction.id := by
      simpa using hb
    obtain ⟨J, hJ, rfl⟩ := List.mem_map.1 this
    have := h.fresh J hJ
    omega
  · -- identities are allocated
    intro J hJ
    simp only [List.mem_append, List.mem_cons] at hJ
    rcases hJ with (hJ | hJ) | hJ | hJ
    · have := h.fresh J (hPmem J hJ); omega
    · exact (he.id_mem hJ).2
    · subst hJ; show BI.id < _; omega
    · obtain ⟨K, hK, rfl⟩ := hQ' J hJ
      have := h.fresh K (hQmem K hK)
      simp only [Instruction.id_replaceUsesOfWith]
      omega
  · -- operands exist
    intro J hJ v hv
    simp only [List.mem_append, List.mem_cons] at hJ
    rcases hJ with (hJ | hJ) | hJ | hJ
    · exact Value.definedBelow_mono (h.closed J (hPmem J hJ) v hv) (by omega)
    · exact (he.operand_facts h hJ hv).1
    · subst hJ
      exact Value.definedBelow_mono (h.closed _ hBImem v hv) (by omega)
    · obtain ⟨K, hK, rfl⟩ := hQ' J hJ
      rcases Instruction.mem_operands_replaceUsesOfWith hv with e | hv
      · rw [e]; exact hmk
      · exact Value.definedBelow_mono (h.closed K (hQmem K hK) v hv) (by omega)
  · -- nothing reads itself
    intro J hJ hv
    simp only [List.mem_append, List.mem_cons] at hJ
    rcases hJ with (hJ | hJ) | hJ | hJ
    · exact h.noSelf J (hPmem J hJ) hv
    · exact (he.operand_facts h hJ hv).2.2.1 rfl
    · subst hJ
      exact h.noSelf _ hBImem hv
    · obtain ⟨K, hK, rfl⟩ := hQ' J hJ
      rcases Instruction.mem_operands_replaceUsesOfWith hv with e | hv
      · simp only [Instruction.id_replaceUsesOfWith] at e
        injection e with e
        have := h.fresh K (hQmem K hK)
        omega
      · simp only [Instruction.id_replaceUsesOfWith] at hv
        exact h.noSelf K (hQmem K hK) hv
  · -- nothing reads a later result
    rw [List.append_assoc, List.pairwise_append]
    refine ⟨hssaP, ?_, ?_⟩
    · rw [List.pairwise_append]
      refine ⟨?_, ?_, ?_⟩
      · refine he.sorted.imp_of_mem ?_
        intro e k hem hk hlt hv
        exact (he.operand_facts h hem hv).2.2.2.2 k hk hlt rfl
      · rw [List.pairwise_cons]
        refine ⟨?_, ?_⟩
        · intro J hJ
          obtain ⟨K, hK, rfl⟩ := hQ' J hJ
          simpa using hssaB K hK
        · rw [List.pairwise_map]
          refine hssaQ.imp_of_mem ?_
          intro a b _ hb hab hv
          simp only [Instruction.id_replaceUsesOfWith] at hv
          rcases Instruction.mem_operands_replaceUsesOfWith hv with e | hv
          · injection e with e
            have := h.fresh b (hQmem b hb)
            omega
          · exact hab hv
      · intro e hem J hJ hv
        simp only [List.mem_cons] at hJ
        rcases hJ with hJ | hJ
        · subst hJ
          exact (he.operand_facts h hem hv).2.1 rfl
        · obtain ⟨K, hK, rfl⟩ := hQ' J hJ
          simp only [Instruction.id_replaceUsesOfWith] at hv
          exact (he.operand_facts h hem hv).2.2.2.1 K hK rfl
    · intro J hJ K hK hv
      simp only [List.mem_append, List.mem_cons] at hK
      rcases hK with hK | hK | hK
      · have hd : (Value.instruction K.id).definedBelow n := h.closed J (hPmem J hJ) _ hv
        have hlt : K.id < n := hd
        have := (he.id_mem hK).1
        omega
      · subst hK
        exact hssaPX J hJ _ (List.mem_cons_self _ _) hv
      · obtain ⟨K', hK', rfl⟩ := hQ' K hK
        simp only [Instruction.id_replaceUsesOfWith] at hv
        exact hssaPX J hJ K' (List.mem_cons_of_mem _ hK') hv

/-! ## Lemmas: values are kept by a rewrite -/

/-- One rewrite at list level: every register that existed keeps its value,
and the replacement holds the value of the rewritten operation. -/
theorem exec_step (I : Interp) (regs : Nat → Nat) {n : Nat} {BI : BinaryOperator}
    {es P Q : List Instruction} (h : WF n (P ++ .binary BI :: Q)) (he : Emits n BI es)
    (m : Nat) (hnm : n ≤ m)
    (hsem : ∀ r : Nat → Nat, exec I r es m = evalInst I r (.binary BI)) :
    (∀ j < n,
      exec I regs
          (P ++ es ++ .binary BI :: Q.map (Instruction.replaceUsesOfWith BI.id (.instruction m))) j
        = exec I regs (P ++ .binary BI :: Q) j) ∧
    exec I regs
        (P ++ es ++ .binary BI :: Q.map (Instruction.replaceUsesOfWith BI.id (.instruction m))) m
      = exec I regs (P ++ .binary BI :: Q) BI.id := by
  have hBImem : Instruction.binary BI ∈ P ++ .binary BI :: Q := by simp
  have hBIn : BI.id < n := h.fresh _ hBImem
  have hQmem : ∀ J ∈ Q, J ∈ P ++ Instruction.binary BI :: Q := fun J hJ => by simp [hJ]
  have hframe : ∀ r : Nat → Nat, ∀ j < n, exec I r es j = r j := by
    intro r j hj
    apply exec_of_not_mem
    intro e hem
    have := (he.id_mem hem).1
    omega
  have hBIeval : ∀ r : Nat → Nat, evalInst I (exec I r es) (.binary BI) = evalInst I r (.binary BI) := by
    intro r
    apply evalInst_congr
    intro v hv
    exact evalValue_congr I _ _ n v (hframe r) (h.closed _ hBImem v hv)
  have hQ : ∀ J ∈ Q, J.id < n ∧ J.id ≠ BI.id ∧ ∀ v ∈ J.operands, v.definedBelow n := by
    intro J hJ
    refine ⟨h.fresh J (hQmem J hJ), ?_, h.closed J (hQmem J hJ)⟩
    have hn := h.nodup
    simp only [List.map_append, List.map_cons] at hn
    have hn2 := (List.nodup_append.1 hn).2.1
    rw [List.nodup_cons] at hn2
    intro e
    apply hn2.1
    have : J.id ∈ Q.map Instruction.id := List.mem_map_of_mem _ hJ
    rw [e] at this
    exact this
  have key := exec_rewired I n BI.id m hnm Q
    (Function.update (exec I regs P) BI.id (evalInst I (exec I regs P) (.binary BI)))
    (Function.update (exec I (exec I regs P) es) BI.id
      (evalInst I (exec I (exec I regs P) es) (.binary BI)))
    (by
      intro j hj
      by_cases e : j = BI.id
      · rw [e, Function.update_same, Function.update_same, hBIeval]
      · rw [Function.update_noteq e, Function.update_noteq e, hframe _ j hj])
    (by
      have hne : m ≠ BI.id := by omega
      rw [Function.update_noteq hne, Function.update_same, hsem])
    hQ
  have eL : ∀ j, exec I regs
      (P ++ es ++ .binary BI :: Q.map (Instruction.replaceUsesOfWith BI.id (.instruction m))) j
      = exec I (Function.update (exec I (exec I regs P) es) BI.id
          (evalInst I (exec I (exec I regs P) es) (.binary BI)))
          (Q.map (Instruction.replaceUsesOfWith BI.id (.instruction m))) j := by
    intro j
    rw [exec_append, exec_append]
    rfl
  have eR : ∀ j, exec I regs (P ++ .binary BI :: Q) j
      = exec I (Function.update (exec I regs P) BI.id (evalInst I (exec I regs P) (.binary BI)))
          Q j := by
    intro j
    rw [exec_append]
    rfl
  refine ⟨?_, ?_⟩
  · intro j hj
    rw [eL, eR, key.1 j hj]
  · rw [eL, eR, key.2]

/-! ## Lemmas: one visit of the driver -/

/-- A visit either leaves everything but the insert point as it is, or applies
a rule of the visited operator's family to the instruction found. -/
theorem visit_cases (id : Nat) (st : State) :
    (∃ p, visit id st = { st with insertPt := p }) ∨
    ∃ (BI : BinaryOperator) (ρ : Rule) (k : Nat),
      findInst st.F id = some (.binary BI) ∧ ρ.opcode = BI.opcode ∧
      visit id st = ρ.apply BI (st.positioned BI.id k) := by
  unfold visit
  cases hf : findInst st.F id with
  | none => exact Or.inl ⟨st.insertPt, rfl⟩
  | some J =>
    cases J with
    | unary i opc ty op => exact Or.inl ⟨st.insertPt, rfl⟩
    | other i ops => exact Or.inl ⟨st.insertPt, rfl⟩
    | binary BI =>
      simp only [dyn_cast_BinaryOperator]
      by_cases h1 : BI.opcode = .Add ∨ BI.opcode = .Sub ∨ BI.opcode = .And ∨ BI.opcode = .Or
      · obtain ⟨ρ, hsel, hsub⟩ := substitute_dispatch BI (SetInsertPoint BI.id st) h1
        exact Or.inr ⟨BI, ρ, 1, rfl, selectRule_opcode _ _ _ hsel, hsub⟩
      · by_cases h2 : BI.opcode = .Xor
        · obtain ⟨ρ, hsel, hsub⟩ := substitute_dispatch_xor BI (SetInsertPoint BI.id st) h2
          exact Or.inr ⟨BI, ρ, 2, rfl, (selectRule_opcode _ _ _ hsel).trans h2.symm, hsub⟩
        · left
          refine ⟨some BI.id, ?_⟩
          rw [substitute_unsupported]
          · rfl
          · simp only [not_or] at h1
            exact ⟨h1.1, h1.2.1, h1.2.2.1, h1.2.2.2, h2⟩

/-- Rewiring does not change an instruction that does not read the old value,
which holds for the instructions placed before the rewritten operation, for
the emitted ones and for the operation itself. -/
theorem WF.noread {n : Nat} {BI : BinaryOperator} {es P Q : List Instruction}
    (h : WF n (P ++ .binary BI :: Q)) (he : Emits n BI es) (v : Value) (J : Instruction)
    (hJ : J ∈ P ∨ J ∈ es ∨ J = .binary BI) : J.replaceUsesOfWith BI.id v = J := by
  apply Instruction.replaceUsesOfWith_of_not_mem
  rcases hJ with hJ | hJ | hJ
  · exact (List.pairwise_append.1 h.ssa).2.2 J hJ _ (List.mem_cons_self _ _)
  · intro hv
    exact (he.operand_facts h hJ hv).2.1 rfl
  · subst hJ
    exact h.noSelf _ (by simp)

theorem insts_split (Fpre Fpost : Function) (X : List Instruction) :
    Function.insts (Fpre ++ X :: Fpost) = Fpre.flatten ++ X ++ Fpost.flatten := by
  simp [Function.insts]

theorem insts_located (Fpre Fpost : Function) (pre post : List Instruction) (J : Instruction) :
    Function.insts (Fpre ++ (pre ++ J :: post) :: Fpost)
      = (Fpre.flatten ++ pre) ++ J :: (post ++ Fpost.flatten) := by
  simp [Function.insts]

theorem insts_inserted (Fpre Fpost : Function) (pre post es : List Instruction)
    (J : Instruction) :
    Function.insts (Fpre ++ (pre ++ es ++ J :: post) :: Fpost)
      = (Fpre.flatten ++ pre) ++ es ++ J :: (post ++ Fpost.flatten) := by
  simp [Function.insts]

theorem WF.alloc {n : Nat} {L : List Instruction} (h : WF n L) : Alloc n L :=
  ⟨h.nodup, h.fresh⟩

theorem WellFormed.allocated {st : State} (h : WellFormed st) : Allocated st :=
  WF.alloc h

/-- The emitted instructions land, in order, immediately before the operation
the emitter is placed at. -/
theorem applied_fold (st : State) (BI : BinaryOperator) (es : List Instruction)
    (Fpre Fpost : Function) (pre post : List Instruction)
    (ha : Allocated st) (hpt : st.insertPt = some BI.id)
    (hF : st.F = Fpre ++ (pre ++ .binary BI :: post) :: Fpost)
    (he : Emits st.nextId BI es) :
    es.foldl (emit st.insertPt) st.F = Fpre ++ (pre ++ es ++ .binary BI :: post) :: Fpost := by
  have ha2 : Alloc st.nextId ((Fpre.flatten ++ pre) ++ .binary BI :: (post ++ Fpost.flatten)) := by
    have := ha
    unfold Allocated at this
    rwa [hF, insts_located] at this
  have hBIn : BI.id < st.nextId := ha2.fresh (.binary BI) (by simp)
  have hP : ∀ K ∈ Fpre.flatten ++ pre, K.id ≠ BI.id := by
    intro K hK e
    have hn := ha2.nodup
    rw [List.map_append, List.map_cons] at hn
    have hd := (List.nodup_append.1 hn).2.2
    have h1 : K.id ∈ (Fpre.flatten ++ pre).map Instruction.id := List.mem_map_of_mem _ hK
    exact List.disjoint_left.1 hd h1 (by rw [e]; exact List.mem_cons_self _ _)
  rw [hpt, hF]
  apply foldl_emit_append
  · intro BB hBB K hK
    exact hP K (List.mem_append_left _ (List.mem_flatten_of_mem hBB hK))
  · intro K hK
    exact hP K (List.mem_append_right _ hK)
  · intro K hK
    have := (he.id_mem hK).1
    omega
  · rfl

/-- Inserting the emitted instructions and rewiring keeps the identity
discipline. -/
theorem Alloc.insert_rewire {n : Nat} {BI : BinaryOperator} {es P Q : List Instruction}
    (h : Alloc n (P ++ .binary BI :: Q)) (he : Emits n BI es)
    (f : Instruction → Instruction) (hf : ∀ J, (f J).id = J.id) :
    Alloc (n + es.length) ((P ++ es ++ .binary BI :: Q).map f) := by
  have hfun : Instruction.id ∘ f = Instruction.id := funext hf
  refine ⟨?_, ?_⟩
  · have hn := h.nodup
    rw [List.map_map, hfun]
    simp only [List.map_append, List.map_cons] at hn ⊢
    rw [he.ids]
    have hperm : (List.map Instruction.id P ++ List.range' n es.length
          ++ BI.id :: List.map Instruction.id Q).Perm
        (List.range' n es.length ++ (List.map Instruction.id P
          ++ BI.id :: List.map Instruction.id Q)) := by
      rw [← List.append_assoc]
      exact List.Perm.append_right _ List.perm_append_comm
    refine hperm.nodup_iff.2 ?_
    apply List.Nodup.append (List.nodup_range' n es.length) hn
    rw [List.disjoint_left]
    intro a ha hb
    rw [List.mem_range'_1] at ha
    have : a ∈ (P ++ Instruction.binary BI :: Q).map Instruction.id := by
      simpa using hb
    obtain ⟨J, hJ, rfl⟩ := List.mem_map.1 this
    have := h.fresh J hJ
    omega
  · intro J' hJ'
    obtain ⟨J, hJ, rfl⟩ := List.mem_map.1 hJ'
    rw [hf]
    simp only [List.mem_append, List.mem_cons] at hJ
    rcases hJ with (hJ | hJ) | hJ | hJ
    · have := h.fresh J (by simp [hJ]); omega
    · exact (he.id_mem hJ).2
    · have := h.fresh J (by simp [hJ]); omega
    · have := h.fresh J (by simp [hJ]); omega

/-- The function after a rule has been applied to an operation of a
well-formed function, in closed form. -/
theorem applied_F (st : State) (BI : BinaryOperator) (es : List Instruction) (v : Value)
    (k : Nat) (Fpre Fpost : Function) (pre post : List Instruction)
    (hwf : WellFormed st) (hpt : st.insertPt = some BI.id)
    (hF : st.F = Fpre ++ (pre ++ .binary BI :: post) :: Fpost)
    (he : Emits st.nextId BI es) :
    es.foldl (emit st.insertPt) st.F = Fpre ++ (pre ++ es ++ .binary BI :: post) :: Fpost ∧
    (st.applied BI es v k).F
      = Fpre ++ (pre ++ es ++ .binary BI :: post.map (Instruction.replaceUsesOfWith BI.id v))
          :: Fpost.map (List.map (Instruction.replaceUsesOfWith BI.id v)) := by
  have hwf2 : WF st.nextId ((Fpre.flatten ++ pre) ++ .binary BI :: (post ++ Fpost.flatten)) := by
    have := hwf
    unfold WellFormed at this
    rw [hF, insts_split] at this
    simpa using this
  have hfold := applied_fold st BI es Fpre Fpost pre post hwf.allocated hpt hF he
  refine ⟨hfold, ?_⟩
  show (es.foldl (emit st.insertPt) st.F).map _ = _
  rw [hfold, List.map_append, List.map_cons, List.map_append, List.map_append, List.map_cons]
  have e1 : Fpre.map (List.map (Instruction.replaceUsesOfWith BI.id v)) = Fpre := by
    apply map_eq_self
    intro BB hBB
    apply map_eq_self
    intro J hJ
    exact hwf2.noread he v J (Or.inl (List.mem_append_left _ (List.mem_flatten_of_mem hBB hJ)))
  have e2 : pre.map (Instruction.replaceUsesOfWith BI.id v) = pre := by
    apply map_eq_self
    intro J hJ
    exact hwf2.noread he v J (Or.inl (List.mem_append_right _ hJ))
  have e3 : es.map (Instruction.replaceUsesOfWith BI.id v) = es := by
    apply map_eq_self
    intro J hJ
    exact hwf2.noread he v J (Or.inr (Or.inl hJ))
  rw [e1, e2, e3, hwf2.noread he v _ (Or.inr (Or.inr rfl))]

theorem Rule.apply_eq_result (ρ : Rule) (BI : BinaryOperator) (st : State) :
    ρ.apply BI st = st.applied BI (ρ.emits BI st) (ρ.result BI st) ρ.draws :=
  Rule.apply_eq ρ BI st

/-- A rule applied to an operation of a function with unique identities: the
emitted instructions go immediately before the operation, the whole function
is rewired, one rewiring is recorded, and identities stay unique. -/
theorem Rule.apply_alloc (ρ : Rule) (BI : BinaryOperator) (st : State) (k : Nat)
    (Fpre Fpost : Function) (pre post : List Instruction) (ha : Allocated st)
    (hF : st.F = Fpre ++ (pre ++ .binary BI :: post) :: Fpost) :
    (ρ.apply BI (st.positioned BI.id k)).F
      = (Fpre ++ (pre ++ ρ.emits BI (st.positioned BI.id k) ++ .binary BI :: post) :: Fpost).map
          (List.map (Instruction.replaceUsesOfWith BI.id
            (ρ.result BI (st.positioned BI.id k)))) ∧
    (ρ.apply BI (st.positioned BI.id k)).replaced
      = st.replaced ++ [⟨BI.id, ρ.result BI (st.positioned BI.id k),
          Fpre ++ (pre ++ ρ.emits BI (st.positioned BI.id k) ++ .binary BI :: post) :: Fpost⟩] ∧
    (ρ.apply BI (st.positioned BI.id k)).nextId
      = st.nextId + (ρ.emits BI (st.positioned BI.id k)).length ∧
    Allocated (ρ.apply BI (st.positioned BI.id k)) := by
  have hap : Allocated (st.positioned BI.id k) := ha
  have he := ρ.emits_Emits BI (st.positioned BI.id k)
  have hfold := applied_fold (st.positioned BI.id k) BI _ Fpre Fpost pre post hap rfl hF he
  have hFeq : (ρ.apply BI (st.positioned BI.id k)).F
      = (Fpre ++ (pre ++ ρ.emits BI (st.positioned BI.id k) ++ .binary BI :: post) :: Fpost).map
          (List.map (Instruction.replaceUsesOfWith BI.id
            (ρ.result BI (st.positioned BI.id k)))) := by
    rw [Rule.apply_eq_result]
    show (List.foldl (emit _) _ _).map _ = _
    rw [hfold]
  refine ⟨hFeq, ?_, ?_, ?_⟩
  · rw [Rule.apply_eq_result]
    show st.replaced ++ [_] = _
    rw [hfold]
  · rw [Rule.apply_eq_result]
    rfl
  · have ha2 : Alloc st.nextId
        ((Fpre.flatten ++ pre) ++ .binary BI :: (post ++ Fpost.flatten)) := by
      have := ha
      unfold Allocated at this
      rwa [hF, insts_located] at this
    have hstep := ha2.insert_rewire he
      (Instruction.replaceUsesOfWith BI.id (ρ.result BI (st.positioned BI.id k)))
      (fun J => Instruction.id_replaceUsesOfWith J _ _)
    have hn : (ρ.apply BI (st.positioned BI.id k)).nextId
        = st.nextId + (ρ.emits BI (st.positioned BI.id k)).length := by
      rw [Rule.apply_eq_result]
      rfl
    unfold Allocated
    rw [hn, hFeq]
    have : Function.insts ((Fpre ++ (pre ++ ρ.emits BI (st.positioned BI.id k)
          ++ .binary BI :: post) :: Fpost).map
          (List.map (Instruction.replaceUsesOfWith BI.id
            (ρ.result BI (st.positioned BI.id k)))))
        = ((Fpre.flatten ++ pre) ++ ρ.emits BI (st.positioned BI.id k)
            ++ .binary BI :: (post ++ Fpost.flatten)).map
          (Instruction.replaceUsesOfWith BI.id (ρ.result BI (st.positioned BI.id k))) := by
      rw [← insts_inserted]
      simp only [Function.insts, List.map_flatten]
    rw [this]
    exact hstep

theorem insts_rewritten (Fpre Fpost : Function) (pre post es : List Instruction)
    (J : Instruction) (f : Instruction → Instruction) :
    Function.insts (Fpre ++ (pre ++ es ++ J :: post.map f) :: Fpost.map (List.map f))
      = (Fpre.flatten ++ pre) ++ es ++ J :: (post ++ Fpost.flatten).map f := by
  simp [Function.insts, List.map_flatten]

/-- A rule applied to an operation of a well-formed function: where the
emitted instructions go, what is rewired, and that the result is well-formed. -/
theorem Rule.apply_wf (ρ : Rule) (BI : BinaryOperator) (st : State) (k : Nat)
    (Fpre Fpost : Function) (pre post : List Instruction) (hwf : WellFormed st)
    (hF : st.F = Fpre ++ (pre ++ .binary BI :: post) :: Fpost) :
    (ρ.apply BI (st.positioned BI.id k)).F
      = Fpre ++ (pre ++ ρ.emits BI (st.positioned BI.id k) ++ .binary BI ::
            post.map (Instruction.replaceUsesOfWith BI.id (ρ.result BI (st.positioned BI.id k))))
          :: Fpost.map (List.map
              (Instruction.replaceUsesOfWith BI.id (ρ.result BI (st.positioned BI.id k)))) ∧
    (ρ.apply BI (st.positioned BI.id k)).replaced
      = st.replaced ++ [⟨BI.id, ρ.result BI (st.positioned BI.id k),
          Fpre ++ (pre ++ ρ.emits BI (st.positioned BI.id k) ++ .binary BI :: post) :: Fpost⟩] ∧
    (ρ.apply BI (st.positioned BI.id k)).nextId
      = st.nextId + (ρ.emits BI (st.positioned BI.id k)).length ∧
    WellFormed (ρ.apply BI (st.positioned BI.id k)) := by
  have hwfp : WellFormed (st.positioned BI.id k) := hwf
  have he := ρ.emits_Emits BI (st.positioned BI.id k)
  have hcf := applied_F (st.positioned BI.id k) BI _ (ρ.result BI (st.positioned BI.id k))
    ρ.draws Fpre Fpost pre post hwfp rfl hF he
  rw [Rule.apply_eq_result]
  refine ⟨hcf.2, ?_, rfl, ?_⟩
  · show st.replaced ++ [_] = _
    rw [hcf.1]
  · have hwf2 : WF st.nextId ((Fpre.flatten ++ pre) ++ .binary BI :: (post ++ Fpost.flatten)) := by
      have := hwf
      unfold WellFormed at this
      rwa [hF, insts_located] at this
    have hpos := he.pos
    have hstep := hwf2.rewrite_step he (st.nextId + (ρ.emits BI (st.positioned BI.id k)).length - 1)
      (by show st.nextId ≤ _; omega) (by show _ < st.nextId + _; omega)
    unfold WellFormed
    rw [hcf.2, insts_rewritten]
    exact hstep.2

/-- A rule applied to an operation of its own operator kind keeps the value of
every register that existed, and its result holds the value of the operation. -/
theorem Rule.apply_exec (ρ : Rule) (BI : BinaryOperator) (st : State) (k : Nat)
    (Fpre Fpost : Function) (pre post : List Instruction) (hwf : WellFormed st)
    (hF : st.F = Fpre ++ (pre ++ .binary BI :: post) :: Fpost) (hop : ρ.opcode = BI.opcode)
    (I : Interp) (regs : Nat → Nat) :
    (∀ j < st.nextId,
      exec I regs (ρ.apply BI (st.positioned BI.id k)).F.insts j = exec I regs st.F.insts j) ∧
    evalValue I (exec I regs (ρ.apply BI (st.positioned BI.id k)).F.insts)
        (ρ.result BI (st.positioned BI.id k))
      = exec I regs st.F.insts BI.id := by
  have he := ρ.emits_Emits BI (st.positioned BI.id k)
  have hwf2 : WF st.nextId ((Fpre.flatten ++ pre) ++ .binary BI :: (post ++ Fpost.flatten)) := by
    have := hwf
    unfold WellFormed at this
    rwa [hF, insts_located] at this
  have hpos := he.pos
  have hcl := hwf2.closed (.binary BI) (by simp)
  have hsem : ∀ r : Nat → Nat,
      exec I r (ρ.emits BI (st.positioned BI.id k))
          (st.nextId + (ρ.emits BI (st.positioned BI.id k)).length - 1)
        = evalInst I r (.binary BI) := by
    intro r
    have := Rule.exec_insts ρ I r st.nextId BI.ty
      ((st.positioned BI.id k).rand (st.positioned BI.id k).randPos % 2 ^ BI.ty) BI.op0 BI.op1
      (hcl _ (by simp [Instruction.operands])) (hcl _ (by simp [Instruction.operands]))
    rw [hop] at this
    exact this
  have hx := exec_step I regs hwf2 he
    (st.nextId + (ρ.emits BI (st.positioned BI.id k)).length - 1)
    (by show st.nextId ≤ _; omega) hsem
  rw [(Rule.apply_wf ρ BI st k Fpre Fpost pre post hwf hF).1, insts_rewritten, hF, insts_located]
  exact hx

/-! ## Lemmas: blocks not yet visited -/

theorem block_index (Fpre Fpost : Function) (X : List Instruction) (id : Nat)
    (h1 : ∀ BB ∈ Fpre, ∀ K ∈ BB, K.id ≠ id) (k : Nat)
    (hk : ∃ J ∈ (Fpre ++ X :: Fpost).getD k [], J.id = id) : Fpre.length ≤ k := by
  induction Fpre generalizing k with
  | nil => exact Nat.zero_le _
  | cons BB Fpre ih =>
    cases k with
    | zero =>
      obtain ⟨J, hJ, hJid⟩ := hk
      simp only [List.cons_append, List.getD_cons_zero] at hJ
      exact absurd hJid (h1 BB (List.mem_cons_self _ _) J hJ)
    | succ k =>
      simp only [List.cons_append, List.getD_cons_succ] at hk
      have := ih (fun BB' h => h1 BB' (List.mem_cons_of_mem _ h)) k hk
      simp only [List.length_cons]
      omega

theorem getD_map_map (F : Function) (f : Instruction → Instruction) (i : Nat) :
    (F.map (List.map f)).getD i [] = (F.getD i []).map f := by
  rw [List.getD_eq_getElem?_getD, List.getD_eq_getElem?_getD, List.getElem?_map]
  cases F[i]? <;> rfl

theorem blocks_ids_subset (Fpre Fpost : Function) (X Y : List Instruction)
    (f : Instruction → Instruction) (hf : ∀ J, (f J).id = J.id)
    (hX : ∀ J ∈ X, J ∈ Y) (i : Nat) :
    ∀ J ∈ (Fpre ++ X :: Fpost).getD i [],
      ∃ K ∈ ((Fpre ++ Y :: Fpost).map (List.map f)).getD i [], K.id = J.id := by
  have key : ∀ J ∈ (Fpre ++ X :: Fpost).getD i [], J ∈ (Fpre ++ Y :: Fpost).getD i [] := by
    induction Fpre generalizing i with
    | nil =>
      cases i with
      | zero => simpa using hX
      | succ i => exact fun J hJ => hJ
    | cons BB Fpre ih =>
      cases i with
      | zero => exact fun J hJ => hJ
      | succ i => exact ih i
  intro J hJ
  rw [getD_map_map]
  exact ⟨f J, List.mem_map_of_mem _ (key J hJ), hf J⟩

theorem blocks_ids_after (Fpre Fpost : Function) (X Y : List Instruction)
    (f : Instruction → Instruction) (hf : ∀ J, (f J).id = J.id) (i : Nat)
    (hi : Fpre.length < i) :
    ∀ K ∈ ((Fpre ++ Y :: Fpost).map (List.map f)).getD i [],
      ∃ J ∈ (Fpre ++ X :: Fpost).getD i [], J.id = K.id := by
  have key : (Fpre ++ Y :: Fpost).getD i [] = (Fpre ++ X :: Fpost).getD i [] := by
    induction Fpre generalizing i with
    | nil =>
      cases i with
      | zero => exact absurd hi (Nat.lt_irrefl _)
      | succ i => rfl
    | cons BB Fpre ih =>
      cases i with
      | zero => exact absurd hi (Nat.not_lt_zero _)
      | succ i =>
        simp only [List.length_cons] at hi
        exact ih i (by omega)
  intro K hK
  rw [getD_map_map, key] at hK
  obtain ⟨J, hJ, rfl⟩ := List.mem_map.1 hK
  exact ⟨J, hJ, (hf J).symm⟩

/-! ## Lemmas: invariants of the driver -/

/-- One visit keeps every property `Inv` that does not depend on the insert
point and that each rule application to an original operation keeps; it also
keeps the identities unique and the blocks after block `k` free of new
instructions. -/
theorem visit_invariant (Inv : State → Prop) (n0 : Nat)
    (hpt : ∀ st p, Inv st → Inv { st with insertPt := p })
    (hstep : ∀ (st : State) (BI : BinaryOperator) (ρ : Rule) (k : Nat) (Fpre Fpost : Function)
      (pre post : List Instruction), Allocated st → n0 ≤ st.nextId → Inv st →
      st.F = Fpre ++ (pre ++ .binary BI :: post) :: Fpost → BI.id < n0 →
      ρ.opcode = BI.opcode → Inv (ρ.apply BI (st.positioned BI.id k)))
    (k id : Nat) (st : State) (hwf : Allocated st) (hn : n0 ≤ st.nextId) (hinv : Inv st)
    (hid : id < n0) (hk : ∃ J ∈ st.F.getD k [], J.id = id)
    (hafter : ∀ i, k < i → ∀ J ∈ st.F.getD i [], J.id < n0) :
    Allocated (visit id st) ∧ n0 ≤ (visit id st).nextId ∧ Inv (visit id st) ∧
    (∀ i, k < i → ∀ J ∈ (visit id st).F.getD i [], J.id < n0) ∧
    (∀ J ∈ st.F.getD k [], ∃ K ∈ (visit id st).F.getD k [], K.id = J.id) := by
  rcases visit_cases id st with ⟨p, hv⟩ | ⟨BI, ρ, d, hfind, hop, hv⟩
  · rw [hv]
    exact ⟨hwf, hn, hpt st p hinv, hafter, fun J hJ => ⟨J, hJ, rfl⟩⟩
  · obtain ⟨hBid, Fpre, pre, post, Fpost, hF, h1, _⟩ := findInst_eq_some _ _ _ hfind
    have hBid2 : BI.id = id := hBid
    obtain ⟨hF2, _, hnext, hwf2⟩ := Rule.apply_alloc ρ BI st d Fpre Fpost pre post hwf hF
    have hlen : Fpre.length ≤ k := by
      apply block_index Fpre Fpost (pre ++ .binary BI :: post) id h1 k
      rw [← hF]
      exact hk
    rw [hv]
    refine ⟨hwf2, by omega, ?_, ?_, ?_⟩
    · exact hstep st BI ρ d Fpre Fpost pre post hwf hn hinv hF (by omega) hop
    · intro i hi K hK
      rw [hF2] at hK
      obtain ⟨J, hJ, hJK⟩ := blocks_ids_after Fpre Fpost (pre ++ .binary BI :: post) _ _
        (fun J => Instruction.id_replaceUsesOfWith J _ _) i (by omega) K hK
      rw [← hF] at hJ
      rw [← hJK]
      exact hafter i hi J hJ
    · intro J hJ
      rw [hF2]
      rw [hF] at hJ
      refine blocks_ids_subset Fpre Fpost (pre ++ .binary BI :: post) _ _
        (fun J => Instruction.id_replaceUsesOfWith J _ _) ?_ k J hJ
      intro J hJ
      simp only [List.mem_append, List.mem_cons] at hJ ⊢
      tauto

theorem run_eq (srand : Int → Nat → Nat) (seed : Int) (st : State) :
    run srand seed st
      = runBlocks (st.entered srand seed).F.length (st.entered srand seed) := rfl

theorem entered_F (srand : Int → Nat → Nat) (seed : Int) (st : State) :
    (st.entered srand seed).F = st.F := by
  unfold State.entered incNumInstructionsInserted incNumSubstitutions
  split <;> rfl

theorem entered_nextId (srand : Int → Nat → Nat) (seed : Int) (st : State) :
    (st.entered srand seed).nextId = st.nextId := by
  unfold State.entered incNumInstructionsInserted incNumSubstitutions
  split <;> rfl

theorem entered_replaced (srand : Int → Nat → Nat) (seed : Int) (st : State) :
    (st.entered srand seed).replaced = st.replaced := by
  unfold State.entered incNumInstructionsInserted incNumSubstitutions
  split <;> rfl

theorem entered_created (srand : Int → Nat → Nat) (seed : Int) (st : State) :
    (st.entered srand seed).created = st.created := by
  unfold State.entered incNumInstructionsInserted incNumSubstitutions
  split <;> rfl

theorem runBlocks_succ (m : Nat) (st : State) :
    runBlocks (m + 1) st = visitBlock m (runBlocks m st) := by
  simp [runBlocks, List.range_succ, List.foldl_append]

/-- The loop over a snapshot keeps the invariants of a visit. -/
theorem visitAll_invariant (Inv : State → Prop) (n0 : Nat)
    (hpt : ∀ st p, Inv st → Inv { st with insertPt := p })
    (hstep : ∀ (st : State) (BI : BinaryOperator) (ρ : Rule) (k : Nat) (Fpre Fpost : Function)
      (pre post : List Instruction), Allocated st → n0 ≤ st.nextId → Inv st →
      st.F = Fpre ++ (pre ++ .binary BI :: post) :: Fpost → BI.id < n0 →
      ρ.opcode = BI.opcode → Inv (ρ.apply BI (st.positioned BI.id k)))
    (k : Nat) (origInst : List Nat) (st : State) (hwf : Allocated st) (hn : n0 ≤ st.nextId)
    (hinv : Inv st)
    (horig : ∀ id ∈ origInst, id < n0 ∧ ∃ J ∈ st.F.getD k [], J.id = id)
    (hafter : ∀ i, k < i → ∀ J ∈ st.F.getD i [], J.id < n0) :
    Allocated (origInst.foldl (fun st I => visit I st) st) ∧
    n0 ≤ (origInst.foldl (fun st I => visit I st) st).nextId ∧
    Inv (origInst.foldl (fun st I => visit I st) st) ∧
    (∀ i, k < i → ∀ J ∈ (origInst.foldl (fun st I => visit I st) st).F.getD i [], J.id < n0) := by
  induction origInst generalizing st with
  | nil => exact ⟨hwf, hn, hinv, hafter⟩
  | cons id rest ih =>
    obtain ⟨hid, hk⟩ := horig id (List.mem_cons_self _ _)
    obtain ⟨h1, h2, h3, h4, h5⟩ :=
      visit_invariant Inv n0 hpt hstep k id st hwf hn hinv hid hk hafter
    rw [List.foldl_cons]
    apply ih (visit id st) h1 h2 h3 _ h4
    intro id2 hid2
    obtain ⟨hlt, J, hJ, hJid⟩ := horig id2 (List.mem_cons_of_mem _ hid2)
    obtain ⟨K, hK, hKJ⟩ := h5 J hJ
    exact ⟨hlt, K, hK, hKJ.trans hJid⟩

theorem visitBlock_invariant (Inv : State → Prop) (n0 : Nat)
    (hpt : ∀ st p, Inv st → Inv { st with insertPt := p })
    (hstep : ∀ (st : State) (BI : BinaryOperator) (ρ : Rule) (k : Nat) (Fpre Fpost : Function)
      (pre post : List Instruction), Allocated st → n0 ≤ st.nextId → Inv st →
      st.F = Fpre ++ (pre ++ .binary BI :: post) :: Fpost → BI.id < n0 →
      ρ.opcode = BI.opcode → Inv (ρ.apply BI (st.positioned BI.id k)))
    (k : Nat) (st : State) (hwf : Allocated st) (hn : n0 ≤ st.nextId) (hinv : Inv st)
    (hfrom : ∀ i, k ≤ i → ∀ J ∈ st.F.getD i [], J.id < n0) :
    Allocated (visitBlock k st) ∧ n0 ≤ (visitBlock k st).nextId ∧ Inv (visitBlock k st) ∧
    (∀ i, k < i → ∀ J ∈ (visitBlock k st).F.getD i [], J.id < n0) := by
  unfold visitBlock
  apply visitAll_invariant Inv n0 hpt hstep k _ st hwf hn hinv
  · intro id hid
    obtain ⟨J, hJ, rfl⟩ := List.mem_map.1 hid
    exact ⟨hfrom k (Nat.le_refl _) J hJ, J, hJ, rfl⟩
  · exact fun i hi => hfrom i (Nat.le_of_lt hi)

theorem runBlocks_invariant (Inv : State → Prop) (n0 : Nat)
    (hpt : ∀ st p, Inv st → Inv { st with insertPt := p })
    (hstep : ∀ (st : State) (BI : BinaryOperator) (ρ : Rule) (k : Nat) (Fpre Fpost : Function)
      (pre post : List Instruction), Allocated st → n0 ≤ st.nextId → Inv st →
      st.F = Fpre ++ (pre ++ .binary BI :: post) :: Fpost → BI.id < n0 →
      ρ.opcode = BI.opcode → Inv (ρ.apply BI (st.positioned BI.id k)))
    (st : State) (hwf : Allocated st) (hn : n0 ≤ st.nextId) (hinv : Inv st)
    (hall : ∀ i, ∀ J ∈ st.F.getD i [], J.id < n0) (m : Nat) :
    Allocated (runBlocks m st) ∧ n0 ≤ (runBlocks m st).nextId ∧ Inv (runBlocks m st) ∧
    (∀ i, m ≤ i → ∀ J ∈ (runBlocks m st).F.getD i [], J.id < n0) := by
  induction m with
  | zero => exact ⟨hwf, hn, hinv, fun i _ => hall i⟩
  | succ m ih =>
    obtain ⟨h1, h2, h3, h4⟩ := ih
    rw [runBlocks_succ]
    obtain ⟨g1, g2, g3, g4⟩ :=
      visitBlock_invariant Inv n0 hpt hstep m (runBlocks m st) h1 h2 h3 h4
    exact ⟨g1, g2, g3, fun i hi => g4 i hi⟩

theorem mem_getD_insts (F : Function) (i : Nat) (J : Instruction) (h : J ∈ F.getD i []) :
    J ∈ F.insts := by
  rw [List.getD_eq_getElem?_getD] at h
  cases hb : F[i]? with
  | none => simp [hb] at h
  | some BB =>
    simp only [hb, Option.getD_some] at h
    exact List.mem_flatten_of_mem (List.getElem?_mem hb) h

/-- Induction principle of `Substitution::run` on a function with unique
identities: a property of the state that holds on entry, does not depend on
the insert point and is kept by every rule application to an operation of the
original function, holds when the run returns; identities are unique again. -/
theorem run_invariant (Inv : State → Prop) (srand : Int → Nat → Nat) (seed : Int)
    (st : State) (hwf : Allocated st)
    (hpt : ∀ st p, Inv st → Inv { st with insertPt := p })
    (hstep : ∀ (s : State) (BI : BinaryOperator) (ρ : Rule) (k : Nat) (Fpre Fpost : Function)
      (pre post : List Instruction), Allocated s → st.nextId ≤ s.nextId → Inv s →
      s.F = Fpre ++ (pre ++ .binary BI :: post) :: Fpost → BI.id < st.nextId →
      ρ.opcode = BI.opcode → Inv (ρ.apply BI (s.positioned BI.id k)))
    (hinv : Inv (st.entered srand seed)) :
    Allocated (run srand seed st) ∧ st.nextId ≤ (run srand seed st).nextId ∧
      Inv (run srand seed st) := by
  have hwf1 : Allocated (st.entered srand seed) := by
    unfold Allocated
    rw [entered_F, entered_nextId]
    exact hwf
  have hall : ∀ i, ∀ J ∈ (st.entered srand seed).F.getD i [], J.id < st.nextId := by
    intro i J hJ
    rw [entered_F] at hJ
    exact hwf.fresh J (mem_getD_insts _ _ _ hJ)
  obtain ⟨h1, h2, h3, _⟩ := runBlocks_invariant Inv st.nextId hpt hstep (st.entered srand seed)
    hwf1 (by rw [entered_nextId]) hinv hall (st.entered srand seed).F.length
  rw [run_eq]
  exact ⟨h1, h2, h3⟩

/-! ## Lemmas: consumers -/

theorem Instruction.getElem?_operands_replaceUsesOfWith (J : Instruction) (old : Nat)
    (new : Value) (k : Nat) :
    (J.replaceUsesOfWith old new).operands[k]?
      = (J.operands[k]?).map (fun v => v.replaceUsesOfWith old new) := by
  rw [Instruction.operands_replaceUsesOfWith, List.getElem?_map]

/-- The function after a rule application is the function with the emitted
instructions in place, rewired. -/
theorem Rule.apply_insts (ρ : Rule) (BI : BinaryOperator) (st : State) (k : Nat)
    (Fpre Fpost : Function) (pre post : List Instruction) (hwf : Allocated st)
    (hF : st.F = Fpre ++ (pre ++ .binary BI :: post) :: Fpost) :
    (ρ.apply BI (st.positioned BI.id k)).F.insts
      = (Function.insts
          (Fpre ++ (pre ++ ρ.emits BI (st.positioned BI.id k) ++ .binary BI :: post) :: Fpost)).map
        (Instruction.replaceUsesOfWith BI.id (ρ.result BI (st.positioned BI.id k))) := by
  rw [(Rule.apply_alloc ρ BI st k Fpre Fpost pre post hwf hF).1]
  simp only [Function.insts, List.map_flatten]

theorem mem_insts_inserted (Fpre Fpost : Function) (pre post es : List Instruction)
    (J K : Instruction) :
    K ∈ Function.insts (Fpre ++ (pre ++ es ++ J :: post) :: Fpost)
      ↔ K ∈ Function.insts (Fpre ++ (pre ++ J :: post) :: Fpost) ∨ K ∈ es := by
  simp only [Function.insts, List.flatten_append, List.flatten_cons, List.mem_append,
    List.mem_cons]
  tauto

/-- The two properties of a rewiring that a later rule application keeps:
nothing reads the old value, and every former consumer reads the new one. -/
theorem Rule.apply_consumers (ρ : Rule) (BI : BinaryOperator) (st : State) (k : Nat)
    (Fpre Fpost : Function) (pre post : List Instruction) (hwf : Allocated st)
    (hF : st.F = Fpre ++ (pre ++ .binary BI :: post) :: Fpost) (n0 : Nat) (hn : n0 ≤ st.nextId)
    (hBI : BI.id < n0) (rw : Rewiring) (hold : rw.old < n0)
    (hnew : ∃ m, n0 ≤ m ∧ rw.new = .instruction m)
    (hzero : ∀ J ∈ st.F.insts, Value.instruction rw.old ∉ J.operands)
    (hread : ∀ J ∈ rw.before.insts, ∀ i : Nat, J.operands[i]? = some (Value.instruction rw.old) →
      ∃ K ∈ st.F.insts, K.id = J.id ∧ K.operands[i]? = some rw.new) :
    (∀ J ∈ (ρ.apply BI (st.positioned BI.id k)).F.insts,
      Value.instruction rw.old ∉ J.operands) ∧
    (∀ J ∈ rw.before.insts, ∀ i : Nat, J.operands[i]? = some (Value.instruction rw.old) →
      ∃ K ∈ (ρ.apply BI (st.positioned BI.id k)).F.insts,
        K.id = J.id ∧ K.operands[i]? = some rw.new) := by
  have he := ρ.emits_Emits BI (st.positioned BI.id k)
  have hins := Rule.apply_insts ρ BI st k Fpre Fpost pre post hwf hF
  have hBImem : Instruction.binary BI ∈ st.F.insts := by
    rw [hF, insts_located]
    simp
  refine ⟨?_, ?_⟩
  · intro J' hJ' hv
    rw [hins] at hJ'
    obtain ⟨J, hJ, rfl⟩ := List.mem_map.1 hJ'
    rcases Instruction.mem_operands_replaceUsesOfWith hv with e | hv
    · unfold Rule.result at e
      injection e with e
      have hpos := he.pos
      have : (st.positioned BI.id k).nextId = st.nextId := rfl
      omega
    · rcases (mem_insts_inserted _ _ _ _ _ _ _).1 hJ with hJ | hJ
      · rw [← hF] at hJ
        exact hzero J hJ hv
      · rcases he.operands J hJ _ hv with h0 | h1 | ⟨c, hc⟩ | ⟨j, hj, hnj, _⟩
        · exact hzero _ hBImem (by rw [h0]; simp [Instruction.operands])
        · exact hzero _ hBImem (by rw [h1]; simp [Instruction.operands])
        · exact absurd hc (by simp)
        · injection hj with hj
          have : (st.positioned BI.id k).nextId = st.nextId := rfl
          omega
  · intro J hJ i hi
    obtain ⟨K, hK, hKid, hKop⟩ := hread J hJ i hi
    refine ⟨K.replaceUsesOfWith BI.id (ρ.result BI (st.positioned BI.id k)), ?_, ?_, ?_⟩
    · rw [hins]
      apply List.mem_map_of_mem
      apply (mem_insts_inserted _ _ _ _ _ _ _).2
      left
      rw [← hF]
      exact hK
    · rw [Instruction.id_replaceUsesOfWith, hKid]
    · rw [Instruction.getElem?_operands_replaceUsesOfWith, hKop, Option.map_some']
      obtain ⟨m, hm, hnew⟩ := hnew
      rw [hnew, Value.replaceUsesOfWith_of_ne]
      intro e
      injection e with e
      omega

/-- The rewiring a rule application performs: nothing reads the rewritten
operation afterwards, and every instruction that read it reads the result. -/
theorem Rule.apply_rewires (ρ : Rule) (BI : BinaryOperator) (st : State) (k : Nat)
    (Fpre Fpost : Function) (pre post : List Instruction) (hwf : Allocated st)
    (hF : st.F = Fpre ++ (pre ++ .binary BI :: post) :: Fpost) :
    (∀ J ∈ (ρ.apply BI (st.positioned BI.id k)).F.insts,
      Value.instruction BI.id ∉ J.operands) ∧
    (∀ J ∈ Function.insts
        (Fpre ++ (pre ++ ρ.emits BI (st.positioned BI.id k) ++ .binary BI :: post) :: Fpost),
      ∀ i : Nat, J.operands[i]? = some (Value.instruction BI.id) →
      ∃ K ∈ (ρ.apply BI (st.positioned BI.id k)).F.insts,
        K.id = J.id ∧ K.operands[i]? = some (ρ.result BI (st.positioned BI.id k))) := by
  have he := ρ.emits_Emits BI (st.positioned BI.id k)
  have hins := Rule.apply_insts ρ BI st k Fpre Fpost pre post hwf hF
  have hBIn : BI.id < st.nextId := by
    apply hwf.fresh (.binary BI)
    rw [hF, insts_located]
    simp
  have hne : ρ.result BI (st.positioned BI.id k) ≠ .instruction BI.id := by
    intro e
    unfold Rule.result at e
    injection e with e
    have hpos := he.pos
    have : (st.positioned BI.id k).nextId = st.nextId := rfl
    omega
  refine ⟨?_, ?_⟩
  · intro J' hJ'
    rw [hins] at hJ'
    obtain ⟨J, _, rfl⟩ := List.mem_map.1 hJ'
    exact Instruction.not_mem_operands_replaceUsesOfWith J BI.id _ hne
  · intro J hJ i hi
    refine ⟨J.replaceUsesOfWith BI.id (ρ.result BI (st.positioned BI.id k)), ?_, ?_, ?_⟩
    · rw [hins]
      exact List.mem_map_of_mem _ hJ
    · rw [Instruction.id_replaceUsesOfWith]
    · rw [Instruction.getElem?_operands_replaceUsesOfWith, hi, Option.map_some',
        Value.replaceUsesOfWith_self]

theorem xor_of_xors (w a b r : Nat) :
    (a % 2 ^ w ^^^ r % 2 ^ w) % 2 ^ w ^^^ (b % 2 ^ w ^^^ r % 2 ^ w) % 2 ^ w
      = a % 2 ^ w ^^^ b % 2 ^ w := by
  apply Nat.eq_of_testBit_eq
  intro i
  simp only [Nat.testBit_xor, Nat.testBit_mod_two_pow]
  by_cases h : i < w <;> simp [h]
  cases b.testBit i <;> cases r.testBit i <;> rfl

/-! ## Lemmas: the driver in closed form -/

theorem dispatch_eq_none (opc : BinaryOps) (s : State) (h : (catalog opc).isEmpty = true) :
    dispatch opc s = none := by
  cases opc <;> simp [catalog] at h <;> simp [dispatch, selectRule, catalog]

theorem dispatch_opcode (opc : BinaryOps) (s : State) (ρ : Rule)
    (h : dispatch opc s = some ρ) : ρ.opcode = opc :=
  selectRule_opcode _ _ _ h

theorem dispatch_isSome (opc : BinaryOps) (s : State) (h : (catalog opc).isEmpty = false) :
    ∃ ρ, dispatch opc s = some ρ := by
  unfold dispatch selectRule
  have hlen : 0 < (catalog opc).length := by
    cases opc <;> simp [catalog] at h ⊢
  have hlt := Nat.mod_lt (s.rand (if opc = .Xor then s.randPos + 1 else s.randPos)) hlen
  exact ⟨_, List.getElem?_eq_getElem hlt⟩

/-- `substitute` applies the rule its dispatcher selects, after the draws of the
selection. -/
theorem substitute_eq (BI : BinaryOperator) (s : State) :
    substitute BI s
      = match dispatch BI.opcode s with
        | some ρ => ρ.apply BI { s with randPos := s.randPos + selectDraws BI.opcode }
        | none => s := by
  by_cases h1 : BI.opcode = .Add ∨ BI.opcode = .Sub ∨ BI.opcode = .And ∨ BI.opcode = .Or
  · obtain ⟨ρ, hsel, hsub⟩ := substitute_dispatch BI s h1
    have hne : BI.opcode ≠ .Xor := by
      rcases h1 with h | h | h | h <;> rw [h] <;> decide
    have hd : dispatch BI.opcode s = some ρ := by
      simp only [dispatch, hne, if_false]
      exact hsel
    rw [hd, hsub]
    simp [selectDraws, hne, getRandomNumber]
  · by_cases h2 : BI.opcode = .Xor
    · obtain ⟨ρ, hsel, hsub⟩ := substitute_dispatch_xor BI s h2
      have hd : dispatch BI.opcode s = some ρ := by
        simp only [dispatch, h2, if_true]
        exact hsel
      rw [hd, hsub]
      simp [selectDraws, h2, getRandomNumber]
    · simp only [not_or] at h1
      rw [substitute_unsupported BI s ⟨h1.1, h1.2.1, h1.2.2.1, h1.2.2.2, h2⟩,
        dispatch_eq_none]
      revert h1 h2
      cases BI.opcode <;> simp [catalog]

/-- A visit in closed form. -/
theorem visit_eq (id : Nat) (s : State) :
    visit id s
      = match findInst s.F id with
        | some (.binary BI) =>
            match dispatch BI.opcode s with
            | some ρ => ρ.apply BI (s.positioned BI.id (selectDraws BI.opcode))
            | none => SetInsertPoint BI.id s
        | _ => s := by
  unfold visit
  cases hf : findInst s.F id with
  | none => rfl
  | some J =>
    cases J with
    | unary i opc ty op => rfl
    | other i ops => rfl
    | binary BI =>
      simp only [dyn_cast_BinaryOperator]
      rw [substitute_eq]
      have hd : dispatch BI.opcode (SetInsertPoint BI.id s) = dispatch BI.opcode s := rfl
      rw [hd]
      cases dispatch BI.opcode s <;> rfl
/-! ## Lemmas: the original instructions in the course of a run -/

theorem rewire_nil (J : Instruction) : rewire [] J = J := rfl

theorem rewire_append (X : List Rewiring) (rw : Rewiring) (J : Instruction) :
    rewire (X ++ [rw]) J = (rewire X J).replaceUsesOfWith rw.old rw.new := by
  simp [rewire, List.foldl_append]

@[simp] theorem rewire_id (X : List Rewiring) (J : Instruction) : (rewire X J).id = J.id := by
  induction X generalizing J with
  | nil => rfl
  | cons rw X ih =>
    show (rewire X (J.replaceUsesOfWith rw.old rw.new)).id = J.id
    rw [ih, Instruction.id_replaceUsesOfWith]

theorem candidateId_binary (BI : BinaryOperator) :
    candidateId (.binary BI)
      = if (catalog BI.opcode).isEmpty then none else some BI.id := by
  cases h : BI.opcode <;> simp [candidateId, h, catalog]

theorem candidateId_replaceUsesOfWith (J : Instruction) (old : Nat) (new : Value) :
    candidateId (J.replaceUsesOfWith old new) = candidateId J := by
  cases J <;> rfl

@[simp] theorem candidateId_rewire (X : List Rewiring) (J : Instruction) :
    candidateId (rewire X J) = candidateId J := by
  induction X generalizing J with
  | nil => rfl
  | cons rw X ih =>
    show candidateId (rewire X (J.replaceUsesOfWith rw.old rw.new)) = candidateId J
    rw [ih, candidateId_replaceUsesOfWith]

theorem filter_getD_block (Fpre Fpost : Function) (X Y : List Instruction)
    (p : Instruction → Bool) (h : X.filter p = Y.filter p) (i : Nat) :
    ((Fpre ++ X :: Fpost).getD i []).filter p = ((Fpre ++ Y :: Fpost).getD i []).filter p := by
  induction Fpre generalizing i with
  | nil =>
    cases i with
    | zero => simpa using h
    | succ i => simp
  | cons BB Fpre ih =>
    cases i with
    | zero => simp
    | succ i => simpa using ih i

theorem rewirings_snoc (st0 s s2 : State) (rw : Rewiring)
    (hlog : s.replaced = st0.replaced ++ rewirings st0 s)
    (h2 : s2.replaced = s.replaced ++ [rw]) :
    rewirings st0 s2 = rewirings st0 s ++ [rw] := by
  unfold rewirings at *
  rw [h2]
  generalize s.replaced.drop st0.replaced.length = D at hlog
  rw [hlog]
  simp

/-- The state on entry of a run, seen from the state the run is started in. -/
theorem Progress.of_entered (srand : Int → Nat → Nat) (seed : Int) (st : State)
    (ha : Allocated st) : Progress st (st.entered srand seed) where
  alloc := by
    unfold Allocated
    rw [entered_F, entered_nextId]
    exact ha
  mono := by rw [entered_nextId]
  log := by simp [rewirings, entered_replaced]
  len := by rw [entered_F]
  blocks := by
    intro i
    have hr : rewirings st (st.entered srand seed) = [] := by
      simp [rewirings, entered_replaced]
    rw [hr, entered_F]
    rw [List.filter_eq_self.2, List.map_congr_left (fun J _ => rewire_nil J)]
    · simp
    intro J hJ
    simpa using ha.fresh J (mem_getD_insts _ _ _ hJ)

theorem Progress.of_setInsertPoint {st0 s : State} (h : Progress st0 s) (p : Option Nat) :
    Progress st0 { s with insertPt := p } where
  alloc := h.alloc
  mono := h.mono
  log := h.log
  len := h.len
  blocks := h.blocks

/-- A rule application keeps the original instructions in their blocks and in
their order: it rewires them once more. -/
theorem Progress.of_apply {st0 s : State} (h : Progress st0 s) (ρ : Rule) (BI : BinaryOperator)
    (k : Nat) (Fpre Fpost : Function) (pre post : List Instruction)
    (hF : s.F = Fpre ++ (pre ++ .binary BI :: post) :: Fpost) :
    Progress st0 (ρ.apply BI (s.positioned BI.id k)) ∧
    rewirings st0 (ρ.apply BI (s.positioned BI.id k))
      = rewirings st0 s ++ [⟨BI.id, ρ.result BI (s.positioned BI.id k),
          Fpre ++ (pre ++ ρ.emits BI (s.positioned BI.id k) ++ .binary BI :: post) :: Fpost⟩] := by
  obtain ⟨h1, h2, h3, h4⟩ := Rule.apply_alloc ρ BI s k Fpre Fpost pre post h.alloc hF
  have hrw := rewirings_snoc st0 s _ _ h.log h2
  refine ⟨⟨h4, ?_, ?_, ?_, ?_⟩, hrw⟩
  · rw [h3]
    exact Nat.le_trans h.mono (Nat.le_add_right _ _)
  · rw [hrw, ← List.append_assoc, ← h.log, h2]
  · rw [h1, List.length_map, ← h.len, hF]
    simp
  · intro i
    rw [h1, getD_map_map, hrw, List.filter_map]
    have hp : ((fun J => decide (J.id < st0.nextId)) ∘
        Instruction.replaceUsesOfWith BI.id (ρ.result BI (s.positioned BI.id k)))
        = fun J => decide (J.id < st0.nextId) := by
      funext J
      simp
    rw [hp]
    have hes : (ρ.emits BI (s.positioned BI.id k)).filter
        (fun J => decide (J.id < st0.nextId)) = [] := by
      rw [List.filter_eq_nil_iff]
      intro e he
      have := (ρ.emits_Emits BI (s.positioned BI.id k)).id_mem he
      have hm := h.mono
      have hn : (s.positioned BI.id k).nextId = s.nextId := rfl
      simp only [decide_eq_true_eq]
      omega
    rw [filter_getD_block Fpre Fpost _ (pre ++ .binary BI :: post) _ (by
      simp only [List.filter_append, hes, List.append_nil]), ← hF, h.blocks i, List.map_map]
    apply List.map_congr_left
    intro J _
    simp [rewire_append]
theorem flatten_take_succ (F : Function) (m : Nat) :
    (F.take (m + 1)).flatten = (F.take m).flatten ++ F.getD m [] := by
  rw [List.take_succ, List.flatten_append, List.getD_eq_getElem?_getD]
  cases F[m]? <;> simp

/-- The invariant of a run after the first `m` blocks; the later blocks hold
no inserted instruction yet. -/
theorem Progress.of_runBlocks (srand : Int → Nat → Nat) (seed : Int) (st : State)
    (ha : Allocated st) (m : Nat) :
    Progress st (runBlocks m (st.entered srand seed)) ∧
    ∀ i, m ≤ i → ∀ J ∈ (runBlocks m (st.entered srand seed)).F.getD i [], J.id < st.nextId := by
  have he := Progress.of_entered srand seed st ha
  obtain ⟨_, _, h3, h4⟩ := runBlocks_invariant (Progress st) st.nextId
    (fun s p h => h.of_setInsertPoint p)
    (fun s BI ρ k Fpre Fpost pre post _ _ h hF _ _ =>
      (h.of_apply ρ BI k Fpre Fpost pre post hF).1)
    (st.entered srand seed) he.alloc he.mono he
    (fun i J hJ => by
      rw [entered_F] at hJ
      exact ha.fresh J (mem_getD_insts _ _ _ hJ)) m
  exact ⟨h3, h4⟩

/-- The snapshot taken of a block holds the instructions the block had in the
original function. -/
theorem snapshot_eq (srand : Int → Nat → Nat) (seed : Int) (st : State)
    (ha : Allocated st) (m : Nat) :
    ((runBlocks m (st.entered srand seed)).F.getD m []).map Instruction.id
      = (st.F.getD m []).map Instruction.id := by
  obtain ⟨hP, hlt⟩ := Progress.of_runBlocks srand seed st ha m
  have hb := hP.blocks m
  rw [List.filter_eq_self.2 (fun J hJ => by simpa using hlt m (Nat.le_refl _) J hJ)] at hb
  rw [hb, List.map_map]
  apply List.map_congr_left
  intro J _
  simp

theorem runBlocks_eq_foldl (srand : Int → Nat → Nat) (seed : Int) (st : State)
    (ha : Allocated st) (m : Nat) :
    runBlocks m (st.entered srand seed)
      = (((st.F.take m).flatten).map Instruction.id).foldl (fun s I => visit I s)
          (st.entered srand seed) := by
  induction m with
  | zero => rfl
  | succ m ih =>
    rw [runBlocks_succ, flatten_take_succ, List.map_append, List.foldl_append, ← ih]
    unfold visitBlock
    simp only
    rw [snapshot_eq srand seed st ha m]

/-- On a function with unique identities, a run visits the instructions of
the original function, each once, in layout order. -/
theorem run_eq_foldl (srand : Int → Nat → Nat) (seed : Int) (st : State)
    (ha : Allocated st) :
    run srand seed st
      = (st.F.insts.map Instruction.id).foldl (fun s I => visit I s)
          (st.entered srand seed) := by
  rw [run_eq, runBlocks_eq_foldl srand seed st ha, entered_F, List.take_length]
  rfl

theorem Progress.of_run (srand : Int → Nat → Nat) (seed : Int) (st : State)
    (ha : Allocated st) : Progress st (run srand seed st) := by
  rw [run_eq]
  exact (Progress.of_runBlocks srand seed st ha _).1

theorem findInst_of_mem (F : Function) (J : Instruction)
    (hnd : (F.insts.map Instruction.id).Nodup) (hJ : J ∈ F.insts) :
    findInst F J.id = some J := by
  unfold findInst
  cases hf : F.insts.find? (fun K => K.id == J.id) with
  | none =>
    rw [List.find?_eq_none] at hf
    exact absurd (hf J hJ) (by simp)
  | some K =>
    have hK := List.mem_of_find?_eq_some hf
    have hid : K.id = J.id := by simpa using List.find?_some hf
    rw [List.inj_on_of_nodup_map hnd hK hJ hid]

/-- An original instruction is found in the function in the course of a run:
it is the original rewired through the log. -/
theorem Progress.findInst_original {st0 s : State} (h : Progress st0 s) (J0 : Instruction)
    (hJ0 : J0 ∈ st0.F.insts) :
    findInst s.F J0.id = some (rewire (rewirings st0 s) J0) := by
  have hmem : rewire (rewirings st0 s) J0 ∈ s.F.insts := by
    unfold Function.insts at hJ0
    obtain ⟨BB, hBB, hJBB⟩ := List.mem_flatten.1 hJ0
    obtain ⟨i, hi, rfl⟩ := List.getElem_of_mem hBB
    have hg : st0.F.getD i [] = st0.F[i] := by
      rw [List.getD_eq_getElem?_getD, List.getElem?_eq_getElem hi]
      rfl
    have : rewire (rewirings st0 s) J0
        ∈ (s.F.getD i []).filter (fun J => decide (J.id < st0.nextId)) := by
      rw [h.blocks i, hg]
      exact List.mem_map_of_mem _ hJBB
    exact mem_getD_insts _ i _ (List.mem_of_mem_filter this)
  have := findInst_of_mem s.F _ h.alloc.nodup hmem
  rwa [rewire_id] at this
theorem rewire_binary (X : List Rewiring) (BI : BinaryOperator) :
    ∃ BI2 : BinaryOperator, rewire X (.binary BI) = .binary BI2 ∧ BI2.id = BI.id ∧
      BI2.opcode = BI.opcode ∧ BI2.ty = BI.ty := by
  induction X generalizing BI with
  | nil => exact ⟨BI, rfl, rfl, rfl, rfl⟩
  | cons rw X ih =>
    obtain ⟨BI2, h, h1, h2, h3⟩ := ih ⟨BI.id, BI.opcode, BI.ty,
      BI.op0.replaceUsesOfWith rw.old rw.new, BI.op1.replaceUsesOfWith rw.old rw.new⟩
    exact ⟨BI2, h, h1, h2, h3⟩

theorem rewire_unary (X : List Rewiring) (id : Nat) (opc : UnaryOps) (ty : Nat) (op : Value) :
    ∃ op2, rewire X (.unary id opc ty op) = .unary id opc ty op2 := by
  induction X generalizing op with
  | nil => exact ⟨op, rfl⟩
  | cons rw X ih => exact ih (op.replaceUsesOfWith rw.old rw.new)

theorem rewire_other (X : List Rewiring) (id : Nat) (ops : List Value) :
    ∃ ops2, rewire X (.other id ops) = .other id ops2 ∧ ops2.length = ops.length := by
  induction X generalizing ops with
  | nil => exact ⟨ops, rfl, rfl⟩
  | cons rw X ih =>
    obtain ⟨ops2, h, hl⟩ := ih (ops.map (fun v => v.replaceUsesOfWith rw.old rw.new))
    exact ⟨ops2, h, by simpa using hl⟩

/-- The visit of an original instruction in the course of a run: nothing but
the insert point changes when it is no candidate; the rule its dispatcher
selects is applied to it, where it stands, when it is one. -/
theorem Progress.visit_original {st0 s : State} (h : Progress st0 s) (J0 : Instruction)
    (hJ0 : J0 ∈ st0.F.insts) :
    (candidateId J0 = none ∧ ruleAt s J0.id = none ∧
      ∃ p, visit J0.id s = { s with insertPt := p }) ∨
    ∃ (BI : BinaryOperator) (ρ : Rule) (Fpre Fpost : Function) (pre post : List Instruction),
      candidateId J0 = some J0.id ∧ rewire (rewirings st0 s) J0 = .binary BI ∧
      BI.id = J0.id ∧ ruleAt s J0.id = some ρ ∧ dispatch BI.opcode s = some ρ ∧
      s.F = Fpre ++ (pre ++ .binary BI :: post) :: Fpost ∧
      visit J0.id s = ρ.apply BI (s.positioned BI.id (selectDraws BI.opcode)) := by
  have hfind := h.findInst_original J0 hJ0
  have hv := visit_eq J0.id s
  cases J0 with
  | unary i opc ty op =>
    obtain ⟨op2, h2⟩ := rewire_unary (rewirings st0 s) i opc ty op
    rw [h2] at hfind
    rw [hfind] at hv
    exact Or.inl ⟨rfl, by simp [ruleAt, hfind], s.insertPt, hv⟩
  | other i ops =>
    obtain ⟨ops2, h2, _⟩ := rewire_other (rewirings st0 s) i ops
    rw [h2] at hfind
    rw [hfind] at hv
    exact Or.inl ⟨rfl, by simp [ruleAt, hfind], s.insertPt, hv⟩
  | binary BI0 =>
    obtain ⟨BI, h2, hid, hop, _⟩ := rewire_binary (rewirings st0 s) BI0
    rw [h2] at hfind
    rw [hfind] at hv
    have hr : ruleAt s (Instruction.binary BI0).id = dispatch BI.opcode s := by
      simp [ruleAt, hfind]
    by_cases hc : (catalog BI0.opcode).isEmpty = true
    · have hd := dispatch_eq_none BI.opcode s (by rw [hop]; exact hc)
      simp only [hd] at hv
      exact Or.inl ⟨by rw [candidateId_binary, if_pos hc], by rw [hr, hd], some BI.id, hv⟩
    · obtain ⟨ρ, hd⟩ := dispatch_isSome BI.opcode s (by rw [hop]; simpa using hc)
      simp only [hd] at hv
      obtain ⟨_, Fpre, pre, post, Fpost, hF, _, _⟩ := findInst_eq_some _ _ _ hfind
      exact Or.inr ⟨BI, ρ, Fpre, Fpost, pre, post, by rw [candidateId_binary, if_neg hc]; rfl,
        h2, hid,
        by rw [hr, hd], hd, hF, hv⟩

/-- The visits of original instructions rewire each candidate among them once,
in the order of the visits. -/
theorem Progress.visits_original {st0 : State} (L : List Instruction)
    (hL : ∀ J0 ∈ L, J0 ∈ st0.F.insts) (s : State) (h : Progress st0 s) :
    Progress st0 ((L.map Instruction.id).foldl (fun s I => visit I s) s) ∧
    (rewirings st0 ((L.map Instruction.id).foldl (fun s I => visit I s) s)).map Rewiring.old
      = (rewirings st0 s).map Rewiring.old ++ L.filterMap candidateId := by
  induction L generalizing s with
  | nil => exact ⟨h, by simp⟩
  | cons J0 L ih =>
    have hJ0 := hL J0 (List.mem_cons_self _ _)
    have hL2 : ∀ J ∈ L, J ∈ st0.F.insts := fun J hJ => hL J (List.mem_cons_of_mem _ hJ)
    rw [List.map_cons, List.foldl_cons]
    rcases h.visit_original J0 hJ0 with ⟨hc, _, p, hv⟩ |
      ⟨BI, ρ, Fpre, Fpost, pre, post, hc, _, hid, _, _, hF, hv⟩
    · rw [hv]
      obtain ⟨g1, g2⟩ := ih hL2 _ (h.of_setInsertPoint p)
      refine ⟨g1, ?_⟩
      rw [g2, List.filterMap_cons, hc]
      rfl
    · rw [hv]
      obtain ⟨hP, hrw⟩ := h.of_apply ρ BI (selectDraws BI.opcode) Fpre Fpost pre post hF
      obtain ⟨g1, g2⟩ := ih hL2 _ hP
      refine ⟨g1, ?_⟩
      rw [g2, hrw, List.filterMap_cons, hc]
      simp [hid]

/-! ## Lemmas: the books of the pass -/

theorem Rule.emits_length (ρ : Rule) (BI : BinaryOperator) (st : State) :
    (ρ.emits BI st).length = ρ.size := by
  cases ρ <;> rfl

theorem Ledger.start (s : State) : Ledger s s [] where
  created := by simp [emitted]
  replaced := by simp [rewirings]
  subs := by simp [rewirings]
  inserted := by simp [emitted]
  nextId := by simp [emitted]
  ids := by simp [emitted]
  rand := rfl
  randPos := by simp
  olds := by simp [rewirings]
  sizes := by simp [emitted]

theorem Ledger.point (s : State) (p : Option Nat) :
    Ledger s { s with insertPt := p } [] :=
  have h := Ledger.start s
  ⟨h.created, h.replaced, h.subs, h.inserted, h.nextId, h.ids, h.rand, h.randPos, h.olds,
    h.sizes⟩

theorem emitted_trans (s s1 s2 : State) (h1 : s1.created = s.created ++ emitted s s1)
    (h2 : s2.created = s1.created ++ emitted s1 s2) :
    emitted s s2 = emitted s s1 ++ emitted s1 s2 := by
  unfold emitted at *
  generalize s1.created.drop s.created.length = A at h1
  generalize s2.created.drop s1.created.length = B at h2
  rw [h2, h1]
  simp

theorem rewirings_trans (s s1 s2 : State) (h1 : s1.replaced = s.replaced ++ rewirings s s1)
    (h2 : s2.replaced = s1.replaced ++ rewirings s1 s2) :
    rewirings s s2 = rewirings s s1 ++ rewirings s1 s2 := by
  unfold rewirings at *
  generalize s1.replaced.drop s.replaced.length = A at h1
  generalize s2.replaced.drop s1.replaced.length = B at h2
  rw [h2, h1]
  simp

theorem Ledger.append {s s1 s2 : State} {T1 T2 : List (Nat × Rule)} (h1 : Ledger s s1 T1)
    (h2 : Ledger s1 s2 T2) : Ledger s s2 (T1 ++ T2) := by
  have he := emitted_trans s s1 s2 h1.created h2.created
  have hr := rewirings_trans s s1 s2 h1.replaced h2.replaced
  refine ⟨?_, ?_, ?_, ?_, ?_, ?_, ?_, ?_, ?_, ?_⟩
  · rw [he, ← List.append_assoc, ← h1.created, ← h2.created]
  · rw [hr, ← List.append_assoc, ← h1.replaced, ← h2.replaced]
  · rw [hr, h2.subs, h1.subs, List.length_append, Nat.add_assoc]
  · rw [he, h2.inserted, h1.inserted, List.length_append, Nat.add_assoc]
  · rw [he, h2.nextId, h1.nextId, List.length_append, Nat.add_assoc]
  · rw [he, List.map_append, h1.ids, h2.ids, h1.nextId, List.length_append,
      List.range'_append_1, Nat.add_comm (emitted s1 s2).length]
  · rw [h2.rand, h1.rand]
  · rw [h2.randPos, h1.randPos, List.map_append, List.sum_append, Nat.add_assoc]
  · rw [hr, List.map_append, h1.olds, h2.olds, List.map_append]
  · rw [he, List.length_append, h1.sizes, h2.sizes, List.map_append, List.sum_append]

/-- The books of one rule application. -/
theorem Ledger.apply_rule (s : State) (ρ : Rule) (BI : BinaryOperator) :
    Ledger s (ρ.apply BI (s.positioned BI.id (selectDraws ρ.opcode))) [(BI.id, ρ)] := by
  rw [Rule.apply_eq_result]
  have he : emitted s ((s.positioned BI.id (selectDraws ρ.opcode)).applied BI
      (ρ.emits BI (s.positioned BI.id (selectDraws ρ.opcode)))
      (ρ.result BI (s.positioned BI.id (selectDraws ρ.opcode))) ρ.draws)
      = ρ.emits BI (s.positioned BI.id (selectDraws ρ.opcode)) :=
    emitted_applied BI _ _ _ (s.positioned BI.id (selectDraws ρ.opcode))
  have hr : rewirings s ((s.positioned BI.id (selectDraws ρ.opcode)).applied BI
      (ρ.emits BI (s.positioned BI.id (selectDraws ρ.opcode)))
      (ρ.result BI (s.positioned BI.id (selectDraws ρ.opcode))) ρ.draws)
      = [⟨BI.id, ρ.result BI (s.positioned BI.id (selectDraws ρ.opcode)), _⟩] :=
    rewirings_applied BI _ _ _ (s.positioned BI.id (selectDraws ρ.opcode))
  refine ⟨?_, ?_, ?_, ?_, ?_, ?_, ?_, ?_, ?_, ?_⟩
  · rw [he]
    rfl
  · rw [hr]
    rfl
  · rw [hr]
    rfl
  · rw [he]
    rfl
  · rw [he]
    rfl
  · rw [he]
    exact (ρ.emits_Emits BI (s.positioned BI.id (selectDraws ρ.opcode))).ids
  · rfl
  · simp [State.applied, State.positioned, Rule.drawsTaken, Nat.add_assoc]
  · rw [hr]
    rfl
  · rw [he, Rule.emits_length]
    simp

/-- The books of one visit. -/
theorem Ledger.visit_one (id : Nat) (s : State) :
    Ledger s (visit id s) (match ruleAt s id with
      | some ρ => [(id, ρ)]
      | none => []) := by
  rw [visit_eq]
  unfold ruleAt
  cases hf : findInst s.F id with
  | none => exact Ledger.start s
  | some J =>
    cases J with
    | unary i opc ty op => exact Ledger.start s
    | other i ops => exact Ledger.start s
    | binary BI =>
      simp only
      cases hd : dispatch BI.opcode s with
      | none => exact Ledger.point s _
      | some ρ =>
        simp only
        have hid := (findInst_eq_some _ _ _ hf).1
        have hop := dispatch_opcode _ _ _ hd
        have := Ledger.apply_rule s ρ BI
        rw [hop] at this
        rw [← hid]
        exact this

/-- The books of a sequence of visits. -/
theorem Ledger.visit_all (ids : List Nat) (s : State) :
    Ledger s (ids.foldl (fun s I => visit I s) s) (rulesApplied ids s) := by
  induction ids generalizing s with
  | nil => exact Ledger.start s
  | cons id ids ih =>
    rw [List.foldl_cons, rulesApplied]
    exact (Ledger.visit_one id s).append (ih (visit id s))

theorem Ledger.blocks (m : Nat) (s : State) : ∃ T, Ledger s (runBlocks m s) T := by
  induction m with
  | zero => exact ⟨[], Ledger.start s⟩
  | succ m ih =>
    obtain ⟨T, hT⟩ := ih
    rw [runBlocks_succ]
    exact ⟨_, hT.append (Ledger.visit_all _ (runBlocks m s))⟩

/-- The counters after a run, for every function: each went up by the length
of its log and by the one increment on entry. -/
theorem run_counters (srand : Int → Nat → Nat) (seed : Int) (st : State) :
    (run srand seed st).NumSubstitutions
      = st.NumSubstitutions + (rewirings st (run srand seed st)).length + 1 ∧
    (run srand seed st).NumInstructionsInserted
      = st.NumInstructionsInserted + (emitted st (run srand seed st)).length + 1 := by
  obtain ⟨T, hT⟩ := Ledger.blocks (st.entered srand seed).F.length (st.entered srand seed)
  rw [← run_eq] at hT
  have h1 : rewirings st (run srand seed st)
      = rewirings (st.entered srand seed) (run srand seed st) := by
    simp [rewirings, entered_replaced]
  have h2 : emitted st (run srand seed st)
      = emitted (st.entered srand seed) (run srand seed st) := by
    simp [emitted, entered_created]
  have h3 : (st.entered srand seed).NumSubstitutions = st.NumSubstitutions + 1 := by
    unfold State.entered incNumInstructionsInserted incNumSubstitutions
    split <;> rfl
  have h4 : (st.entered srand seed).NumInstructionsInserted
      = st.NumInstructionsInserted + 1 := by
    unfold State.entered incNumInstructionsInserted incNumSubstitutions
    split <;> rfl
  rw [h1, h2, hT.subs, hT.inserted, h3, h4]
  omega

theorem candidates_sublist (L : List Instruction) :
    (L.filterMap candidateId).Sublist (L.map Instruction.id) := by
  induction L with
  | nil => exact List.Sublist.slnil
  | cons J L ih =>
    cases hc : candidateId J with
    | none =>
      rw [List.filterMap_cons_none hc, List.map_cons]
      exact ih.cons _
    | some id =>
      have hid : id = J.id := by
        cases J with
        | binary BI =>
          rw [candidateId_binary] at hc
          split at hc
          · exact absurd hc (by simp)
          · exact (Option.some.inj hc).symm
        | unary i opc ty op => exact absurd hc (by simp [candidateId])
        | other i ops => exact absurd hc (by simp [candidateId])
      rw [List.filterMap_cons_some hc, List.map_cons, hid]
      exact ih.cons₂ _

/-- The operations a run rewires are the candidates of the original function,
in layout order. -/
theorem run_rewires_candidates (srand : Int → Nat → Nat) (seed : Int) (st : State)
    (ha : Allocated st) :
    (rewirings st (run srand seed st)).map Rewiring.old = candidates st.F := by
  rw [run_eq_foldl srand seed st ha]
  have h := (Progress.visits_original st.F.insts (fun _ h => h) _
    (Progress.of_entered srand seed st ha)).2
  rw [h]
  simp [rewirings, entered_replaced, candidates]

theorem rewirings_entered (srand : Int → Nat → Nat) (seed : Int) (st s : State) :
    rewirings (st.entered srand seed) s = rewirings st s := by
  simp [rewirings, entered_replaced]

theorem emitted_entered (srand : Int → Nat → Nat) (seed : Int) (st s : State) :
    emitted (st.entered srand seed) s = emitted st s := by
  simp [emitted, entered_created]

/-- The books of a run on a function with unique identities. -/
theorem Ledger.whole_run (srand : Int → Nat → Nat) (seed : Int) (st : State)
    (ha : Allocated st) :
    Ledger (st.entered srand seed) (run srand seed st) (runRules srand seed st) := by
  rw [run_eq_foldl srand seed st ha]
  exact Ledger.visit_all _ _

/-! ## Lemmas: what the pass reads -/

theorem SameCore.step_visit (id : Nat) (s1 s2 : State) (h : SameCore s1 s2) :
    SameCore (visit id s1) (visit id s2) ∧
    emitted s1 (visit id s1) = emitted s2 (visit id s2) ∧
    rewirings s1 (visit id s1) = rewirings s2 (visit id s2) ∧
    ruleAt s1 id = ruleAt s2 id := by
  rcases s1 with ⟨F, pt, n, rand, rp, ns1, ni1, c1, r1⟩
  rcases s2 with ⟨F2, pt2, n2, rand2, rp2, ns2, ni2, c2, r2⟩
  obtain ⟨hF, hp, hn, hr, hrp⟩ := h
  simp only at hF hp hn hr hrp
  subst hF hp hn hr hrp
  rw [visit_eq, visit_eq]
  simp only [ruleAt]
  cases hf : findInst F id with
  | none => exact ⟨⟨rfl, rfl, rfl, rfl, rfl⟩, by simp [emitted], by simp [rewirings], rfl⟩
  | some J =>
    cases J with
    | unary i opc ty op =>
      exact ⟨⟨rfl, rfl, rfl, rfl, rfl⟩, by simp [emitted], by simp [rewirings], rfl⟩
    | other i ops =>
      exact ⟨⟨rfl, rfl, rfl, rfl, rfl⟩, by simp [emitted], by simp [rewirings], rfl⟩
    | binary BI =>
      simp only
      have hd : dispatch BI.opcode ⟨F, pt, n, rand, rp, ns1, ni1, c1, r1⟩
          = dispatch BI.opcode ⟨F, pt, n, rand, rp, ns2, ni2, c2, r2⟩ := rfl
      rw [hd]
      cases dispatch BI.opcode ⟨F, pt, n, rand, rp, ns2, ni2, c2, r2⟩ with
      | none =>
        exact ⟨⟨rfl, rfl, rfl, rfl, rfl⟩, by simp [emitted, SetInsertPoint],
          by simp [rewirings, SetInsertPoint], rfl⟩
      | some ρ =>
        simp only [Rule.apply_eq_result]
        exact ⟨⟨rfl, rfl, rfl, rfl, rfl⟩,
          by simp [emitted, State.applied, State.positioned, Rule.emits],
          by simp [rewirings, State.applied, State.positioned, Rule.emits, Rule.result],
          trivial⟩

theorem SameCore.step_visits (ids : List Nat) (s1 s2 : State) (h : SameCore s1 s2) :
    SameCore (ids.foldl (fun s I => visit I s) s1) (ids.foldl (fun s I => visit I s) s2) ∧
    emitted s1 (ids.foldl (fun s I => visit I s) s1)
      = emitted s2 (ids.foldl (fun s I => visit I s) s2) ∧
    rewirings s1 (ids.foldl (fun s I => visit I s) s1)
      = rewirings s2 (ids.foldl (fun s I => visit I s) s2) ∧
    rulesApplied ids s1 = rulesApplied ids s2 := by
  induction ids generalizing s1 s2 with
  | nil => exact ⟨h, by simp [emitted], by simp [rewirings], rfl⟩
  | cons id ids ih =>
    obtain ⟨g1, g2, g3, g4⟩ := SameCore.step_visit id s1 s2 h
    obtain ⟨k1, k2, k3, k4⟩ := ih (visit id s1) (visit id s2) g1
    simp only [List.foldl_cons, rulesApplied]
    refine ⟨k1, ?_, ?_, ?_⟩
    · rw [emitted_trans s1 (visit id s1) _ (Ledger.visit_one id s1).created
          (Ledger.visit_all ids (visit id s1)).created,
        emitted_trans s2 (visit id s2) _ (Ledger.visit_one id s2).created
          (Ledger.visit_all ids (visit id s2)).created, g2, k2]
    · rw [rewirings_trans s1 (visit id s1) _ (Ledger.visit_one id s1).replaced
          (Ledger.visit_all ids (visit id s1)).replaced,
        rewirings_trans s2 (visit id s2) _ (Ledger.visit_one id s2).replaced
          (Ledger.visit_all ids (visit id s2)).replaced, g3, k3]
    · rw [g4, k4]

theorem SameCore.step_blocks (m : Nat) (s1 s2 : State) (h : SameCore s1 s2) :
    SameCore (runBlocks m s1) (runBlocks m s2) ∧
    emitted s1 (runBlocks m s1) = emitted s2 (runBlocks m s2) ∧
    rewirings s1 (runBlocks m s1) = rewirings s2 (runBlocks m s2) := by
  induction m with
  | zero => exact ⟨h, by simp [emitted, runBlocks], by simp [rewirings, runBlocks]⟩
  | succ m ih =>
    obtain ⟨g1, g2, g3⟩ := ih
    rw [runBlocks_succ, runBlocks_succ]
    unfold visitBlock
    simp only
    rw [g1.1]
    obtain ⟨k1, k2, k3, _⟩ := SameCore.step_visits
      (((runBlocks m s2).F.getD m []).map Instruction.id) _ _ g1
    obtain ⟨T1, hT1⟩ := Ledger.blocks m s1
    obtain ⟨T2, hT2⟩ := Ledger.blocks m s2
    refine ⟨k1, ?_, ?_⟩
    · rw [emitted_trans s1 (runBlocks m s1) _ hT1.created
          (Ledger.visit_all _ (runBlocks m s1)).created,
        emitted_trans s2 (runBlocks m s2) _ hT2.created
          (Ledger.visit_all _ (runBlocks m s2)).created, g2, k2]
    · rw [rewirings_trans s1 (runBlocks m s1) _ hT1.replaced
          (Ledger.visit_all _ (runBlocks m s1)).replaced,
        rewirings_trans s2 (runBlocks m s2) _ hT2.replaced
          (Ledger.visit_all _ (runBlocks m s2)).replaced, g3, k3]

theorem SameCore.on_entry (srand : Int → Nat → Nat) (seed : Int) (st1 st2 : State)
    (hF : st1.F = st2.F) (hn : st1.nextId = st2.nextId)
    (hs : seed ≠ 0 ∨ (st1.rand = st2.rand ∧ st1.randPos = st2.randPos)) :
    SameCore (st1.entered srand seed) (st2.entered srand seed) := by
  unfold State.entered incNumInstructionsInserted incNumSubstitutions
  by_cases h0 : seed ≠ 0
  · simp only [if_pos h0]
    exact ⟨hF, rfl, hn, rfl, rfl⟩
  · rcases hs with hs | ⟨h1, h2⟩
    · exact absurd hs h0
    · simp only [if_neg h0]
      exact ⟨hF, rfl, hn, h1, h2⟩

/-- An original instruction is in the function in the course of a run, rewired
through the log. -/
theorem Progress.mem_original {st0 s : State} (h : Progress st0 s) (J0 : Instruction)
    (hJ0 : J0 ∈ st0.F.insts) : rewire (rewirings st0 s) J0 ∈ s.F.insts := by
  have := findInst_eq_some _ _ _ (h.findInst_original J0 hJ0)
  obtain ⟨_, Fpre, pre, post, Fpost, hF, _, _⟩ := this
  rw [hF, insts_located]
  simp

/-- The candidates of a function are candidates again after a run. -/
theorem candidates_kept (srand : Int → Nat → Nat) (seed : Int) (st : State) (ha : Allocated st) :
    ∀ id ∈ candidates st.F, id ∈ candidates (run srand seed st).F := by
  intro id hid
  obtain ⟨J0, hJ0, hc⟩ := List.mem_filterMap.1 hid
  have hP := Progress.of_run srand seed st ha
  exact List.mem_filterMap.2 ⟨_, hP.mem_original J0 hJ0, by rw [candidateId_rewire, hc]⟩

/-! ## Lemmas: the structure of the function -/

theorem rewire_binary_eq (X : List Rewiring) (BI : BinaryOperator) :
    rewire X (.binary BI)
      = .binary ⟨BI.id, BI.opcode, BI.ty, redirect X BI.op0, redirect X BI.op1⟩ := by
  induction X generalizing BI with
  | nil => rfl
  | cons rw X ih =>
    exact ih ⟨BI.id, BI.opcode, BI.ty, BI.op0.replaceUsesOfWith rw.old rw.new,
      BI.op1.replaceUsesOfWith rw.old rw.new⟩

theorem rewire_unary_eq (X : List Rewiring) (id : Nat) (opc : UnaryOps) (ty : Nat) (op : Value) :
    rewire X (.unary id opc ty op) = .unary id opc ty (redirect X op) := by
  induction X generalizing op with
  | nil => rfl
  | cons rw X ih => exact ih (op.replaceUsesOfWith rw.old rw.new)

theorem rewire_other_eq (X : List Rewiring) (id : Nat) (ops : List Value) :
    rewire X (.other id ops) = .other id (ops.map (redirect X)) := by
  induction X generalizing ops with
  | nil =>
    show Instruction.other id ops = .other id (ops.map (fun v => v))
    simp
  | cons rw X ih =>
    have := ih (ops.map (fun v => v.replaceUsesOfWith rw.old rw.new))
    rw [List.map_map] at this
    exact this

theorem redirect_of_not_old (X : List Rewiring) (v : Value)
    (h : ∀ rw ∈ X, v ≠ .instruction rw.old) : redirect X v = v := by
  induction X with
  | nil => rfl
  | cons rw X ih =>
    have h1 : v.replaceUsesOfWith rw.old rw.new = v := by
      have := h rw (List.mem_cons_self _ _)
      cases v with
      | instruction id =>
        have hne : id ≠ rw.old := fun e => this (by rw [e])
        simp [Value.replaceUsesOfWith, hne]
      | argument n => rfl
      | constant c => rfl
    show redirect X (v.replaceUsesOfWith rw.old rw.new) = v
    rw [h1]
    exact ih (fun rw2 h2 => h rw2 (List.mem_cons_of_mem _ h2))

theorem getD_block (Fpre Fpost : Function) (X Y : List Instruction) (i : Nat) :
    ((Fpre ++ X :: Fpost).getD i [] = X ∧ (Fpre ++ Y :: Fpost).getD i [] = Y) ∨
    (Fpre ++ X :: Fpost).getD i [] = (Fpre ++ Y :: Fpost).getD i [] := by
  induction Fpre generalizing i with
  | nil =>
    cases i with
    | zero => exact Or.inl ⟨rfl, rfl⟩
    | succ i => exact Or.inr rfl
  | cons BB Fpre ih =>
    cases i with
    | zero => exact Or.inr rfl
    | succ i => simpa using ih i

theorem Placed.map_ids {n0 : Nat} {olds : List Nat} {BB : List Instruction}
    (h : Placed n0 olds BB) (f : Instruction → Instruction) (hf : ∀ J, (f J).id = J.id) :
    Placed n0 olds (BB.map f) := by
  refine ⟨?_, ?_⟩
  · rw [List.chain'_map]
    simpa [hf] using h.1
  · intro J hJ
    rw [List.getLast?_map] at hJ
    cases hl : BB.getLast? with
    | none => simp [hl] at hJ
    | some K =>
      simp only [hl, Option.map_some', Option.some.injEq] at hJ
      rw [← hJ, hf]
      exact h.2 K hl

theorem Placed.mono {n0 : Nat} {olds olds2 : List Nat} {BB : List Instruction}
    (h : Placed n0 olds BB) (hsub : ∀ id ∈ olds, id ∈ olds2) : Placed n0 olds2 BB :=
  ⟨h.1.imp (fun _ _ hab ha => (hab ha).imp id (hsub _)), h.2⟩

/-- Inserting fresh instructions immediately before an operation that is then
rewritten keeps the placement. -/
theorem Placed.insert {n0 : Nat} {olds : List Nat} {pre post es : List Instruction}
    {J : Instruction} (h : Placed n0 olds (pre ++ J :: post)) (hes : ∀ e ∈ es, n0 ≤ e.id) :
    Placed n0 (olds ++ [J.id]) (pre ++ es ++ J :: post) := by
  obtain ⟨hc, hl⟩ := h
  rw [List.chain'_append] at hc
  obtain ⟨hpre, hpost, _⟩ := hc
  have hmono : ∀ a b : Instruction, (n0 ≤ a.id → n0 ≤ b.id ∨ b.id ∈ olds) →
      (n0 ≤ a.id → n0 ≤ b.id ∨ b.id ∈ olds ++ [J.id]) :=
    fun a b hab ha => (hab ha).imp id (fun hm => List.mem_append_left _ hm)
  refine ⟨?_, ?_⟩
  · rw [List.append_assoc, List.chain'_append]
    refine ⟨hpre.imp hmono, ?_, ?_⟩
    · rw [List.chain'_append]
      refine ⟨?_, hpost.imp hmono, ?_⟩
      · apply List.Pairwise.chain'
        apply List.pairwise_of_forall_mem_list
        intro a _ b hb _
        exact Or.inl (hes b hb)
      · intro x _ y hy _
        simp only [List.head?_cons, Option.mem_def, Option.some.injEq] at hy
        subst hy
        exact Or.inr (by simp)
    · intro x _ y hy _
      cases es with
      | nil =>
        simp only [List.nil_append, List.head?_cons, Option.mem_def, Option.some.injEq] at hy
        subst hy
        exact Or.inr (by simp)
      | cons e es =>
        simp only [List.cons_append, List.head?_cons, Option.mem_def, Option.some.injEq] at hy
        subst hy
        exact Or.inl (hes _ (List.mem_cons_self _ _))
  · intro K hK
    apply hl K
    rw [List.append_assoc] at hK
    simpa [List.getLast?_append] using hK

/-- The invariant of a run together with the placement of the inserted
instructions. -/
theorem run_placed (srand : Int → Nat → Nat) (seed : Int) (st : State) (ha : Allocated st) :
    ∀ i, Placed st.nextId ((rewirings st (run srand seed st)).map Rewiring.old)
      ((run srand seed st).F.getD i []) := by
  obtain ⟨_, _, _, h⟩ := run_invariant
    (fun s => Progress st s ∧
      ∀ i, Placed st.nextId ((rewirings st s).map Rewiring.old) (s.F.getD i []))
    srand seed st ha
    (fun s p h => ⟨h.1.of_setInsertPoint p, h.2⟩)
    (by
      intro s BI ρ k Fpre Fpost pre post has hn ⟨hP, hpl⟩ hF hBI hop
      obtain ⟨hP2, hrw⟩ := hP.of_apply ρ BI k Fpre Fpost pre post hF
      obtain ⟨hF2, _, _, _⟩ := Rule.apply_alloc ρ BI s k Fpre Fpost pre post has hF
      refine ⟨hP2, ?_⟩
      intro i
      rw [hF2, getD_map_map, hrw, List.map_append]
      apply Placed.map_ids _ _ (fun J => Instruction.id_replaceUsesOfWith J _ _)
      have hi := hpl i
      rw [hF] at hi
      rcases getD_block Fpre Fpost (pre ++ ρ.emits BI (s.positioned BI.id k) ++ .binary BI :: post)
        (pre ++ .binary BI :: post) i with ⟨h1, h2⟩ | h1
      · rw [h1]
        rw [h2] at hi
        apply hi.insert
        intro e he
        exact Nat.le_trans hn ((ρ.emits_Emits BI (s.positioned BI.id k)).id_mem he).1
      · rw [h1]
        exact hi.mono (fun id hid => List.mem_append_left _ hid))
    ⟨Progress.of_entered srand seed st ha, by
      intro i
      rw [entered_F]
      refine ⟨?_, ?_⟩
      · apply List.Pairwise.chain'
        apply List.pairwise_of_forall_mem_list
        intro a ha2 b _ hge
        exact absurd (ha.fresh a (mem_getD_insts _ _ _ ha2)) (Nat.not_lt.2 hge)
      · intro J hJ
        exact ha.fresh J (mem_getD_insts _ _ _ (List.mem_of_getLast?_eq_some hJ))⟩
  exact h
theorem insts_map (F : Function) (f : Instruction → Instruction) :
    Function.insts (F.map (List.map f)) = F.insts.map f := by
  simp [Function.insts, List.map_flatten]

/-- The original instructions of the function in the course of a run, read in
layout order. -/
theorem Progress.insts_filter {st0 s : State} (h : Progress st0 s) :
    s.F.insts.filter (fun J => decide (J.id < st0.nextId))
      = st0.F.insts.map (rewire (rewirings st0 s)) := by
  have hmap : s.F.map (List.filter (fun J => decide (J.id < st0.nextId)))
      = st0.F.map (List.map (rewire (rewirings st0 s))) := by
    apply List.ext_getElem?
    intro i
    have hb := h.blocks i
    rw [List.getD_eq_getElem?_getD, List.getD_eq_getElem?_getD] at hb
    rw [List.getElem?_map, List.getElem?_map]
    by_cases hi : i < s.F.length
    · have hi0 : i < st0.F.length := h.len ▸ hi
      rw [List.getElem?_eq_getElem hi] at hb ⊢
      rw [List.getElem?_eq_getElem hi0] at hb ⊢
      simpa using hb
    · have hi0 : ¬ i < st0.F.length := h.len ▸ hi
      rw [List.getElem?_eq_none (Nat.le_of_not_lt hi),
        List.getElem?_eq_none (Nat.le_of_not_lt hi0)]
      rfl
  unfold Function.insts
  rw [List.filter_flatten, hmap, List.map_flatten]

/-- On a function that defines every value before its uses in layout order,
the visits of the remaining original instructions leave every rewritten
operation in the function as it stood when it was rewritten. -/
theorem stable_visits (st0 : State) (L : List Instruction) :
    ∀ (A : List Instruction) (s : State), st0.F.insts = A ++ L → WellFormed s →
      Progress st0 s →
      (∀ rw ∈ rewirings st0 s, ∃ a ∈ A, a.id = rw.old) →
      (∀ rw ∈ rewirings st0 s, ∀ J ∈ rw.before.insts, J.id = rw.old → J ∈ s.F.insts) →
      ∀ rw ∈ rewirings st0 ((L.map Instruction.id).foldl (fun s I => visit I s) s),
        ∀ J ∈ rw.before.insts, J.id = rw.old →
          J ∈ ((L.map Instruction.id).foldl (fun s I => visit I s) s).F.insts := by
  induction L with
  | nil =>
    intro A s _ _ _ _ hst
    exact hst
  | cons J0 L ih =>
    intro A s hAL hwf hP holds hst
    have hJ0 : J0 ∈ st0.F.insts := by
      rw [hAL]
      simp
    have hAL2 : st0.F.insts = (A ++ [J0]) ++ L := by
      rw [hAL]
      simp
    rw [List.map_cons, List.foldl_cons]
    rcases hP.visit_original J0 hJ0 with ⟨_, _, p, hv⟩ |
      ⟨BI, ρ, Fpre, Fpost, pre, post, _, _, hid, _, _, hF, hv⟩
    · rw [hv]
      refine ih (A ++ [J0]) { s with insertPt := p } hAL2 hwf (hP.of_setInsertPoint p) ?_ hst
      intro rw hrw
      obtain ⟨a, ha, hae⟩ := holds rw hrw
      exact ⟨a, List.mem_append_left _ ha, hae⟩
    · rw [hv]
      obtain ⟨hP1, hrw⟩ := hP.of_apply ρ BI (selectDraws BI.opcode) Fpre Fpost pre post hF
      obtain ⟨hF1, _, _, hwf1⟩ :=
        Rule.apply_wf ρ BI s (selectDraws BI.opcode) Fpre Fpost pre post hwf hF
      obtain ⟨hF2, _, _, _⟩ :=
        Rule.apply_alloc ρ BI s (selectDraws BI.opcode) Fpre Fpost pre post hP.alloc hF
      apply ih (A ++ [J0])
        (ρ.apply BI (s.positioned BI.id (selectDraws BI.opcode))) hAL2 hwf1 hP1
      · intro rw hmem
        rw [hrw] at hmem
        rcases List.mem_append.1 hmem with hmem | hmem
        · obtain ⟨a, ha, hae⟩ := holds rw hmem
          exact ⟨a, List.mem_append_left _ ha, hae⟩
        · rw [List.mem_singleton.1 hmem]
          exact ⟨J0, by simp, hid.symm⟩
      · intro rw hmem J hJ hJid
        rw [hrw] at hmem
        rcases List.mem_append.1 hmem with hmem | hmem
        · have hJs := hst rw hmem J hJ hJid
          obtain ⟨a, haA, haid⟩ := holds rw hmem
          have ha0 : a ∈ st0.F.insts := by
            rw [hAL]
            exact List.mem_append_left _ haA
          have hJa : J = rewire (rewirings st0 s) a :=
            List.inj_on_of_nodup_map hP.alloc.nodup hJs (hP.mem_original a ha0)
              (by rw [rewire_id, hJid, haid])
          have hpw := hwf.ssa.filter (fun J => decide (J.id < st0.nextId))
          rw [hP.insts_filter, hAL, List.pairwise_map, List.pairwise_append] at hpw
          have hnr := hpw.2.2 a haA J0 (List.mem_cons_self _ _)
          rw [rewire_id, ← hJa, ← hid] at hnr
          have hrJ := Instruction.replaceUsesOfWith_of_not_mem J BI.id
            (ρ.result BI (s.positioned BI.id (selectDraws BI.opcode))) hnr
          rw [hF2, insts_map, ← hrJ]
          apply List.mem_map_of_mem
          rw [mem_insts_inserted]
          left
          rw [← hF]
          exact hJs
        · rw [List.mem_singleton.1 hmem] at hJ hJid
          simp only at hJ hJid
          have ha2 : Alloc s.nextId
              ((Fpre.flatten ++ pre) ++ .binary BI :: (post ++ Fpost.flatten)) := by
            have := hP.alloc
            unfold Allocated at this
            rwa [hF, insts_located] at this
          have hnd := (ha2.insert_rewire
            (ρ.emits_Emits BI (s.positioned BI.id (selectDraws BI.opcode)))
            (fun J => J) (fun _ => rfl)).nodup
          rw [List.map_id'] at hnd
          rw [insts_inserted] at hJ
          have hJB : J = .binary BI :=
            List.inj_on_of_nodup_map hnd hJ (by simp) hJid
          rw [hJB, hF1, insts_rewritten]
          simp

/-! ## Claims -/

/-- C1. Add family equivalence: at every bit width `w`, for all `w`-bit values
`a`, `b` of the operands and every `w`-bit constant `r` drawn, each of `addNeg`,
`addDoubleNeg`, `addRand` and `addRand2` emits the instructions of its formula
(`a - (0 - b)`, `0 - ((0 - a) + (0 - b))`, `((a + r) + b) - r`, `((a - r) + b) + r`)
and the final value it builds (the value the consumers are rewired to, once the
emitted instructions are executed) is `a + b` modulo `2 ^ w`. -/
theorem add_family_equivalence (w a b r : Nat) (ha : a < 2 ^ w) (hb : b < 2 ^ w)
    (hr : r < 2 ^ w) (I : Interp) (regs : Nat → Nat) (st : State) (id : Nat) (x y : Value)
    (hx : evalValue I regs x = a) (hy : evalValue I regs y = b)
    (hxd : x.definedBelow st.nextId) (hyd : y.definedBelow st.nextId)
    (hrand : st.rand st.randPos = r) :
    (builtValue I regs st (addNeg ⟨id, .Add, w, x, y⟩ st) = some ((a + b) % 2 ^ w) ∧
     builtValue I regs st (addDoubleNeg ⟨id, .Add, w, x, y⟩ st) = some ((a + b) % 2 ^ w) ∧
     builtValue I regs st (addRand ⟨id, .Add, w, x, y⟩ st) = some ((a + b) % 2 ^ w) ∧
     builtValue I regs st (addRand2 ⟨id, .Add, w, x, y⟩ st) = some ((a + b) % 2 ^ w)) ∧
    (emitted st (addNeg ⟨id, .Add, w, x, y⟩ st)
        = Rule.insts st.nextId w x y (.constant r) .addNeg ∧
     emitted st (addDoubleNeg ⟨id, .Add, w, x, y⟩ st)
        = Rule.insts st.nextId w x y (.constant r) .addDoubleNeg ∧
     emitted st (addRand ⟨id, .Add, w, x, y⟩ st)
        = Rule.insts st.nextId w x y (.constant r) .addRand ∧
     emitted st (addRand2 ⟨id, .Add, w, x, y⟩ st)
        = Rule.insts st.nextId w x y (.constant r) .addRand2) := by
  have key : ∀ ρ : Rule, ρ.opcode = .Add →
      builtValue I regs st (ρ.apply ⟨id, .Add, w, x, y⟩ st) = some ((a + b) % 2 ^ w) := by
    intro ρ hρ
    rw [Rule.family_value ρ w a b I regs st _ id x y hx hy hxd hyd, hρ]
    simp [evalBinary, addW, Nat.mod_eq_of_lt ha, Nat.mod_eq_of_lt hb]
  have em := fun ρ : Rule => Rule.family_emitted ρ w r hr st .Add id x y hrand
  exact ⟨⟨key .addNeg rfl, key .addDoubleNeg rfl, key .addRand rfl, key .addRand2 rfl⟩,
    em .addNeg, em .addDoubleNeg, em .addRand, em .addRand2⟩

/-- C1, witness of the claim: `addNeg` on `a = 5`, `b = 3` at 8 bits builds 8. -/
theorem add_family_equivalence_witness :
    builtValue (sampleInterp 5 3) zeroRegs (sampleState .Add 8 [])
      (addNeg (sampleOp .Add 8) (sampleState .Add 8 [])) = some 8 :=
  (add_family_equivalence 8 5 3 0 (by decide) (by decide) (by decide) (sampleInterp 5 3)
    zeroRegs (sampleState .Add 8 []) 0 (.argument 0) (.argument 1) rfl rfl trivial trivial
    rfl).1.1

/-- C2. Sub family equivalence: at every bit width `w`, for all `w`-bit values
`a`, `b` of the operands and every `w`-bit constant `r` drawn, each of `subNeg`,
`subRand` and `subRand2` emits the instructions of its formula (`a + (0 - b)`,
`((a + r) - b) - r`, `((a - r) - b) + r`) and the final value it builds is
`a - b` modulo `2 ^ w`. -/
theorem sub_family_equivalence (w a b r : Nat) (ha : a < 2 ^ w) (hb : b < 2 ^ w)
    (hr : r < 2 ^ w) (I : Interp) (regs : Nat → Nat) (st : State) (id : Nat) (x y : Value)
    (hx : evalValue I regs x = a) (hy : evalValue I regs y = b)
    (hxd : x.definedBelow st.nextId) (hyd : y.definedBelow st.nextId)
    (hrand : st.rand st.randPos = r) :
    (builtValue I regs st (subNeg ⟨id, .Sub, w, x, y⟩ st)
        = some (((a : Int) - b) % 2 ^ w).toNat ∧
     builtValue I regs st (subRand ⟨id, .Sub, w, x, y⟩ st)
        = some (((a : Int) - b) % 2 ^ w).toNat ∧
     builtValue I regs st (subRand2 ⟨id, .Sub, w, x, y⟩ st)
        = some (((a : Int) - b) % 2 ^ w).toNat) ∧
    (emitted st (subNeg ⟨id, .Sub, w, x, y⟩ st)
        = Rule.insts st.nextId w x y (.constant r) .subNeg ∧
     emitted st (subRand ⟨id, .Sub, w, x, y⟩ st)
        = Rule.insts st.nextId w x y (.constant r) .subRand ∧
     emitted st (subRand2 ⟨id, .Sub, w, x, y⟩ st)
        = Rule.insts st.nextId w x y (.constant r) .subRand2) := by
  have key : ∀ ρ : Rule, ρ.opcode = .Sub →
      builtValue I regs st (ρ.apply ⟨id, .Sub, w, x, y⟩ st)
        = some (((a : Int) - b) % 2 ^ w).toNat := by
    intro ρ hρ
    rw [Rule.family_value ρ w a b I regs st _ id x y hx hy hxd hyd, hρ]
    simp only [evalBinary, subW_eq_toNat w a b ha hb]
  have em := fun ρ : Rule => Rule.family_emitted ρ w r hr st .Sub id x y hrand
  exact ⟨⟨key .subNeg rfl, key .subRand rfl, key .subRand2 rfl⟩,
    em .subNeg, em .subRand, em .subRand2⟩

/-- C2, witness: `subRand` on `a = 3`, `b = 5`, `r = 200` at 8 bits builds
`3 - 5 = 254` modulo 256. -/
theorem sub_family_equivalence_witness :
    builtValue (sampleInterp 3 5) zeroRegs (sampleState .Sub 8 [200])
      (subRand (sampleOp .Sub 8) (sampleState .Sub 8 [200])) = some 254 :=
  (sub_family_equivalence 8 3 5 200 (by decide) (by decide) (by decide) (sampleInterp 3 5)
    zeroRegs (sampleState .Sub 8 [200]) 0 (.argument 0) (.argument 1) rfl rfl trivial trivial
    rfl).1.2.1

/-- C3. Xor family equivalence: at every bit width `w`, for all `w`-bit values
`a`, `b` of the operands and every `w`-bit constant `r` drawn, `xorSubstitute`
and `xorSubstituteRand` emit the instructions of their formulas
(`(~a & b) | (a & ~b)` and `((~a & r) | (a & ~r)) ^ ((~b & r) | (b & ~r))`) and
the final value they build is `a ^ b`. -/
theorem xor_family_equivalence (w a b r : Nat) (ha : a < 2 ^ w) (hb : b < 2 ^ w)
    (hr : r < 2 ^ w) (I : Interp) (regs : Nat → Nat) (st : State) (id : Nat) (x y : Value)
    (hx : evalValue I regs x = a) (hy : evalValue I regs y = b)
    (hxd : x.definedBelow st.nextId) (hyd : y.definedBelow st.nextId)
    (hrand : st.rand st.randPos = r) :
    (builtValue I regs st (xorSubstitute ⟨id, .Xor, w, x, y⟩ st) = some (a ^^^ b) ∧
     builtValue I regs st (xorSubstituteRand ⟨id, .Xor, w, x, y⟩ st) = some (a ^^^ b)) ∧
    (emitted st (xorSubstitute ⟨id, .Xor, w, x, y⟩ st)
        = Rule.insts st.nextId w x y (.constant r) .xorPlain ∧
     emitted st (xorSubstituteRand ⟨id, .Xor, w, x, y⟩ st)
        = Rule.insts st.nextId w x y (.constant r) .xorRand) := by
  have key : ∀ ρ : Rule, ρ.opcode = .Xor →
      builtValue I regs st (ρ.apply ⟨id, .Xor, w, x, y⟩ st) = some (a ^^^ b) := by
    intro ρ hρ
    rw [Rule.family_value ρ w a b I regs st _ id x y hx hy hxd hyd, hρ]
    simp [evalBinary, Nat.mod_eq_of_lt ha, Nat.mod_eq_of_lt hb]
  have em := fun ρ : Rule => Rule.family_emitted ρ w r hr st .Xor id x y hrand
  exact ⟨⟨key .xorPlain rfl, key .xorRand rfl⟩, em .xorPlain, em .xorRand⟩

/-- C3, witness of the claim: `xorSubstitute` on `a = 0b1010`, `b = 0b0110` at
4 bits builds `0b1100`. -/
theorem xor_family_equivalence_witness :
    builtValue (sampleInterp 0b1010 0b0110) zeroRegs (sampleState .Xor 4 [])
      (xorSubstitute (sampleOp .Xor 4) (sampleState .Xor 4 [])) = some 0b1100 :=
  (xor_family_equivalence 4 0b1010 0b0110 0 (by decide) (by decide) (by decide)
    (sampleInterp 0b1010 0b0110) zeroRegs (sampleState .Xor 4 []) 0 (.argument 0) (.argument 1)
    rfl rfl trivial trivial rfl).1.1

/-- C4. And family equivalence: at every bit width `w`, for all `w`-bit values
`a`, `b` of the operands and every `w`-bit constant `r` drawn, `andSubstitute`
and `andSubstituteRand` emit the instructions of their formulas (`(a ^ ~b) & a`
and `(~(~a | ~b)) & (r | ~r)`) and the final value they build is `a & b`. -/
theorem and_family_equivalence (w a b r : Nat) (ha : a < 2 ^ w) (hb : b < 2 ^ w)
    (hr : r < 2 ^ w) (I : Interp) (regs : Nat → Nat) (st : State) (id : Nat) (x y : Value)
    (hx : evalValue I regs x = a) (hy : evalValue I regs y = b)
    (hxd : x.definedBelow st.nextId) (hyd : y.definedBelow st.nextId)
    (hrand : st.rand st.randPos = r) :
    (builtValue I regs st (andSubstitute ⟨id, .And, w, x, y⟩ st) = some (a &&& b) ∧
     builtValue I regs st (andSubstituteRand ⟨id, .And, w, x, y⟩ st) = some (a &&& b)) ∧
    (emitted st (andSubstitute ⟨id, .And, w, x, y⟩ st)
        = Rule.insts st.nextId w x y (.constant r) .andPlain ∧
     emitted st (andSubstituteRand ⟨id, .And, w, x, y⟩ st)
        = Rule.insts st.nextId w x y (.constant r) .andRand) := by
  have key : ∀ ρ : Rule, ρ.opcode = .And →
      builtValue I regs st (ρ.apply ⟨id, .And, w, x, y⟩ st) = some (a &&& b) := by
    intro ρ hρ
    rw [Rule.family_value ρ w a b I regs st _ id x y hx hy hxd hyd, hρ]
    simp [evalBinary, Nat.mod_eq_of_lt ha, Nat.mod_eq_of_lt hb]
  have em := fun ρ : Rule => Rule.family_emitted ρ w r hr st .And id x y hrand
  exact ⟨⟨key .andPlain rfl, key .andRand rfl⟩, em .andPlain, em .andRand⟩

/-- C4, witness of the claim: `andSubstitute` on `a = 6`, `b = 3` at 8 bits
builds 2. -/
theorem and_family_equivalence_witness :
    builtValue (sampleInterp 6 3) zeroRegs (sampleState .And 8 [])
      (andSubstitute (sampleOp .And 8) (sampleState .And 8 [])) = some 2 :=
  (and_family_equivalence 8 6 3 0 (by decide) (by decide) (by decide) (sampleInterp 6 3)
    zeroRegs (sampleState .And 8 []) 0 (.argument 0) (.argument 1) rfl rfl trivial trivial
    rfl).1.1

/-- C5. Or family equivalence: at every bit width `w`, for all `w`-bit values
`a`, `b` of the operands and every `w`-bit constant `r` drawn, `orSubstitute`
and `orSubstituteRand` emit the instructions of their formulas
(`(a & b) | (a ^ b)` and `(~(~a & ~b)) & (r | ~r)`) and the final value they
build is `a | b`. -/
theorem or_family_equivalence (w a b r : Nat) (ha : a < 2 ^ w) (hb : b < 2 ^ w)
    (hr : r < 2 ^ w) (I : Interp) (regs : Nat → Nat) (st : State) (id : Nat) (x y : Value)
    (hx : evalValue I regs x = a) (hy : evalValue I regs y = b)
    (hxd : x.definedBelow st.nextId) (hyd : y.definedBelow st.nextId)
    (hrand : st.rand st.randPos = r) :
    (builtValue I regs st (orSubstitute ⟨id, .Or, w, x, y⟩ st) = some (a ||| b) ∧
     builtValue I regs st (orSubstituteRand ⟨id, .Or, w, x, y⟩ st) = some (a ||| b)) ∧
    (emitted st (orSubstitute ⟨id, .Or, w, x, y⟩ st)
        = Rule.insts st.nextId w x y (.constant r) .orPlain ∧
     emitted st (orSubstituteRand ⟨id, .Or, w, x, y⟩ st)
        = Rule.insts st.nextId w x y (.constant r) .orRand) := by
  have key : ∀ ρ : Rule, ρ.opcode = .Or →
      builtValue I regs st (ρ.apply ⟨id, .Or, w, x, y⟩ st) = some (a ||| b) := by
    intro ρ hρ
    rw [Rule.family_value ρ w a b I regs st _ id x y hx hy hxd hyd, hρ]
    simp [evalBinary, Nat.mod_eq_of_lt ha, Nat.mod_eq_of_lt hb]
  have em := fun ρ : Rule => Rule.family_emitted ρ w r hr st .Or id x y hrand
  exact ⟨⟨key .orPlain rfl, key .orRand rfl⟩, em .orPlain, em .orRand⟩

/-- C5, witness: `orSubstituteRand` on `a = 12`, `b = 10`, `r = 77` at 8 bits
builds 14. -/
theorem or_family_equivalence_witness :
    builtValue (sampleInterp 12 10) zeroRegs (sampleState .Or 8 [77])
      (orSubstituteRand (sampleOp .Or 8) (sampleState .Or 8 [77])) = some 14 :=
  (or_family_equivalence 8 12 10 77 (by decide) (by decide) (by decide) (sampleInterp 12 10)
    zeroRegs (sampleState .Or 8 [77]) 0 (.argument 0) (.argument 1) rfl rfl trivial trivial
    rfl).1.2

/-- C6. The pass preserves program behaviour: for every well-formed
straight-line function (unique identities, operands defined before their use),
every interpretation of its inputs and uninterpreted instructions, every
initial register file and every random stream, after `Substitution::run` each
instruction that was present before the pass evaluates to the same value as
before, and the value each rewritten Add/Sub/And/Or/Xor was replaced by equals
the value the original operation had. -/
theorem run_preserves_behaviour (srand : Int → Nat → Nat) (seed : Int) (st : State)
    (hwf : WellFormed st) (I : Interp) (regs : Nat → Nat) :
    (∀ J ∈ st.F.insts,
      exec I regs (run srand seed st).F.insts J.id = exec I regs st.F.insts J.id) ∧
    (∀ rw ∈ rewirings st (run srand seed st),
      evalValue I (exec I regs (run srand seed st).F.insts) rw.new
        = exec I regs st.F.insts rw.old) := by
  obtain ⟨_, _, _, X, hX, hval, hrw⟩ := run_invariant
    (fun s => WellFormed s ∧ ∃ X, s.replaced = st.replaced ++ X ∧
      (∀ (I : Interp) (regs : Nat → Nat), ∀ j < st.nextId,
        exec I regs s.F.insts j = exec I regs st.F.insts j) ∧
      (∀ rw ∈ X, rw.new.definedBelow s.nextId ∧
        ∀ (I : Interp) (regs : Nat → Nat),
          evalValue I (exec I regs s.F.insts) rw.new = exec I regs st.F.insts rw.old))
    srand seed st hwf.allocated
    (fun s p h => h)
    (by
      intro s BI ρ k Fpre Fpost pre post _ hn ⟨hwfs, X, hX, hval, hrw⟩ hF hBI hop
      obtain ⟨_, hrep, hnext, hwfs2⟩ := Rule.apply_wf ρ BI s k Fpre Fpost pre post hwfs hF
      have hex := fun I regs => Rule.apply_exec ρ BI s k Fpre Fpost pre post hwfs hF hop I regs
      have hpos := (ρ.emits_Emits BI (s.positioned BI.id k)).pos
      refine ⟨hwfs2, X ++ [⟨BI.id, ρ.result BI (s.positioned BI.id k),
        Fpre ++ (pre ++ ρ.emits BI (s.positioned BI.id k) ++ .binary BI :: post) :: Fpost⟩],
        ?_, ?_, ?_⟩
      · rw [hrep, hX, List.append_assoc]
      · intro I regs j hj
        rw [(hex I regs).1 j (by omega), hval I regs j hj]
      · intro rw hmem
        rcases List.mem_append.1 hmem with hmem | hmem
        · obtain ⟨hd, hv⟩ := hrw rw hmem
          refine ⟨Value.definedBelow_mono hd (by omega), ?_⟩
          intro I regs
          rw [← hv I regs]
          exact evalValue_congr I _ _ s.nextId rw.new (hex I regs).1 hd
        · rw [List.mem_singleton.1 hmem]
          refine ⟨?_, ?_⟩
          · show s.nextId + _ - 1 < _
            rw [hnext]
            omega
          · intro I regs
            rw [(hex I regs).2, hval I regs BI.id hBI])
    ⟨by
      unfold WellFormed
      rw [entered_F, entered_nextId]
      exact hwf, [], by rw [entered_replaced, List.append_nil], by
      intro I regs j _
      rw [entered_F], by
      intro rw h
      exact absurd h (List.not_mem_nil _)⟩
  refine ⟨?_, ?_⟩
  · intro J hJ
    exact hval I regs J.id (hwf.fresh J hJ)
  · intro rw hmem
    have : rewirings st (run srand seed st) = X := by
      unfold rewirings
      rw [hX, List.drop_left]
    rw [this] at hmem
    exact (hrw rw hmem).2 I regs

/-- C6, witness: the pass on the two-block sample function, in which the
rewritten `%0` feeds the rewritten `%1`, `%4` and `%6`. -/
theorem run_preserves_behaviour_witness :
    WellFormed sampleProgram ∧
    (∀ J ∈ sampleProgram.F.insts,
      exec (sampleInterp 5 3) zeroRegs (run zeroSrand 0 sampleProgram).F.insts J.id
        = exec (sampleInterp 5 3) zeroRegs sampleProgram.F.insts J.id) ∧
    (∀ rw ∈ rewirings sampleProgram (run zeroSrand 0 sampleProgram),
      evalValue (sampleInterp 5 3)
          (exec (sampleInterp 5 3) zeroRegs (run zeroSrand 0 sampleProgram).F.insts) rw.new
        = exec (sampleInterp 5 3) zeroRegs sampleProgram.F.insts rw.old) :=
  ⟨⟨by decide, by decide, by decide, by decide, by decide⟩,
    run_preserves_behaviour zeroSrand 0 sampleProgram
      ⟨by decide, by decide, by decide, by decide, by decide⟩ (sampleInterp 5 3) zeroRegs⟩

/-- C7. No dangling consumers: after `Substitution::run` on a function whose
instructions have identities of their own, for every consumer rewiring the run
performed, no instruction of the resulting function (those inserted by the
pass included) reads the rewritten operation, and every instruction that read
it when it was rewritten is still in the function and reads, in the same
operand slot, the final value the rule returned. -/
theorem no_dangling_consumers (srand : Int → Nat → Nat) (seed : Int) (st : State)
    (hwf : Allocated st) :
    ∀ rw ∈ rewirings st (run srand seed st),
      (∀ J ∈ (run srand seed st).F.insts, Value.instruction rw.old ∉ J.operands) ∧
      (∀ J ∈ rw.before.insts, ∀ i : Nat, J.operands[i]? = some (Value.instruction rw.old) →
        (∃ K ∈ (run srand seed st).F.insts, K.id = J.id) ∧
        ∀ K ∈ (run srand seed st).F.insts, K.id = J.id → K.operands[i]? = some rw.new) := by
  obtain ⟨hwf2, _, X, hX, hrw⟩ := run_invariant
    (fun s => ∃ X, s.replaced = st.replaced ++ X ∧
      ∀ rw ∈ X, rw.old < st.nextId ∧ (∃ m, st.nextId ≤ m ∧ rw.new = .instruction m) ∧
        (∀ J ∈ s.F.insts, Value.instruction rw.old ∉ J.operands) ∧
        (∀ J ∈ rw.before.insts, ∀ i : Nat,
          J.operands[i]? = some (Value.instruction rw.old) →
          ∃ K ∈ s.F.insts, K.id = J.id ∧ K.operands[i]? = some rw.new))
    srand seed st hwf
    (fun s p h => h)
    (by
      intro s BI ρ k Fpre Fpost pre post hwfs hn ⟨X, hX, hrw⟩ hF hBI hop
      obtain ⟨_, hrep, _, _⟩ := Rule.apply_alloc ρ BI s k Fpre Fpost pre post hwfs hF
      have hpos := (ρ.emits_Emits BI (s.positioned BI.id k)).pos
      refine ⟨X ++ [⟨BI.id, ρ.result BI (s.positioned BI.id k),
        Fpre ++ (pre ++ ρ.emits BI (s.positioned BI.id k) ++ .binary BI :: post) :: Fpost⟩],
        ?_, ?_⟩
      · rw [hrep, hX, List.append_assoc]
      · intro rw hmem
        rcases List.mem_append.1 hmem with hmem | hmem
        · obtain ⟨hold, hnew, hzero, hread⟩ := hrw rw hmem
          exact ⟨hold, hnew, Rule.apply_consumers ρ BI s k Fpre Fpost pre post hwfs hF
            st.nextId hn hBI rw hold hnew hzero hread⟩
        · rw [List.mem_singleton.1 hmem]
          refine ⟨hBI, ⟨s.nextId + (ρ.emits BI (s.positioned BI.id k)).length - 1, ?_, rfl⟩,
            Rule.apply_rewires ρ BI s k Fpre Fpost pre post hwfs hF⟩
          omega)
    ⟨[], by rw [entered_replaced, List.append_nil], by
      intro rw h
      exact absurd h (List.not_mem_nil _)⟩
  intro rw hmem
  have hrew : rewirings st (run srand seed st) = X := by
    unfold rewirings
    rw [hX, List.drop_left]
  rw [hrew] at hmem
  obtain ⟨_, _, hzero, hread⟩ := hrw rw hmem
  refine ⟨hzero, ?_⟩
  intro J hJ i hi
  obtain ⟨K, hK, hKid, hKop⟩ := hread J hJ i hi
  refine ⟨⟨K, hK, hKid⟩, ?_⟩
  intro K2 hK2 hK2id
  have : K2 = K := List.inj_on_of_nodup_map hwf2.nodup hK2 hK (hK2id.trans hKid.symm)
  rw [this]
  exact hKop

/-- C7, witness: the pass on the two-block sample function. -/
theorem no_dangling_consumers_witness :
    Allocated sampleProgram ∧
    ∀ rw ∈ rewirings sampleProgram (run zeroSrand 0 sampleProgram),
      (∀ J ∈ (run zeroSrand 0 sampleProgram).F.insts,
        Value.instruction rw.old ∉ J.operands) ∧
      (∀ J ∈ rw.before.insts, ∀ i : Nat, J.operands[i]? = some (Value.instruction rw.old) →
        (∃ K ∈ (run zeroSrand 0 sampleProgram).F.insts, K.id = J.id) ∧
        ∀ K ∈ (run zeroSrand 0 sampleProgram).F.insts, K.id = J.id →
          K.operands[i]? = some rw.new) :=
  ⟨⟨by decide, by decide⟩,
    no_dangling_consumers zeroSrand 0 sampleProgram ⟨by decide, by decide⟩⟩

/-- C8. Insertion ordering: when a rule is applied to an operation `BI` that
does not read its own result, with the emitter placed before `BI`, the
instructions it emits stand, as emitted, immediately before `BI` in its block
(everything else is only rewired); each emitted instruction reads only the two
operands of `BI`, the constant `r` of the rule or the result of an instruction
emitted earlier by the same rule; none reads the result of `BI`; the consumers
are rewired to the result of the last emitted instruction; and a function in
which no instruction reads its own result or the result of a later instruction
stays such a function: rewiring introduces no forward reference and no cycle. -/
theorem insertion_ordering (ρ : Rule) (BI : BinaryOperator) (st : State)
    (Fpre Fpost : Function) (pre post : List Instruction) (ha : Allocated st)
    (hF : st.F = Fpre ++ (pre ++ .binary BI :: post) :: Fpost)
    (hpt : st.insertPt = some BI.id)
    (hself : Value.instruction BI.id ∉ (Instruction.binary BI).operands) :
    (ρ.apply BI st).F
      = Fpre.map (List.map (Instruction.replaceUsesOfWith BI.id (ρ.result BI st)))
        ++ (pre.map (Instruction.replaceUsesOfWith BI.id (ρ.result BI st))
            ++ emitted st (ρ.apply BI st) ++ .binary BI ::
            post.map (Instruction.replaceUsesOfWith BI.id (ρ.result BI st)))
          :: Fpost.map (List.map (Instruction.replaceUsesOfWith BI.id (ρ.result BI st))) ∧
    ReadsOnlyEarlier [BI.op0, BI.op1, ConstantInt.get BI.ty (st.rand st.randPos)]
      (emitted st (ρ.apply BI st)) ∧
    (∀ e ∈ emitted st (ρ.apply BI st), Value.instruction BI.id ∉ e.operands) ∧
    finalValue st (ρ.apply BI st) = some (ρ.result BI st) ∧
    (emitted st (ρ.apply BI st)).getLast?.map (fun e => Value.instruction e.id)
      = some (ρ.result BI st) ∧
    (WellFormed st → WellFormed (ρ.apply BI st)) := by
  have hst : st.positioned BI.id 0 = st := by
    cases st
    simp only [State.positioned] at hpt ⊢
    simp [hpt]
  have h := Rule.apply_alloc ρ BI st 0 Fpre Fpost pre post ha hF
  rw [hst] at h
  have he := ρ.emits_Emits BI st
  have hBIn : BI.id < st.nextId := by
    apply ha.fresh (.binary BI)
    rw [hF, insts_located]
    simp
  have hno : ∀ e ∈ ρ.emits BI st, Value.instruction BI.id ∉ e.operands := by
    intro e hem hv
    rcases he.operands e hem _ hv with h0 | h1 | ⟨c, hc⟩ | ⟨j, hj, hnj, _⟩
    · exact hself (by rw [h0]; simp [Instruction.operands])
    · exact hself (by rw [h1]; simp [Instruction.operands])
    · exact absurd hc (by simp)
    · injection hj with hj
      omega
  rw [emitted_apply]
  refine ⟨?_, Rule.insts_readsOnlyEarlier ρ _ _ _ _ _, hno, ?_, ?_, ?_⟩
  · rw [h.1, List.map_append, List.map_cons, List.map_append, List.map_append, List.map_cons,
      map_eq_self _ (ρ.emits BI st)
        (fun e hem => Instruction.replaceUsesOfWith_of_not_mem e _ _ (hno e hem)),
      Instruction.replaceUsesOfWith_of_not_mem _ _ _ hself]
  · rw [Rule.apply_eq_result]
    simp [finalValue, rewirings_applied]
  · have hids := he.ids
    have hpos := he.pos
    have hlast : ((ρ.emits BI st).map Instruction.id).getLast?
        = some (st.nextId + (ρ.emits BI st).length - 1) := by
      rw [hids]
      cases hlen : (ρ.emits BI st).length with
      | zero => omega
      | succ n =>
        rw [List.range'_concat, List.getLast?_concat]
        simp
    rw [List.getLast?_map] at hlast
    unfold Rule.result
    cases hl : (ρ.emits BI st).getLast? with
    | none => simp [hl] at hlast
    | some e =>
      simp only [hl, Option.map_some', Option.some.injEq] at hlast ⊢
      rw [hlast]
  · intro hwf
    have := (Rule.apply_wf ρ BI st 0 Fpre Fpost pre post hwf hF).2.2.2
    rwa [hst] at this

/-- C8, witness: `xorSubstituteRand` applied to `%0 = xor i8 a0, a1` followed by
a consumer. -/
theorem insertion_ordering_witness :
    (emitted (sampleState .Xor 8 [77])
        (Rule.xorRand.apply (sampleOp .Xor 8) (sampleState .Xor 8 [77]))).length = 11 ∧
    (Rule.xorRand.apply (sampleOp .Xor 8) (sampleState .Xor 8 [77])).F
      = [emitted (sampleState .Xor 8 [77])
            (Rule.xorRand.apply (sampleOp .Xor 8) (sampleState .Xor 8 [77]))
          ++ [.binary (sampleOp .Xor 8), .other 1 [.instruction 12]]] ∧
    ReadsOnlyEarlier [.argument 0, .argument 1, .constant 77]
      (emitted (sampleState .Xor 8 [77])
        (Rule.xorRand.apply (sampleOp .Xor 8) (sampleState .Xor 8 [77]))) ∧
    (∀ e ∈ emitted (sampleState .Xor 8 [77])
        (Rule.xorRand.apply (sampleOp .Xor 8) (sampleState .Xor 8 [77])),
      Value.instruction 0 ∉ e.operands) ∧
    WellFormed (Rule.xorRand.apply (sampleOp .Xor 8) (sampleState .Xor 8 [77])) :=
  have h := insertion_ordering .xorRand (sampleOp .Xor 8) (sampleState .Xor 8 [77]) [] []
    [] [.other 1 [.instruction 0]] ⟨by decide, by decide⟩ rfl rfl (by decide)
  ⟨by decide, h.1, h.2.1, h.2.2.1,
    h.2.2.2.2.2 ⟨by decide, by decide, by decide, by decide, by decide⟩⟩

/-- C9. The Xor dispatcher does not select by the value it draws on entry: with
the stream `1, 0, ...` the catalog entry at index `1 % 2` is `xorRand`, while
`substitute` draws twice and emits the five instructions of `xorSubstitute`
(selected by the second value, `0`), not those of `xorSubstituteRand`. -/
theorem substituteXor_selects_by_second_draw :
    selectRule .Xor ((sampleState .Xor 8 [1, 0]).rand (sampleState .Xor 8 [1, 0]).randPos)
        = some .xorRand ∧
    emitted (sampleState .Xor 8 [1, 0]) (substitute (sampleOp .Xor 8) (sampleState .Xor 8 [1, 0]))
        = emitted (sampleState .Xor 8 [1, 0])
            (xorSubstitute (sampleOp .Xor 8) (sampleState .Xor 8 [1, 0])) ∧
    emitted (sampleState .Xor 8 [1, 0]) (substitute (sampleOp .Xor 8) (sampleState .Xor 8 [1, 0]))
        ≠ emitted (sampleState .Xor 8 [1, 0])
            (xorSubstituteRand (sampleOp .Xor 8) (getRandomNumber (sampleState .Xor 8 [1, 0])).2) ∧
    (substitute (sampleOp .Xor 8) (sampleState .Xor 8 [1, 0])).randPos = 2 := by
  decide

/-- C10. Unsupported operators are skipped: for a binary operation whose
operator is not Add, Sub, And, Or or Xor, `substitute` returns the state it was
given: it emits no instruction, rewires no consumer and draws no value, so the
function and the position of the random stream are unchanged. -/
theorem unsupported_operators_skipped (BI : BinaryOperator) (st : State)
    (h : BI.opcode ≠ .Add ∧ BI.opcode ≠ .Sub ∧ BI.opcode ≠ .And ∧ BI.opcode ≠ .Or ∧
      BI.opcode ≠ .Xor) :
    substitute BI st = st ∧
    emitted st (substitute BI st) = [] ∧
    rewirings st (substitute BI st) = [] ∧
    (substitute BI st).F = st.F ∧
    (substitute BI st).randPos = st.randPos := by
  rw [substitute_unsupported BI st h]
  simp [emitted, rewirings]

/-- C10, witness: a multiplication is left untouched. -/
theorem unsupported_operators_skipped_witness :
    substitute (sampleOp .Mul 8) (sampleState .Mul 8 [7]) = sampleState .Mul 8 [7] :=
  (unsupported_operators_skipped (sampleOp .Mul 8) (sampleState .Mul 8 [7]) (by decide)).1

/-- C11. Each instruction is rewritten once per run: on a function whose
instructions have identities of their own, for every random stream, `run`
(a total function: it returns for every input) rewires the consumers of
exactly the Add/Sub/And/Or/Xor operations of the original function, each once
and in layout order, one rule application each; the rewired operations are
instructions of the original function, while every instruction emitted during
the run has a fresh identity, so none of them is rewritten; the number of rule
applications is the number of such operations. -/
theorem each_operation_rewritten_once (srand : Int → Nat → Nat) (seed : Int) (st : State)
    (ha : Allocated st) :
    (rewirings st (run srand seed st)).map Rewiring.old = candidates st.F ∧
    (runRules srand seed st).map Prod.fst = candidates st.F ∧
    (candidates st.F).Nodup ∧
    (rewirings st (run srand seed st)).length = (candidates st.F).length ∧
    (runRules srand seed st).length = (candidates st.F).length ∧
    (∀ id ∈ candidates st.F, id < st.nextId ∧ ∃ J ∈ st.F.insts, candidateId J = some id) ∧
    (∀ e ∈ emitted st (run srand seed st),
      st.nextId ≤ e.id ∧ e.id ∉ (rewirings st (run srand seed st)).map Rewiring.old) := by
  have h1 := run_rewires_candidates srand seed st ha
  have hL := Ledger.whole_run srand seed st ha
  have h2 : (runRules srand seed st).map Prod.fst = candidates st.F := by
    rw [← hL.olds, rewirings_entered, h1]
  have hlt : ∀ id ∈ candidates st.F, id < st.nextId := by
    intro id hid
    obtain ⟨J, hJ, rfl⟩ := List.mem_map.1 ((candidates_sublist st.F.insts).subset hid)
    exact ha.fresh J hJ
  refine ⟨h1, h2, (candidates_sublist st.F.insts).nodup ha.nodup, ?_, ?_, ?_, ?_⟩
  · rw [← h1, List.length_map]
  · rw [← h2, List.length_map]
  · intro id hid
    refine ⟨hlt id hid, ?_⟩
    obtain ⟨J, hJ, hc⟩ := List.mem_filterMap.1 hid
    exact ⟨J, hJ, hc⟩
  · intro e he
    have hge : st.nextId ≤ e.id := by
      have hm : e.id ∈ (emitted st (run srand seed st)).map Instruction.id :=
        List.mem_map_of_mem _ he
      rw [← emitted_entered srand seed, hL.ids, List.mem_range'_1, entered_nextId] at hm
      exact hm.1
    refine ⟨hge, ?_⟩
    rw [h1]
    intro hmem
    exact absurd (hlt _ hmem) (Nat.not_lt.2 hge)

/-- C11, witness: the pass on the two-block sample function. -/
theorem each_operation_rewritten_once_witness :
    Allocated sampleProgram ∧
    (rewirings sampleProgram (run zeroSrand 0 sampleProgram)).map Rewiring.old
      = [0, 1, 4, 5, 6] :=
  ⟨⟨by decide, by decide⟩,
    (each_operation_rewritten_once zeroSrand 0 sampleProgram ⟨by decide, by decide⟩).1⟩

/-- C12. Determinism: two runs of the pass on the same function, with the
allocator in the same state, from the same non-zero seed (or, with seed zero,
from the same position of the same stream) produce identical output functions,
emit the same instructions (hence the same constants `r`), perform the same
rewirings in the same order, apply the same rules to the same operations and
leave the stream at the same position, whatever the counters and the logs of
the two hosts were before: the output is a function of the input function and
the random stream only. -/
theorem run_deterministic (srand : Int → Nat → Nat) (seed : Int) (st1 st2 : State)
    (hF : st1.F = st2.F) (hn : st1.nextId = st2.nextId)
    (hs : seed ≠ 0 ∨ (st1.rand = st2.rand ∧ st1.randPos = st2.randPos)) :
    (run srand seed st1).F = (run srand seed st2).F ∧
    emitted st1 (run srand seed st1) = emitted st2 (run srand seed st2) ∧
    rewirings st1 (run srand seed st1) = rewirings st2 (run srand seed st2) ∧
    runRules srand seed st1 = runRules srand seed st2 ∧
    (run srand seed st1).randPos = (run srand seed st2).randPos ∧
    (run srand seed st1).nextId = (run srand seed st2).nextId := by
  have he := SameCore.on_entry srand seed st1 st2 hF hn hs
  have hlen : (st1.entered srand seed).F.length = (st2.entered srand seed).F.length := by
    rw [he.1]
  obtain ⟨g1, g2, g3⟩ := SameCore.step_blocks (st2.entered srand seed).F.length _ _ he
  rw [run_eq, run_eq, hlen]
  refine ⟨g1.1, ?_, ?_, ?_, g1.2.2.2.2, g1.2.2.1⟩
  · rw [← emitted_entered srand seed st1, ← emitted_entered srand seed st2, g2]
  · rw [← rewirings_entered srand seed st1, ← rewirings_entered srand seed st2, g3]
  · unfold runRules
    rw [hF]
    exact (SameCore.step_visits _ _ _ he).2.2.2

/-- C12, witness: the two-block sample function in two hosts that differ in
counters, logs and random source, reseeded with `3`. -/
theorem run_deterministic_witness :
    sampleProgram.F = sampleProgramLater.F ∧
    sampleProgram.nextId = sampleProgramLater.nextId ∧
    ((3 : Int) ≠ 0 ∨ (sampleProgram.rand = sampleProgramLater.rand ∧
      sampleProgram.randPos = sampleProgramLater.randPos)) ∧
    (run sampleSrand 3 sampleProgram).F = (run sampleSrand 3 sampleProgramLater).F ∧
    emitted sampleProgram (run sampleSrand 3 sampleProgram)
      = emitted sampleProgramLater (run sampleSrand 3 sampleProgramLater) :=
  have h := run_deterministic sampleSrand 3 sampleProgram sampleProgramLater rfl rfl
    (Or.inl (by decide))
  ⟨rfl, rfl, Or.inl (by decide), h.1, h.2.1⟩

/-- C13. The diagnostic counters are not exact: `run` increments both once on
entry, before it looks at the function, so for every function and stream each
counter goes up by one more than the number of rule applications, respectively
of emitted instructions, of the run; on the function `%0 = mul i8 a0, a1`,
`%1 = other %0`, which has no eligible operation, no rule is applied and no
instruction is emitted, yet both counters go from `0` to `1`. -/
theorem counters_off_by_one (srand : Int → Nat → Nat) (seed : Int) (st : State) :
    (run srand seed st).NumSubstitutions
      = st.NumSubstitutions + (rewirings st (run srand seed st)).length + 1 ∧
    (run srand seed st).NumInstructionsInserted
      = st.NumInstructionsInserted + (emitted st (run srand seed st)).length + 1 ∧
    candidates (sampleState .Mul 8 []).F = [] ∧
    rewirings (sampleState .Mul 8 []) (run zeroSrand 0 (sampleState .Mul 8 [])) = [] ∧
    emitted (sampleState .Mul 8 []) (run zeroSrand 0 (sampleState .Mul 8 [])) = [] ∧
    (sampleState .Mul 8 []).NumSubstitutions = 0 ∧
    (sampleState .Mul 8 []).NumInstructionsInserted = 0 ∧
    (run zeroSrand 0 (sampleState .Mul 8 [])).NumSubstitutions = 1 ∧
    (run zeroSrand 0 (sampleState .Mul 8 [])).NumInstructionsInserted = 1 :=
  ⟨(run_counters srand seed st).1, (run_counters srand seed st).2, by decide, by decide,
    by decide, rfl, rfl, by decide, by decide⟩

/-- C14, counterexample: in `sampleForward` the operation `%0 = add i8 %1, a0`
stands in a block before the block of `%1`. When `%0` is rewritten it reads
`%1`; `%1` is rewritten later, which redirects the operand of `%0`, so in the
resulting function `%0` reads `%13`, not the operand it had when it was
rewritten. -/
theorem rewritten_operand_redirected_later :
    Allocated sampleForward ∧
    (rewirings sampleForward (run zeroSrand 0 sampleForward)).map
        (fun rw => (rw.old, findInst rw.before rw.old))
      = [(0, some (.binary ⟨0, .Add, 8, .instruction 1, .argument 0⟩)),
         (1, some (.binary ⟨1, .Add, 8, .argument 0, .argument 1⟩))] ∧
    findInst (run zeroSrand 0 sampleForward).F 0
      = some (.binary ⟨0, .Add, 8, .instruction 13, .argument 0⟩) :=
  ⟨⟨by decide, by decide⟩, by decide, by decide⟩

/-- C14, amended. Structure is preserved: on a function whose instructions
have identities of their own, `run` keeps the number of blocks; in every block
the original instructions are the instructions of the original block, in the
same order, each with its identity, opcode and type, its operands redirected
through the rewirings of the run (an operand that is no rewritten operation is
unchanged); the rewritten operations are the candidates of the original
function; every other instruction of the result was emitted during the run and
stands immediately before another emitted instruction or a rewritten
operation, and no block ends with one; and when the function defines every
value before its uses in layout order, each rewritten operation is in the
result exactly as it stood when it was rewritten. -/
theorem structure_preserved (srand : Int → Nat → Nat) (seed : Int) (st : State)
    (ha : Allocated st) :
    (run srand seed st).F.length = st.F.length ∧
    (∀ i, ((run srand seed st).F.getD i []).filter (fun J => decide (J.id < st.nextId))
      = (st.F.getD i []).map (rewire (rewirings st (run srand seed st)))) ∧
    (∀ BI : BinaryOperator, rewire (rewirings st (run srand seed st)) (.binary BI)
      = .binary ⟨BI.id, BI.opcode, BI.ty, redirect (rewirings st (run srand seed st)) BI.op0,
          redirect (rewirings st (run srand seed st)) BI.op1⟩) ∧
    (∀ id opc ty op, rewire (rewirings st (run srand seed st)) (.unary id opc ty op)
      = .unary id opc ty (redirect (rewirings st (run srand seed st)) op)) ∧
    (∀ id ops, rewire (rewirings st (run srand seed st)) (.other id ops)
      = .other id (ops.map (redirect (rewirings st (run srand seed st))))) ∧
    (∀ v, (∀ rw ∈ rewirings st (run srand seed st), v ≠ Value.instruction rw.old) →
      redirect (rewirings st (run srand seed st)) v = v) ∧
    (rewirings st (run srand seed st)).map Rewiring.old = candidates st.F ∧
    (∀ J ∈ (run srand seed st).F.insts, st.nextId ≤ J.id →
      J.id ∈ (emitted st (run srand seed st)).map Instruction.id) ∧
    (∀ i, Placed st.nextId ((rewirings st (run srand seed st)).map Rewiring.old)
      ((run srand seed st).F.getD i [])) ∧
    (WellFormed st → ∀ rw ∈ rewirings st (run srand seed st),
      ∀ J ∈ rw.before.insts, J.id = rw.old → J ∈ (run srand seed st).F.insts) := by
  have hP := Progress.of_run srand seed st ha
  have hL := Ledger.whole_run srand seed st ha
  refine ⟨hP.len, hP.blocks, rewire_binary_eq _, rewire_unary_eq _, rewire_other_eq _,
    redirect_of_not_old _, run_rewires_candidates srand seed st ha, ?_,
    run_placed srand seed st ha, ?_⟩
  · intro J hJ hge
    rw [← emitted_entered srand seed, hL.ids, List.mem_range'_1, ← hL.nextId, entered_nextId]
    exact ⟨hge, hP.alloc.fresh J hJ⟩
  · intro hwf
    rw [run_eq_foldl srand seed st ha]
    apply stable_visits st st.F.insts [] (st.entered srand seed) rfl
    · unfold WellFormed
      rw [entered_F, entered_nextId]
      exact hwf
    · exact Progress.of_entered srand seed st ha
    · intro rw hrw
      simp [rewirings, entered_replaced] at hrw
    · intro rw hrw
      simp [rewirings, entered_replaced] at hrw

/-- C14, witness: the pass on the two-block sample function, which defines
every value before its uses. -/
theorem structure_preserved_witness :
    Allocated sampleProgram ∧ WellFormed sampleProgram ∧
    (run zeroSrand 0 sampleProgram).F.length = 2 ∧
    (∀ rw ∈ rewirings sampleProgram (run zeroSrand 0 sampleProgram),
      ∀ J ∈ rw.before.insts, J.id = rw.old → J ∈ (run zeroSrand 0 sampleProgram).F.insts) :=
  have h := structure_preserved zeroSrand 0 sampleProgram ⟨by decide, by decide⟩
  ⟨⟨by decide, by decide⟩, ⟨by decide, by decide, by decide, by decide, by decide⟩, h.1,
    h.2.2.2.2.2.2.2.2.2 ⟨by decide, by decide, by decide, by decide, by decide⟩⟩

/-- C15, counterexample: on the function `%0 = add i8 a0, a1`, `%1 = other %0`
the first run rewrites `%0`, which leaves it without consumers, and the second
run rewrites `%0` again: it is substituted twice over the two runs. -/
theorem second_run_rewrites_again :
    (rewirings (sampleState .Add 8 []) (run zeroSrand 0 (sampleState .Add 8 []))).map
        Rewiring.old = [0] ∧
    (∀ J ∈ (run zeroSrand 0 (sampleState .Add 8 [])).F.insts,
      Value.instruction 0 ∉ J.operands) ∧
    (rewirings (run zeroSrand 0 (sampleState .Add 8 []))
        (run zeroSrand 0 (run zeroSrand 0 (sampleState .Add 8 [])))).map Rewiring.old
      = [3, 0] ∧
    ((rewirings (sampleState .Add 8 []) (run zeroSrand 0 (sampleState .Add 8 []))
        ++ rewirings (run zeroSrand 0 (sampleState .Add 8 []))
          (run zeroSrand 0 (run zeroSrand 0 (sampleState .Add 8 [])))).map
        Rewiring.old).count 0 = 2 := by
  decide

/-- C15, amended. Two runs in sequence on a function whose instructions have
identities of their own both return; each run substitutes every operation that
is a candidate when it starts exactly once, so no instruction is substituted
more than once per run; the candidates of the original function are
candidates again when the second run starts (the pass has no test for dead
instructions), so each of them is substituted exactly twice over the two runs,
and no instruction more than twice. -/
theorem two_runs_rewrite_once_each (srand1 srand2 : Int → Nat → Nat) (seed1 seed2 : Int)
    (st : State) (ha : Allocated st) :
    (rewirings st (run srand1 seed1 st)).map Rewiring.old = candidates st.F ∧
    (rewirings (run srand1 seed1 st) (run srand2 seed2 (run srand1 seed1 st))).map Rewiring.old
      = candidates (run srand1 seed1 st).F ∧
    (candidates st.F).Nodup ∧
    (candidates (run srand1 seed1 st).F).Nodup ∧
    (∀ id ∈ candidates st.F, id ∈ candidates (run srand1 seed1 st).F) ∧
    (∀ id, ((rewirings st (run srand1 seed1 st)
        ++ rewirings (run srand1 seed1 st) (run srand2 seed2 (run srand1 seed1 st))).map
        Rewiring.old).count id ≤ 2) ∧
    (∀ id ∈ candidates st.F, ((rewirings st (run srand1 seed1 st)
        ++ rewirings (run srand1 seed1 st) (run srand2 seed2 (run srand1 seed1 st))).map
        Rewiring.old).count id = 2) := by
  have ha1 : Allocated (run srand1 seed1 st) := (Progress.of_run srand1 seed1 st ha).alloc
  have h1 := run_rewires_candidates srand1 seed1 st ha
  have h2 := run_rewires_candidates srand2 seed2 _ ha1
  have hn1 : (candidates st.F).Nodup := (candidates_sublist st.F.insts).nodup ha.nodup
  have hn2 : (candidates (run srand1 seed1 st).F).Nodup :=
    (candidates_sublist (run srand1 seed1 st).F.insts).nodup ha1.nodup
  have hk := candidates_kept srand1 seed1 st ha
  refine ⟨h1, h2, hn1, hn2, hk, ?_, ?_⟩
  · intro id
    rw [List.map_append, List.count_append, h1, h2]
    have a := List.nodup_iff_count_le_one.1 hn1 id
    have b := List.nodup_iff_count_le_one.1 hn2 id
    omega
  · intro id hid
    rw [List.map_append, List.count_append, h1, h2, List.count_eq_one_of_mem hn1 hid,
      List.count_eq_one_of_mem hn2 (hk id hid)]

/-- C15, witness: two runs on the two-block sample function. -/
theorem two_runs_rewrite_once_each_witness :
    Allocated sampleProgram ∧
    (rewirings sampleProgram (run zeroSrand 0 sampleProgram)).map Rewiring.old
      = [0, 1, 4, 5, 6] ∧
    (∀ id ∈ candidates sampleProgram.F, id ∈ candidates (run zeroSrand 0 sampleProgram).F) :=
  have h := two_runs_rewrite_once_each zeroSrand zeroSrand 0 0 sampleProgram
    ⟨by decide, by decide⟩
  ⟨⟨by decide, by decide⟩, h.1, h.2.2.2.2.1⟩

/-- C16. Rule shape: every rule, applied to any operation in any state, emits
exactly the primitive operations the catalog lists, in that order and in the
number stated (2, 4, 3, 3, 2, 3, 3, 5, 11, 3, 7, 3, 7), with the operands of
its formula; it rewires the consumers of the operation exactly once, to the
result of the last emitted instruction; and it adds the number of emitted
instructions to `NumInstructionsInserted` and one to `NumSubstitutions`. -/
theorem rule_shape (ρ : Rule) (BI : BinaryOperator) (st : State) :
    (emitted st (ρ.apply BI st)).map Instruction.primitive = ρ.catalogOps.map some ∧
    (emitted st (ρ.apply BI st)).length = ρ.size ∧
    emitted st (ρ.apply BI st)
      = ρ.insts st.nextId BI.ty BI.op0 BI.op1 (ConstantInt.get BI.ty (st.rand st.randPos)) ∧
    (rewirings st (ρ.apply BI st)).map (fun rw => (rw.old, rw.new))
      = [(BI.id, Value.instruction (st.nextId + ρ.size - 1))] ∧
    (emitted st (ρ.apply BI st)).getLast?.map (fun e => Value.instruction e.id)
      = some (Value.instruction (st.nextId + ρ.size - 1)) ∧
    (ρ.apply BI st).NumInstructionsInserted = st.NumInstructionsInserted + ρ.size ∧
    (ρ.apply BI st).NumSubstitutions = st.NumSubstitutions + 1 := by
  rw [Rule.apply_eq, emitted_applied, rewirings_applied]
  cases ρ <;>
    simp [Rule.emits, Rule.insts, Rule.catalogOps, Rule.size, Instruction.primitive,
      State.applied, Instruction.id]

/-- C17. `xorSubstituteRand` is two `xorSubstitute` expansions and a xor: for
all operands `a`, `b` and the constant `r` drawn, the instructions it emits
are those `xorSubstitute` emits for the operands `(a, r)`, followed by those
`xorSubstitute` emits for the operands `(b, r)` (each expansion numbered from
where the previous one ends), followed by one xor of the two results; hence
the value it builds is the xor of the values of the two expansions. -/
theorem xorRand_is_two_xorPlain (id : Nat) (opc : BinaryOps) (w : Nat) (a b : Value)
    (st s1 s2 : State) (I : Interp) (regs : Nat → Nat)
    (hs1 : s1.nextId = st.nextId) (hs2 : s2.nextId = st.nextId + 5)
    (ha : a.definedBelow st.nextId) (hb : b.definedBelow st.nextId) :
    emitted st (xorSubstituteRand ⟨id, opc, w, a, b⟩ st)
      = emitted s1 (xorSubstitute ⟨id, opc, w, a, ConstantInt.get w (st.rand st.randPos)⟩ s1)
        ++ emitted s2
            (xorSubstitute ⟨id, opc, w, b, ConstantInt.get w (st.rand st.randPos)⟩ s2)
        ++ [.binary ⟨st.nextId + 10, .Xor, w, .instruction (st.nextId + 4),
              .instruction (st.nextId + 9)⟩] ∧
    finalValue s1 (xorSubstitute ⟨id, opc, w, a, ConstantInt.get w (st.rand st.randPos)⟩ s1)
      = some (.instruction (st.nextId + 4)) ∧
    finalValue s2 (xorSubstitute ⟨id, opc, w, b, ConstantInt.get w (st.rand st.randPos)⟩ s2)
      = some (.instruction (st.nextId + 9)) ∧
    finalValue st (xorSubstituteRand ⟨id, opc, w, a, b⟩ st)
      = some (.instruction (st.nextId + 10)) ∧
    builtValue I regs s1
        (xorSubstitute ⟨id, opc, w, a, ConstantInt.get w (st.rand st.randPos)⟩ s1)
      = some (evalBinary I .Xor w (evalValue I regs a) (st.rand st.randPos % 2 ^ w)) ∧
    builtValue I regs s2
        (xorSubstitute ⟨id, opc, w, b, ConstantInt.get w (st.rand st.randPos)⟩ s2)
      = some (evalBinary I .Xor w (evalValue I regs b) (st.rand st.randPos % 2 ^ w)) ∧
    builtValue I regs st (xorSubstituteRand ⟨id, opc, w, a, b⟩ st)
      = some (evalBinary I .Xor w
          (evalBinary I .Xor w (evalValue I regs a) (st.rand st.randPos % 2 ^ w))
          (evalBinary I .Xor w (evalValue I regs b) (st.rand st.randPos % 2 ^ w))) := by
  have e1 := emitted_apply .xorRand ⟨id, opc, w, a, b⟩ st
  have e2 := emitted_apply .xorPlain ⟨id, opc, w, a, ConstantInt.get w (st.rand st.randPos)⟩ s1
  have e3 := emitted_apply .xorPlain ⟨id, opc, w, b, ConstantInt.get w (st.rand st.randPos)⟩ s2
  have f1 := Rule.apply_eq .xorRand ⟨id, opc, w, a, b⟩ st
  have f2 := Rule.apply_eq .xorPlain ⟨id, opc, w, a, ConstantInt.get w (st.rand st.randPos)⟩ s1
  have f3 := Rule.apply_eq .xorPlain ⟨id, opc, w, b, ConstantInt.get w (st.rand st.randPos)⟩ s2
  have v1 := Rule.builtValue_apply .xorRand I regs ⟨id, opc, w, a, b⟩ st ha hb
  have v2 := Rule.builtValue_apply .xorPlain I regs
    ⟨id, opc, w, a, ConstantInt.get w (st.rand st.randPos)⟩ s1 (by rw [hs1]; exact ha) trivial
  have v3 := Rule.builtValue_apply .xorPlain I regs
    ⟨id, opc, w, b, ConstantInt.get w (st.rand st.randPos)⟩ s2
    (by rw [hs2]; exact Value.definedBelow_mono hb (by omega)) trivial
  simp only [Rule.apply] at e1 e2 e3 f1 f2 f3 v1 v2 v3
  refine ⟨?_, ?_, ?_, ?_, ?_, ?_, ?_⟩
  · rw [e1, e2, e3]
    simp [Rule.emits, Rule.insts, hs1, hs2, Nat.add_assoc]
  · rw [f2]
    simp [finalValue, rewirings_applied, Rule.emits, Rule.insts, hs1]
  · rw [f3]
    simp [finalValue, rewirings_applied, Rule.emits, Rule.insts, hs2, Nat.add_assoc]
  · rw [f1]
    simp [finalValue, rewirings_applied, Rule.emits, Rule.insts]
  · rw [v2]
    simp [Rule.opcode, ConstantInt.get]
  · rw [v3]
    simp [Rule.opcode, ConstantInt.get]
  · rw [v1]
    simp only [Rule.opcode, evalBinary, Nat.mod_mod]
    rw [xor_of_xors]

/-- C17, witness: `%0 = xor i8 a0, a1` with the constant 77 drawn. -/
theorem xorRand_is_two_xorPlain_witness :
    emitted (sampleState .Xor 8 [77]) (xorSubstituteRand (sampleOp .Xor 8) (sampleState .Xor 8 [77]))
      = emitted (sampleState .Xor 8 [])
          (xorSubstitute ⟨0, .Xor, 8, .argument 0, .constant 77⟩ (sampleState .Xor 8 []))
        ++ emitted (xorSubstitute (sampleOp .Xor 8) (sampleState .Xor 8 []))
            (xorSubstitute ⟨0, .Xor, 8, .argument 1, .constant 77⟩
              (xorSubstitute (sampleOp .Xor 8) (sampleState .Xor 8 [])))
        ++ [.binary ⟨12, .Xor, 8, .instruction 6, .instruction 11⟩] :=
  (xorRand_is_two_xorPlain 0 .Xor 8 (.argument 0) (.argument 1) (sampleState .Xor 8 [77])
    (sampleState .Xor 8 []) (xorSubstitute (sampleOp .Xor 8) (sampleState .Xor 8 []))
    (sampleInterp 5 3) zeroRegs rfl rfl trivial trivial).1

/-- C18. Both xor rules are reachable and chosen by a mod-2 draw:
`substituteXor` draws twice and applies `xorSubstitute` when the second value
is even and `xorSubstituteRand` when it is odd, whatever the first value; each
of the two rules is applied for some random stream. -/
theorem xor_rule_chosen_by_second_draw (BI : BinaryOperator) (st : State) :
    substituteXor BI st
      = (if st.rand (st.randPos + 1) % 2 = 0
          then xorSubstitute BI { st with randPos := st.randPos + 2 }
          else xorSubstituteRand BI { st with randPos := st.randPos + 2 }) ∧
    (∃ draws : List Nat,
      substituteXor BI { st with rand := fun i => draws.getD i 0, randPos := 0 }
        = xorSubstitute BI { st with rand := fun i => draws.getD i 0, randPos := 2 }) ∧
    (∃ draws : List Nat,
      substituteXor BI { st with rand := fun i => draws.getD i 0, randPos := 0 }
        = xorSubstituteRand BI { st with rand := fun i => draws.getD i 0, randPos := 2 }) := by
  have key : ∀ s : State, substituteXor BI s
      = (if s.rand (s.randPos + 1) % 2 = 0
          then xorSubstitute BI { s with randPos := s.randPos + 2 }
          else xorSubstituteRand BI { s with randPos := s.randPos + 2 }) := by
    intro s
    have h2 : s.rand (s.randPos + 1) % 2 < 2 := Nat.mod_lt _ (by decide)
    simp only [substituteXor, getRandomNumber]
    interval_cases hd : s.rand (s.randPos + 1) % 2 <;> simp
  refine ⟨key st, ⟨[5, 0], ?_⟩, ⟨[4, 1], ?_⟩⟩
  · rw [key]
    simp
  · rw [key]
    simp

/-- C19. Random draws consumed per substitution: when the dispatcher of an
operation selects the rule `ρ`, `substitute` draws `selectDraws` values to
select it (two for Xor, one otherwise; the last of them decides) and `ρ` draws
one further value for its constant `r` when it is a rand rule and none
otherwise, so the stream advances by their sum; `r` is the value at the
position after the selecting draws, never a selecting draw, and a rule that is
no rand rule emits the same instructions whatever that value. After a run on a
function with unique identities the stream position is the position on entry
(`0` after reseeding) plus the sum of these counts over the rules applied,
which are applied to the rewritten operations, one each. -/
theorem draws_per_substitution (BI : BinaryOperator) (st : State) (ρ : Rule)
    (srand : Int → Nat → Nat) (seed : Int) (st0 : State)
    (hd : dispatch BI.opcode st = some ρ) (ha : Allocated st0) :
    substitute BI st = ρ.apply BI { st with randPos := st.randPos + selectDraws BI.opcode } ∧
    (substitute BI st).randPos = st.randPos + selectDraws BI.opcode + ρ.draws ∧
    selectDraws BI.opcode = (if BI.opcode = .Xor then 2 else 1) ∧
    selectRule BI.opcode (st.rand (st.randPos + selectDraws BI.opcode - 1)) = some ρ ∧
    (ρ.draws = 1 ↔ ρ ∈ [Rule.addRand, .addRand2, .subRand, .subRand2, .xorRand, .andRand,
      .orRand]) ∧
    (ρ.draws = 0 ↔ ρ ∈ [Rule.addNeg, .addDoubleNeg, .subNeg, .xorPlain, .andPlain, .orPlain]) ∧
    emitted st (substitute BI st)
      = ρ.insts st.nextId BI.ty BI.op0 BI.op1
          (ConstantInt.get BI.ty (st.rand (st.randPos + selectDraws BI.opcode))) ∧
    (ρ.draws = 0 → ∀ r, emitted st (substitute BI st)
      = ρ.insts st.nextId BI.ty BI.op0 BI.op1 r) ∧
    st.randPos + selectDraws BI.opcode - 1 < st.randPos + selectDraws BI.opcode ∧
    (run srand seed st0).randPos
      = (st0.entered srand seed).randPos
        + ((runRules srand seed st0).map (fun p => selectDraws p.2.opcode + p.2.draws)).sum ∧
    (st0.entered srand seed).randPos = (if seed ≠ 0 then 0 else st0.randPos) ∧
    (runRules srand seed st0).map Prod.fst
      = (rewirings st0 (run srand seed st0)).map Rewiring.old := by
  have hsub : substitute BI st
      = ρ.apply BI { st with randPos := st.randPos + selectDraws BI.opcode } := by
    rw [substitute_eq, hd]
  have hem : emitted st (substitute BI st)
      = ρ.insts st.nextId BI.ty BI.op0 BI.op1
          (ConstantInt.get BI.ty (st.rand (st.randPos + selectDraws BI.opcode))) := by
    rw [hsub, Rule.apply_eq_result]
    exact emitted_applied BI _ _ _ { st with randPos := st.randPos + selectDraws BI.opcode }
  have hL := Ledger.whole_run srand seed st0 ha
  refine ⟨hsub, ?_, rfl, ?_, ?_, ?_, hem, ?_, ?_, hL.randPos, ?_, ?_⟩
  · rw [hsub, Rule.apply_eq_result]
    rfl
  · rw [← hd]
    unfold dispatch selectDraws
    split <;> rfl
  · cases ρ <;> simp [Rule.draws]
  · cases ρ <;> simp [Rule.draws]
  · intro h0 r
    rw [hem]
    cases ρ <;> first | rfl | simp [Rule.draws] at h0
  · unfold selectDraws
    split <;> omega
  · unfold State.entered incNumInstructionsInserted incNumSubstitutions
    split <;> rfl
  · rw [← hL.olds, rewirings_entered]

/-- C19, witness: the Xor dispatcher selecting `xorRand` by its second draw, and
the pass on the two-block sample function. -/
theorem draws_per_substitution_witness :
    dispatch (sampleOp .Xor 8).opcode (sampleState .Xor 8 [0, 1, 77]) = some .xorRand ∧
    Allocated sampleProgram ∧
    (substitute (sampleOp .Xor 8) (sampleState .Xor 8 [0, 1, 77])).randPos = 0 + 2 + 1 ∧
    (run zeroSrand 0 sampleProgram).randPos
      = 0 + ((1 + 1) + (2 + 1) + (1 + 1) + (1 + 0) + (1 + 1)) :=
  have h := draws_per_substitution (sampleOp .Xor 8) (sampleState .Xor 8 [0, 1, 77]) .xorRand
    zeroSrand 0 sampleProgram (by decide) ⟨by decide, by decide⟩
  ⟨by decide, ⟨by decide, by decide⟩, h.2.1, h.2.2.2.2.2.2.2.2.2.1⟩

end polaris
